import Mathlib

/-!
Verification development for the schedule-transformation and tensorization
engine described by this repository's documentation.  The repository itself
ships only tutorial pages with captured lowered-IR output (there is no
scheduler implementation under src/), so the engine is modelled from the
specification and cross-checked against the lowered loop nests printed in
`src/unnamed/part_003` (schedule primitives) and
`src/_sources/generated_tutorials/language/tensorize.rst.txt` (reductions
and tensorization).
-/

namespace TVM

/-- Modelled from the spec: the scheduling error taxonomy of §7 that the
transformation primitives of §4.3 can raise. -/
inductive SErr where
  | invalidAxisReference
  | nonAdjacentAxes
  | duplicateAxis
  | duplicateBinding
  | notADependency
  | patternMismatch
deriving DecidableEq, Repr

/-- Modelled from the spec: one step of IterVar transformation history
(§3 IterVar, §9 design notes).  `split p o i ei` records that leaf axis `p`
was replaced by outer `o` and inner `i`, with the original index recovered
as `o * ei + i` where `ei` is the inner axis extent (this matches the
captured lowering `(i.outer*32) + i.inner` for `factor` splits and
`i.inner + i.outer*ceil(m/32)` for `nparts` splits).  `fuse o i fz ei`
records that adjacent leaves `o`,`i` were replaced by `fz`, with the
original indices recovered as `fz / ei` and `fz % ei` (matching the
captured `floordiv`/`floormod` output). -/
inductive Rel where
  | split (p o i ei : Nat)
  | fuse (o i fz ei : Nat)
deriving DecidableEq, Repr

/-- Axis ids consumed by one relation (the IterVars it rewrites away). -/
def Rel.consumed : Rel → List Nat
  | .split p _ _ _ => [p]
  | .fuse o i _ _ => [o, i]

/-- Axis ids produced by one relation (the fresh IterVars). -/
def Rel.produced : Rel → List Nat
  | .split _ o i _ => [o, i]
  | .fuse _ _ fz _ => [fz]

/-- All axis ids mentioned by one relation. -/
def Rel.ids (r : Rel) : List Nat := r.consumed ++ r.produced

/-- Modelled from the spec: the mutable per-operation Stage state (§3):
extents of every IterVar created so far, the reduction-kind flag of each
IterVar, the current leaf-axis list, the transformation-history relations,
a fresh-id counter, and the op's original (root) axes. -/
structure Stage where
  ext : Nat → Nat
  red : Nat → Bool
  leaves : List Nat
  rels : List Rel
  nextId : Nat
  roots : List Nat

/-- Ceiling division, the extent arithmetic the spec prescribes for `split`. -/
def ceilDiv (e f : Nat) : Nat := (e + f - 1) / f

/-- Rewrite one recovery step: express the axes consumed by `r` in terms of
the valuation of the axes produced by `r`. -/
def applyRel (r : Rel) (v : Nat → Nat) : Nat → Nat :=
  match r with
  | .split p o i ei => fun a => if a = p then v o * ei + v i else v a
  | .fuse o i fz ei => fun a => if a = o then v fz / ei else if a = i then v fz % ei else v a

/-- Recover the value of any axis (in particular an original root axis)
from a valuation of the current leaf axes, by replaying the transformation
history child-to-parent. -/
def recover (rels : List Rel) (v : Nat → Nat) : Nat → Nat :=
  match rels with
  | [] => v
  | r :: rs => applyRel r (recover rs v)

/-- Boundary predicates required by the lowering: a split contributes a
bounds guard `recovered parent < parent extent` exactly when the split
axes over-cover the parent extent (extent not evenly divisible).  Fuses
contribute no guard of their own. -/
def guards : List Rel → (Nat → Nat) → List (Nat × Nat)
  | [], _ => []
  | .split p o i _ :: rs, ext =>
    if ext o * ext i = ext p then guards rs ext else (p, ext p) :: guards rs ext
  | .fuse _ _ _ _ :: rs, ext => guards rs ext

/-- Replace one leaf axis by two fresh ones, in place. -/
def replaceLeaf (ls : List Nat) (ax o i : Nat) : List Nat :=
  match ls with
  | [] => []
  | l :: rest => if l = ax then o :: i :: rest else l :: replaceLeaf rest ax o i

/-- Replace an adjacent pair of leaves by one fresh fused leaf, in place. -/
def replacePair (ls : List Nat) (axo axi fz : Nat) : List Nat :=
  match ls with
  | [] => []
  | [l] => [l]
  | a :: b :: rest =>
    if a = axo ∧ b = axi then fz :: rest else a :: replacePair (b :: rest) axo axi fz

/-- Adjacency test: `x` directly encloses `y` in the current leaf order. -/
def isAdjacent (ls : List Nat) (x y : Nat) : Bool :=
  match ls with
  | [] => false
  | [_] => false
  | a :: b :: rest => (a = x ∧ b = y : Bool) || isAdjacent (b :: rest) x y

/-- Shared core of both split forms: consume `ax`, produce fresh outer and
inner axes with the given extents, record the relation. -/
def splitCore (st : Stage) (ax oExt iExt : Nat) : Stage × Nat × Nat :=
  let o := st.nextId
  let i := st.nextId + 1
  ({ ext := fun a => if a = o then oExt else if a = i then iExt else st.ext a
     red := fun a => if a = o || a = i then st.red ax else st.red a
     leaves := replaceLeaf st.leaves ax o i
     rels := st.rels ++ [.split ax o i iExt]
     nextId := st.nextId + 2
     roots := st.roots }, o, i)

/-- Modelled from the spec: `split(axis, factor=f)` (§4.3).  Replaces a
leaf axis of extent `e` by an outer axis of extent `ceil(e/f)` and an
inner axis of extent `f`; fails with `InvalidAxisReference` when the axis
is not currently a leaf. -/
def splitF (st : Stage) (ax f : Nat) : Except SErr (Stage × Nat × Nat) :=
  if ax ∈ st.leaves then .ok (splitCore st ax (ceilDiv (st.ext ax) f) f)
  else .error .invalidAxisReference

/-- Modelled from the spec: `split(axis, nparts=p)` (§4.3).  The outer
extent is exactly `p` and the inner extent is `ceil(e/p)`. -/
def splitN (st : Stage) (ax p : Nat) : Except SErr (Stage × Nat × Nat) :=
  if ax ∈ st.leaves then .ok (splitCore st ax p (ceilDiv (st.ext ax) p))
  else .error .invalidAxisReference

/-- Modelled from the spec: `fuse(axis_outer, axis_inner)` (§4.3).  The two
axes must be adjacent in the current leaf order; the fused extent is the
product of the two extents. -/
def fuseP (st : Stage) (axo axi : Nat) : Except SErr (Stage × Nat) :=
  if isAdjacent st.leaves axo axi then
    let fz := st.nextId
    .ok ({ ext := fun a => if a = fz then st.ext axo * st.ext axi else st.ext a
           red := fun a => if a = fz then st.red axo || st.red axi else st.red a
           leaves := replacePair st.leaves axo axi fz
           rels := st.rels ++ [.fuse axo axi fz (st.ext axi)]
           nextId := st.nextId + 1
           roots := st.roots }, fz)
  else if axo ∈ st.leaves ∧ axi ∈ st.leaves then .error .nonAdjacentAxes
  else .error .invalidAxisReference

/-- Walk the leaf list left to right; at every position holding a listed
axis emit the next not-yet-placed listed axis, and keep every unlisted
axis in place.  This realizes the spec's `reorder`: listed axes are
repositioned to the given relative order, unlisted axes keep their
positions. -/
def placeAxes (ls : List Nat) (mem : Nat → Bool) (pending : List Nat) : List Nat :=
  match ls, pending with
  | [], _ => []
  | l :: rest, [] => l :: placeAxes rest mem []
  | l :: rest, p :: ps =>
    if mem l then p :: placeAxes rest mem ps else l :: placeAxes rest mem (p :: ps)

/-- Reorder the leaf list so that the axes listed in `axs` appear in that
relative order while unlisted axes keep their positions. -/
def reorderList (ls axs : List Nat) : List Nat :=
  placeAxes ls (fun l => l ∈ axs) axs

/-- Modelled from the spec: `reorder(axes...)` (§4.3).  Fails with
`DuplicateAxis` when an axis is listed twice and `InvalidAxisReference`
when a listed axis is not a current leaf. -/
def reorderP (st : Stage) (axs : List Nat) : Except SErr Stage :=
  if ¬ axs.Nodup then .error .duplicateAxis
  else if axs.all (fun a => a ∈ st.leaves) then .ok { st with leaves := reorderList st.leaves axs }
  else .error .invalidAxisReference

/-- Modelled from the spec: `tile(ax0, ax1, xf, yf)` is sugar for two
splits followed by a reorder to `(outer0, outer1, inner0, inner1)`. -/
def tileP (st : Stage) (ax0 ax1 xf yf : Nat) : Except SErr (Stage × Nat × Nat × Nat × Nat) :=
  match splitF st ax0 xf with
  | .error e => .error e
  | .ok (st1, xo, xi) =>
    match splitF st1 ax1 yf with
    | .error e => .error e
    | .ok (st2, yo, yi) =>
      match reorderP st2 [xo, yo, xi, yi] with
      | .error e => .error e
      | .ok st3 => .ok (st3, xo, yo, xi, yi)

/-- Initial stage for a fresh schedule: one root axis per output dimension,
ids `0..d-1`, all data-parallel, no history (§4.2). -/
def initStage (exts : List Nat) : Stage :=
  { ext := fun a => exts.getD a 0
    red := fun _ => false
    leaves := List.range exts.length
    rels := []
    nextId := exts.length
    roots := List.range exts.length }

/-- Index expressions of the lowered IR: loop variables (by axis id),
literals, sums, products, and floor-division / floor-modulus by a
constant, exactly the operators appearing in the captured lowered
output (`floordiv`, `floormod`). -/
inductive IExpr where
  | var (a : Nat)
  | lit (n : Nat)
  | add (e₁ e₂ : IExpr)
  | mul (e₁ e₂ : IExpr)
  | fdiv (e : IExpr) (c : Nat)
  | fmod (e : IExpr) (c : Nat)
deriving DecidableEq, Repr

/-- Loop-variable environments of the lowered IR. -/
def Env : Type := Nat → Nat

/-- Update an environment at one loop variable. -/
def upd (env : Env) (x k : Nat) : Env := fun a => if a = x then k else env a

/-- Evaluate an index expression. -/
def evalI (env : Env) : IExpr → Nat
  | .var a => env a
  | .lit n => n
  | .add e₁ e₂ => evalI env e₁ + evalI env e₂
  | .mul e₁ e₂ => evalI env e₁ * evalI env e₂
  | .fdiv e c => evalI env e / c
  | .fmod e c => evalI env e % c

/-- Substitute index expressions for variables, homomorphically. -/
def substI (g : Nat → IExpr) : IExpr → IExpr
  | .var a => g a
  | .lit n => .lit n
  | .add e₁ e₂ => .add (substI g e₁) (substI g e₂)
  | .mul e₁ e₂ => .mul (substI g e₁) (substI g e₂)
  | .fdiv e c => .fdiv (substI g e) c
  | .fmod e c => .fmod (substI g e) c

/-- Symbolic recovery: the index expression, over the current leaf loop
variables, whose value is the recovered value of an axis.  Mirrors
`recover` at the expression level. -/
def recEs (rels : List Rel) : Nat → IExpr :=
  match rels with
  | [] => .var
  | r :: rs =>
    let b := recEs rs
    match r with
    | .split p o i ei => fun a => if a = p then .add (.mul (b o) (.lit ei)) (b i) else b a
    | .fuse o i fz ei => fun a => if a = o then .fdiv (b fz) ei else if a = i then .fmod (b fz) ei else b a

/-- Scalar expressions of the lowered IR: integer literals, loads from a
buffer at a list of index expressions, sums and products. -/
inductive SExpr where
  | litS (z : Int)
  | loadS (buf : Nat) (ixs : List IExpr)
  | addS (e₁ e₂ : SExpr)
  | mulS (e₁ e₂ : SExpr)
deriving DecidableEq, Repr

/-- Buffer stores: a value for every buffer id and index vector. -/
def Store : Type := Nat → List Nat → Int

/-- Point update of a store. -/
def updStore (σ : Store) (buf : Nat) (ix : List Nat) (v : Int) : Store :=
  fun b j => if b = buf ∧ j = ix then v else σ b j

/-- Evaluate a scalar expression against an environment and a store. -/
def evalS (env : Env) (σ : Store) : SExpr → Int
  | .litS z => z
  | .loadS buf ixs => σ buf (ixs.map (evalI env))
  | .addS e₁ e₂ => evalS env σ e₁ + evalS env σ e₂
  | .mulS e₁ e₂ => evalS env σ e₁ * evalS env σ e₂

/-- Substitute index expressions for variables inside all load indices. -/
def substSE (g : Nat → IExpr) : SExpr → SExpr
  | .litS z => .litS z
  | .loadS buf ixs => .loadS buf (ixs.map (substI g))
  | .addS e₁ e₂ => .addS (substSE g e₁) (substSE g e₂)
  | .mulS e₁ e₂ => .mulS (substSE g e₁) (substSE g e₂)

/-- Modelled from the spec: the LoopNestModule IR (§4.4 output): a tree of
loops, conditional bounds guards, stores, and opaque external calls. -/
inductive Stmt where
  | skip
  | seq (s₁ s₂ : Stmt)
  | forL (x n : Nat) (body : Stmt)
  | ifLt (e : IExpr) (bound : Nat) (body : Stmt)
  | store (buf : Nat) (ixs : List IExpr) (rhs : SExpr)
  | call (fname : String) (args : List IExpr)
deriving DecidableEq, Repr

/-- Ascending iteration: apply `g 0`, then `g 1`, …, `g (n-1)`. -/
def iterUp (g : Nat → Store → Store) : Nat → Store → Store
  | 0, σ => σ
  | n + 1, σ => g n (iterUp g n σ)

/-- Interpretation of external (intrinsic) calls: a store transformer per
call name and evaluated argument list. -/
def ExtSem : Type := String → List Nat → Store → Store

/-- Operational semantics of the lowered IR. -/
def run (ι : ExtSem) : Stmt → Env → Store → Store
  | .skip, _, σ => σ
  | .seq s₁ s₂, env, σ => run ι s₂ env (run ι s₁ env σ)
  | .forL x n body, env, σ => iterUp (fun k => run ι body (upd env x k)) n σ
  | .ifLt e bound body, env, σ => if evalI env e < bound then run ι body env σ else σ
  | .store buf ixs rhs, env, σ => updStore σ buf (ixs.map (evalI env)) (evalS env σ rhs)
  | .call f args, env, σ => ι f (args.map (evalI env)) σ

/-- Ascending iteration collecting lists: `g 0 ++ g 1 ++ … ++ g (n-1)`. -/
def evIter (g : Nat → List (Nat × List Nat)) : Nat → List (Nat × List Nat)
  | 0 => []
  | n + 1 => evIter g n ++ g n

/-- The ordered list of store events (buffer, index vector) a statement
executes; guards filter events, calls produce none. -/
def events : Stmt → Env → List (Nat × List Nat)
  | .skip, _ => []
  | .seq s₁ s₂, env => events s₁ env ++ events s₂ env
  | .forL x n body, env => evIter (fun k => events body (upd env x k)) n
  | .ifLt e bound body, env => if evalI env e < bound then events body env else []
  | .store buf ixs _, env => [(buf, ixs.map (evalI env))]
  | .call _ _, _ => []

/-- Nested `for` constructs, one per listed leaf axis, outer to inner. -/
def buildFors (ext : Nat → Nat) (ls : List Nat) (inner : Stmt) : Stmt :=
  ls.foldr (fun l acc => .forL l (ext l) acc) inner

/-- Wrap a statement in the bounds guards demanded by the transformation
history: one `ifLt` per over-covering split, each testing the recovered
parent index against the parent extent. -/
def buildGuards (rels : List Rel) (gs : List (Nat × Nat)) (inner : Stmt) : Stmt :=
  gs.foldr (fun g acc => .ifLt (recEs rels g.1) g.2 acc) inner

/-- An elementwise (single-output, non-reduction) operation: an output
buffer and a body expression over the stage's root axis variables. -/
structure ElemOp where
  out : Nat
  body : SExpr

/-- Modelled from the spec: lowering of one root-position elementwise
stage (§4.4 steps 2-3): nested loops over the leaf axes in leaf order,
boundary guards for every over-covering split, and the store of the body
with every original axis variable replaced by its recovery expression. -/
def lowerElem (st : Stage) (op : ElemOp) : Stmt :=
  buildFors st.ext st.leaves
    (buildGuards st.rels (guards st.rels st.ext)
      (.store op.out (st.roots.map (recEs st.rels)) (substSE (recEs st.rels) op.body)))

/-- Totalized split: keep the prior stage on error (the caller-facing
behaviour demanded by §7: a failing call leaves the schedule unchanged). -/
def stepF (st : Stage) (ax f : Nat) : Stage :=
  match splitF st ax f with
  | .ok (s, _, _) => s
  | .error _ => st

/-- Totalized reorder. -/
def stepReorder (st : Stage) (axs : List Nat) : Stage :=
  match reorderP st axs with
  | .ok s => s
  | .error _ => st

/-- Totalized fuse. -/
def stepFuse (st : Stage) (axo axi : Nat) : Stage :=
  match fuseP st axo axi with
  | .ok (s, _) => s
  | .error _ => st

/-- The matmul stage of the tensorize tutorial: `C[i,j] = Σ_k A[i,k]*B[j,k]`
with axes `i ↦ 0` (extent N), `j ↦ 1` (extent M) and reduction `k ↦ 2`
(extent L); buffers are flat: `A = 0`, `B = 1`, `C = 2`. -/
def matmulInit (N M L : Nat) : Stage :=
  { ext := fun a => if a = 0 then N else if a = 1 then M else if a = 2 then L else 0
    red := fun a => a = 2
    leaves := [0, 1, 2]
    rels := []
    nextId := 3
    roots := [0, 1, 2] }

/-- The tutorial's first tensorize schedule applied to the matmul stage:
`yo, yi = split(y, factor=f); reorder(x, yo, yi, z)` (axis ids: `yo ↦ 3`,
`yi ↦ 4`). -/
def s1Stage (N M L f : Nat) : Stage :=
  stepReorder (stepF (matmulInit N M L) 1 f) [0, 3, 4, 2]

/-- Modelled from the spec: lowering of the (non-tensorized) matmul
reduction stage (§4.4 step 2): nested loops over the leaves in leaf order,
with the initialization write of the reduction identity emitted under the
innermost data-parallel loop enclosing all reduction leaves, before the
reduction loops, once per output element — matching the captured lowering
in the tensorize tutorial (the `C = 0` store sits under the data-parallel
loops and precedes the `k` loop). -/
def lowerMatmul (st : Stage) : Stmt :=
  let gs := guards st.rels st.ext
  let pos := st.leaves.findIdx st.red
  let outer := st.leaves.take pos
  let rest := st.leaves.drop pos
  let restDp := rest.filter (fun l => ! st.red l)
  let em := st.ext 1
  let el := st.ext 2
  let ci : IExpr := .add (.mul (recEs st.rels 0) (.lit em)) (recEs st.rels 1)
  let ai : IExpr := .add (.mul (recEs st.rels 0) (.lit el)) (recEs st.rels 2)
  let bi : IExpr := .add (.mul (recEs st.rels 1) (.lit el)) (recEs st.rels 2)
  let dpGs := gs.filter (fun g => ! st.red g.1)
  buildFors st.ext outer (.seq
    (buildFors st.ext restDp (buildGuards st.rels dpGs (.store 2 [ci] (.litS 0))))
    (buildFors st.ext rest (buildGuards st.rels gs
      (.store 2 [ci] (.addS (.loadS 2 [ci]) (.mulS (.loadS 0 [ai]) (.loadS 1 [bi])))))))

/-- The loop nest the tensorize tutorial prints for the naive matmul
schedule: loops over `x` and `y`, the `C = 0` init store, then the
reduction loop over `k` accumulating `A[x,k]*B[y,k]`. -/
def mm0Nest (N M L : Nat) : Stmt :=
  .forL 0 N (.forL 1 M
    (.seq (.store 2 [.add (.mul (.var 0) (.lit M)) (.var 1)] (.litS 0))
      (.forL 2 L (.store 2 [.add (.mul (.var 0) (.lit M)) (.var 1)]
        (.addS (.loadS 2 [.add (.mul (.var 0) (.lit M)) (.var 1)])
          (.mulS (.loadS 0 [.add (.mul (.var 0) (.lit L)) (.var 2)])
            (.loadS 1 [.add (.mul (.var 1) (.lit L)) (.var 2)])))))))

/-- The loop nest the tensorize tutorial prints for the split matmul
schedule `split(y, factor=f); reorder(x, yo, yi, z)`: loops over `x`,
`y.outer`, `y.inner`, the `C = 0` init store, then the reduction loop,
with `y` recovered as `yo*f + yi`. -/
def mm1Nest (N M L f : Nat) : Stmt :=
  .forL 0 N (.forL 3 (ceilDiv M f) (.forL 4 f
    (.seq
      (.store 2 [.add (.mul (.var 0) (.lit M))
        (.add (.mul (.var 3) (.lit f)) (.var 4))] (.litS 0))
      (.forL 2 L (.store 2 [.add (.mul (.var 0) (.lit M))
          (.add (.mul (.var 3) (.lit f)) (.var 4))]
        (.addS (.loadS 2 [.add (.mul (.var 0) (.lit M))
            (.add (.mul (.var 3) (.lit f)) (.var 4))])
          (.mulS (.loadS 0 [.add (.mul (.var 0) (.lit L)) (.var 2)])
            (.loadS 1 [.add (.mul (.add (.mul (.var 3) (.lit f)) (.var 4)) (.lit L))
              (.var 2)]))))))))

/-- Semantics of the external `gemv_update(cc, aa, bb, m, l, stride)` call,
transcribed from the C source printed in the tensorize tutorial:
`for i < m: for j < l: cc[i] += aa[j] * bb[i*stride + j]`.  Buffer ids and
base offsets stand for the access pointers. -/
def gemvUpdateRun (cb co ab ao b3 bo m l s : Nat) (σ : Store) : Store :=
  iterUp (fun ii σ₁ =>
    iterUp (fun j σ₂ =>
      updStore σ₂ cb [co + ii] (σ₂ cb [co + ii] + σ₂ ab [ao + j] * σ₂ b3 [bo + ii * s + j]))
      l σ₁) m σ

/-- Semantics of the external `gemv_reset(cc, m)` call, transcribed from
the C source printed in the tensorize tutorial: `for i < m: cc[i] = 0`. -/
def gemvResetRun (cb co m : Nat) (σ : Store) : Store :=
  iterUp (fun ii σ₁ => updStore σ₁ cb [co + ii] 0) m σ

/-- External-call interpretation installing the two GEMV intrinsics. -/
def gemvSem : ExtSem := fun name args σ =>
  if name = "gemv_update" then
    match args with
    | [cb, co, ab, ao, b3, bo, m, l, s] => gemvUpdateRun cb co ab ao b3 bo m l s σ
    | _ => σ
  else if name = "gemv_reset" then
    match args with
    | [cb, co, m] => gemvResetRun cb co m σ
    | _ => σ
  else σ

/-- Accumulator access of the tensorized matmul: the C region written by
one intrinsic call starts at `i*M + jo*f`. -/
def ccOff (M f : Nat) : IExpr := .add (.mul (.var 0) (.lit M)) (.mul (.var 3) (.lit f))

/-- Modelled from the spec: lowering of the matmul after
`split(y, factor=f); reorder(x, yo, yi, z); tensorize(yi, gemv)` when the
tensorized region covers the full reduction axis (§4.4 step 6): the loop
nest rooted at `yi` is removed and a single opaque body call is emitted
per `(i, j.outer)` iteration — matching the captured call
`gemv_update(C + i*512 + jo*16, A + i*64, B + jo*1024, 16, 64, 64)`. -/
def lowerTensorFull (N M L f : Nat) : Stmt :=
  .forL 0 N (.forL 3 (M / f)
    (.call "gemv_update"
      [.lit 2, ccOff M f, .lit 0, .mul (.var 0) (.lit L), .lit 1,
       .mul (.var 3) (.lit (f * L)), .lit f, .lit L, .lit L]))

/-- Modelled from the spec: lowering after additionally
`split(z, factor=f); reorder(x, yo, zo, yi, zi); tensorize(yi, gemv')`
when the tensorized region covers only part of the split reduction axis
(§4.4 step 6): one `gemv_reset` call at each outer-reduction-loop trip
boundary (per `(i, j.outer)` pair) followed by one `gemv_update` call per
outer-reduction iteration `z.outer ↦ 5`, both threading the same
accumulator region of `C`. -/
def lowerTensorPartial (N M L f : Nat) : Stmt :=
  .forL 0 N (.forL 3 (M / f)
    (.seq (.call "gemv_reset" [.lit 2, ccOff M f, .lit f])
      (.forL 5 (L / f)
        (.call "gemv_update"
          [.lit 2, ccOff M f, .lit 0,
           .add (.mul (.var 0) (.lit L)) (.mul (.var 5) (.lit f)), .lit 1,
           .add (.mul (.var 3) (.lit (f * L))) (.mul (.var 5) (.lit f)),
           .lit f, .lit f, .lit L]))))

/-- Number of calls to a named external function a statement performs,
counted with loop multiplicity. -/
def callCount : Stmt → String → Nat
  | .skip, _ => 0
  | .seq a b, f => callCount a f + callCount b f
  | .forL _ n b, f => n * callCount b f
  | .ifLt _ _ b, f => callCount b f
  | .store _ _ _, _ => 0
  | .call g _, f => if g = f then 1 else 0

/-- Number of initialization stores (stores of the reduction identity `0`)
a statement performs, counted with loop multiplicity. -/
def initCount : Stmt → Nat
  | .skip => 0
  | .seq a b => initCount a + initCount b
  | .forL _ n b => n * initCount b
  | .ifLt _ _ b => initCount b
  | .store _ _ rhs => if rhs = .litS 0 then 1 else 0
  | .call _ _ => 0

/-- Dot product of a row of buffer `0` and a row of buffer `1`. -/
def dotAB (σ : Store) (aOff bOff len : Nat) : Int :=
  ((List.range len).map (fun t => σ 0 [aOff + t] * σ 1 [bOff + t])).sum

/-- Overwrite the contiguous region `[co, co + m)` of (flat) buffer `2`
with the values of `g`, relative to the region base. -/
def setRow (σ : Store) (co m : Nat) (g : Nat → Int) : Store :=
  fun b ix =>
    if b = 2 then
      match ix with
      | [t] => if co ≤ t ∧ t < co + m then g (t - co) else σ 2 [t]
      | _ => σ 2 ix
    else σ b ix

/-- Accumulate the values of `g` into the contiguous region `[co, co + m)`
of (flat) buffer `2`. -/
def accumRow (σ : Store) (co m : Nat) (g : Nat → Int) : Store :=
  fun b ix =>
    if b = 2 then
      match ix with
      | [t] => if co ≤ t ∧ t < co + m then σ 2 [t] + g (t - co) else σ 2 [t]
      | _ => σ 2 ix
    else σ b ix

/-- The reference matmul value: `C[i,j] = Σ_{k<L} A[i,k] * B[j,k]`. -/
def matmulSpec (σ : Store) (L i j : Nat) : Int := dotAB σ (i * L) (j * L) L

/-- Two-stage elementwise pipeline of the schedule-primitives tutorial:
placeholder `A ↦ buffer 0`, producer `B ↦ buffer 1` with body `fB` over
its root axis `0`, consumer `C ↦ buffer 2` with body `gC` over its root
axis `1`.  Root lowering: one full loop per stage, producer first. -/
def lowerPipeRoot (m : Nat) (fB gC : SExpr) : Stmt :=
  .seq (.forL 0 m (.store 1 [.var 0] fB)) (.forL 1 m (.store 2 [.var 1] gC))

/-- Modelled from the spec: lowering after `compute_at(s[C], C.op.axis[0])`
(§4.4 step 4): the producer's loop body is nested inside the consumer's
loop at that axis, narrowed to computing exactly the one element the
consumer reads in that iteration — matching the captured single shared
loop that stores `B[i]` then `C[i]`. -/
def lowerPipeAt (m : Nat) (fB gC : SExpr) : Stmt :=
  .forL 1 m (.seq (.store 1 [.var 1] (substSE (fun _ => .var 1) fB))
    (.store 2 [.var 1] gC))

/-- Substitute the producer's body for every read of buffer `1` (the
producer's output), specializing the producer's axis variable to the
read's index expression. -/
def inlineLoads (fB : SExpr) : SExpr → SExpr
  | .litS z => .litS z
  | .loadS buf ixs =>
    if buf = 1 then
      match ixs with
      | [e] => substSE (fun _ => e) fB
      | _ => .loadS buf ixs
    else .loadS buf ixs
  | .addS a b => .addS (inlineLoads fB a) (inlineLoads fB b)
  | .mulS a b => .mulS (inlineLoads fB a) (inlineLoads fB b)

/-- Modelled from the spec: lowering after `compute_inline()` on the
producer (§4.4 step 5): no producer loop is emitted and every read of the
producer's tensor in the consumer body is replaced by the
index-specialized body expression. -/
def lowerPipeInline (m : Nat) (fB gC : SExpr) : Stmt :=
  .forL 1 m (.store 2 [.var 1] (inlineLoads fB gC))

/-- Does an index expression use only the given variable? -/
def usesOnlyVar (v : Nat) : IExpr → Bool
  | .var a => a = v
  | .lit _ => true
  | .add a b => usesOnlyVar v a && usesOnlyVar v b
  | .mul a b => usesOnlyVar v a && usesOnlyVar v b
  | .fdiv e _ => usesOnlyVar v e
  | .fmod e _ => usesOnlyVar v e

/-- Does a scalar expression read only from buffer `buf`, through
single-index loads whose index uses only variable `v`? -/
def readsShape (buf v : Nat) : SExpr → Bool
  | .litS _ => true
  | .loadS b ixs =>
    (b = buf : Bool) && (match ixs with
      | [e] => usesOnlyVar v e
      | _ => false)
  | .addS a b => readsShape buf v a && readsShape buf v b
  | .mulS a b => readsShape buf v a && readsShape buf v b

/-- Are all loads of a scalar expression at exactly the index `[var 1]`? -/
def identAccess : SExpr → Bool
  | .litS _ => true
  | .loadS _ ixs => ixs = [IExpr.var 1]
  | .addS a b => identAccess a && identAccess b
  | .mulS a b => identAccess a && identAccess b

/-- The index expressions at which a scalar expression reads buffer `1`. -/
def bReadIdx : SExpr → List IExpr
  | .litS _ => []
  | .loadS b ixs => if b = 1 then (match ixs with | [e] => [e] | _ => []) else []
  | .addS a b => bReadIdx a ++ bReadIdx b
  | .mulS a b => bReadIdx a ++ bReadIdx b

/-- Does a statement contain a store to buffer `n`? -/
def hasStoreTo : Stmt → Nat → Bool
  | .skip, _ => false
  | .seq a b, n => hasStoreTo a n || hasStoreTo b n
  | .forL _ _ b, n => hasStoreTo b n
  | .ifLt _ _ b, n => hasStoreTo b n
  | .store buf _ _, n => buf = n
  | .call _ _, _ => false

/-- Does a scalar expression contain a load from buffer `n`? -/
def hasLoadFrom : SExpr → Nat → Bool
  | .litS _, _ => false
  | .loadS b _, n => b = n
  | .addS a b, n => hasLoadFrom a n || hasLoadFrom b n
  | .mulS a b, n => hasLoadFrom a n || hasLoadFrom b n

/-- Body-expression skeletons used by tensorize pattern matching: the
operator tree of a compute body up to variable and buffer renaming (§9
design notes). -/
inductive Skel where
  | litK
  | loadK
  | addK (a b : Skel)
  | mulK (a b : Skel)
  | sumK (a : Skel)
deriving DecidableEq, Repr

/-- Modelled from the spec: a stage's compute-location (§3 Stage). -/
inductive CLoc where
  | root
  | inlined
  | attached (consumer axis : Nat)
deriving DecidableEq, Repr

/-- Modelled from the spec: the schedule-level wrapper around one stage:
its axis state, thread-tag bindings, compute-location, tensorize mark,
the producer stages it reads, and its body skeleton. -/
structure SStage where
  core : Stage
  binds : List (Nat × String)
  loc : CLoc
  tens : Option (Nat × List Nat × Skel)
  reads : List Nat
  skel : Skel

/-- Modelled from the spec: a Schedule owns the ordered list of stages. -/
structure Sched where
  stages : List SStage

/-- Fuel-bounded transitive closure of the stage reads-graph: does stage
`src` (transitively) read the output of stage `dst`? -/
def readsT (s : Sched) : Nat → Nat → Nat → Bool
  | 0, _, _ => false
  | fuel + 1, src, dst =>
    match s.stages[src]? with
    | none => false
    | some e => e.reads.any (fun r => (r = dst : Bool) || readsT s fuel r dst)

/-- Transitive dependency test with fuel bounded by the stage count. -/
def transDep (s : Sched) (src dst : Nat) : Bool := readsT s s.stages.length src dst

/-- Replace one stage entry. -/
def setStage (s : Sched) (n : Nat) (e : SStage) : Sched := ⟨s.stages.set n e⟩

/-- Modelled from the spec: the transformation primitives of §4.3 as a
command datatype over a whole schedule (stage picked by index). -/
inductive Prim where
  | psplitF (n ax f : Nat)
  | psplitN (n ax p : Nat)
  | pfuse (n axo axi : Nat)
  | preorder (n : Nat) (axs : List Nat)
  | pbind (n ax : Nat) (tag : String)
  | pcomputeAt (n target ax : Nat)
  | ptensorize (n ax : Nat) (shape : List Nat) (sk : Skel)

/-- Modelled from the spec: apply one transformation primitive (§4.3),
raising the documented error taxonomy (§7): `InvalidAxisReference` for a
non-leaf axis or bad stage index, `NonAdjacentAxes` for fuse,
`DuplicateAxis` for reorder, `DuplicateBinding` for re-binding a thread
tag, `NotADependency` when the compute_at target does not transitively
consume this stage's output, and `PatternMismatch` when the tensorized
sub-space's shape or body skeleton differs from the intrinsic's compute
declaration. -/
def applyPrim (s : Sched) (p : Prim) : Except SErr Sched :=
  match p with
  | .psplitF n ax f =>
    match s.stages[n]? with
    | none => .error .invalidAxisReference
    | some e =>
      match splitF e.core ax f with
      | .error err => .error err
      | .ok (c, _, _) => .ok (setStage s n { e with core := c })
  | .psplitN n ax p =>
    match s.stages[n]? with
    | none => .error .invalidAxisReference
    | some e =>
      match splitN e.core ax p with
      | .error err => .error err
      | .ok (c, _, _) => .ok (setStage s n { e with core := c })
  | .pfuse n axo axi =>
    match s.stages[n]? with
    | none => .error .invalidAxisReference
    | some e =>
      match fuseP e.core axo axi with
      | .error err => .error err
      | .ok (c, _) => .ok (setStage s n { e with core := c })
  | .preorder n axs =>
    match s.stages[n]? with
    | none => .error .invalidAxisReference
    | some e =>
      match reorderP e.core axs with
      | .error err => .error err
      | .ok c => .ok (setStage s n { e with core := c })
  | .pbind n ax tag =>
    match s.stages[n]? with
    | none => .error .invalidAxisReference
    | some e =>
      if ax ∈ e.core.leaves then
        if e.binds.any (fun b => b.2 = tag) then .error .duplicateBinding
        else .ok (setStage s n { e with binds := e.binds ++ [(ax, tag)] })
      else .error .invalidAxisReference
  | .pcomputeAt n target ax =>
    match s.stages[n]?, s.stages[target]? with
    | some e, some t =>
      if ax ∈ t.core.leaves then
        if transDep s target n then .ok (setStage s n { e with loc := .attached target ax })
        else .error .notADependency
      else .error .invalidAxisReference
    | _, _ => .error .invalidAxisReference
  | .ptensorize n ax shape sk =>
    match s.stages[n]? with
    | none => .error .invalidAxisReference
    | some e =>
      if ax ∈ e.core.leaves then
        let pos := e.core.leaves.findIdx (fun l => l = ax)
        let sub := e.core.leaves.drop pos
        if sub.map e.core.ext = shape ∧ e.skel = sk then
          .ok (setStage s n { e with tens := some (ax, shape, sk) })
        else .error .patternMismatch
      else .error .invalidAxisReference

/-- Caller-facing application: on error the schedule handed back to the
caller is exactly the prior one (§7 propagation policy). -/
def applyTotal (s : Sched) (p : Prim) : Sched :=
  match applyPrim s p with
  | .ok s' => s'
  | .error _ => s

/-- Recovery through an extended history factors as recovery through the
old history after rewriting the valuation by the new relation. -/
theorem recover_append (rels : List Rel) (r : Rel) (v : Nat → Nat) :
    recover (rels ++ [r]) v = recover rels (applyRel r v) := by
  induction rels with
  | nil => rfl
  | cons r₀ rs ih => simp [recover, ih]

/-- An axis consumed by no relation recovers to its own valuation. -/
theorem applyRel_not_consumed (r : Rel) (v : Nat → Nat) (a : Nat) (h : a ∉ r.consumed) :
    applyRel r v a = v a := by
  cases r with
  | split p o i ei =>
    simp only [Rel.consumed, List.mem_singleton] at h
    simp [applyRel, h]
  | fuse o i fz ei =>
    simp only [Rel.consumed, List.mem_cons, List.mem_singleton] at h
    push_neg at h
    simp [applyRel, h.1, h.2]

theorem recover_not_consumed (rels : List Rel) (v : Nat → Nat) (a : Nat)
    (h : ∀ r ∈ rels, a ∉ r.consumed) : recover rels v a = v a := by
  induction rels with
  | nil => rfl
  | cons r rs ih =>
    have h₁ : a ∉ r.consumed := h r (List.mem_cons_self r rs)
    have h₂ := ih (fun r' hr' => h r' (List.mem_cons_of_mem r hr'))
    simp only [recover]
    rw [applyRel_not_consumed r _ a h₁, h₂]

/-- Guards of an extended history are the old guards plus the guard of the
new relation (if any). -/
theorem guards_append (rels : List Rel) (r : Rel) (ext : Nat → Nat) :
    guards (rels ++ [r]) ext = guards rels ext ++ guards [r] ext := by
  induction rels with
  | nil => rfl
  | cons r₀ rs ih =>
    cases r₀ with
    | split p o i ei =>
      by_cases h : ext o * ext i = ext p <;> simp [guards, h, ih]
    | fuse o i fz ei => simp [guards, ih]

/-- Guard computation only consults extents of axis ids mentioned in the
relations. -/
theorem guards_ext_congr (rels : List Rel) (ext ext' : Nat → Nat)
    (h : ∀ r ∈ rels, ∀ a ∈ r.ids, ext a = ext' a) :
    guards rels ext = guards rels ext' := by
  induction rels with
  | nil => rfl
  | cons r rs ih =>
    have hrest := ih (fun r' hr' => h r' (List.mem_cons_of_mem r hr'))
    cases r with
    | split p o i ei =>
      have hp : ext p = ext' p := h _ (List.mem_cons_self _ _) p (by simp [Rel.ids, Rel.consumed, Rel.produced])
      have ho : ext o = ext' o := h _ (List.mem_cons_self _ _) o (by simp [Rel.ids, Rel.consumed, Rel.produced])
      have hi : ext i = ext' i := h _ (List.mem_cons_self _ _) i (by simp [Rel.ids, Rel.consumed, Rel.produced])
      simp only [guards, hp, ho, hi, hrest]
    | fuse o i fz ei => simp only [guards, hrest]

/-- Membership facts about `replaceLeaf`. -/
theorem replaceLeaf_mem_of (ls : List Nat) (ax o i l : Nat) (hl : l ∈ ls) (hne : l ≠ ax) :
    l ∈ replaceLeaf ls ax o i := by
  induction ls with
  | nil => simp at hl
  | cons a rest ih =>
    simp only [replaceLeaf]
    by_cases ha : a = ax
    · subst ha
      rcases List.mem_cons.mp hl with h | h
      · exact absurd h hne
      · simp [h]
    · rcases List.mem_cons.mp hl with h | h
      · simp [ha, h]
      · simp [ha, ih h]

theorem replaceLeaf_subset (ls : List Nat) (ax o i x : Nat) (hx : x ∈ replaceLeaf ls ax o i) :
    x ∈ ls ∨ x = o ∨ x = i := by
  induction ls with
  | nil => simp [replaceLeaf] at hx
  | cons a rest ih =>
    simp only [replaceLeaf] at hx
    by_cases ha : a = ax
    · rw [if_pos ha] at hx
      rcases List.mem_cons.mp hx with h | h
      · exact Or.inr (Or.inl h)
      rcases List.mem_cons.mp h with h' | h'
      · exact Or.inr (Or.inr h')
      · exact Or.inl (List.mem_cons_of_mem _ h')
    · rw [if_neg ha] at hx
      rcases List.mem_cons.mp hx with h | h
      · exact Or.inl (by simp [h])
      · rcases ih h with h' | h' | h'
        · exact Or.inl (List.mem_cons_of_mem _ h')
        · exact Or.inr (Or.inl h')
        · exact Or.inr (Or.inr h')

theorem replaceLeaf_mem_new (ls : List Nat) (ax o i : Nat) (hax : ax ∈ ls) :
    o ∈ replaceLeaf ls ax o i ∧ i ∈ replaceLeaf ls ax o i := by
  induction ls with
  | nil => simp at hax
  | cons a rest ih =>
    simp only [replaceLeaf]
    by_cases ha : a = ax
    · simp [ha]
    · have : ax ∈ rest := by
        rcases List.mem_cons.mp hax with h | h
        · exact absurd h.symm ha
        · exact h
      rcases ih this with ⟨h₁, h₂⟩
      simp [ha, h₁, h₂]

theorem replaceLeaf_not_mem (ls : List Nat) (ax o i : Nat) (hnd : ls.Nodup)
    (ho : ax ≠ o) (hi : ax ≠ i) : ax ∉ replaceLeaf ls ax o i := by
  induction ls with
  | nil => simp [replaceLeaf]
  | cons a rest ih =>
    simp only [replaceLeaf]
    by_cases ha : a = ax
    · rw [if_pos ha]
      subst ha
      intro hmem
      rcases List.mem_cons.mp hmem with h | h
      · exact ho h
      rcases List.mem_cons.mp h with h' | h'
      · exact hi h'
      · exact (List.nodup_cons.mp hnd).1 h'
    · rw [if_neg ha]
      intro hmem
      rcases List.mem_cons.mp hmem with h | h
      · exact ha h.symm
      · exact ih (List.nodup_cons.mp hnd).2 h

theorem replaceLeaf_nodup (ls : List Nat) (ax o i : Nat) (hnd : ls.Nodup)
    (ho : o ∉ ls) (hi : i ∉ ls) (hoi : o ≠ i) : (replaceLeaf ls ax o i).Nodup := by
  induction ls with
  | nil => simp [replaceLeaf]
  | cons a rest ih =>
    have hnd' := List.nodup_cons.mp hnd
    have ho' : o ∉ rest := fun h => ho (List.mem_cons_of_mem _ h)
    have hi' : i ∉ rest := fun h => hi (List.mem_cons_of_mem _ h)
    simp only [replaceLeaf]
    by_cases ha : a = ax
    · simp only [ha, if_pos rfl]
      exact List.nodup_cons.mpr ⟨by
        intro h
        rcases List.mem_cons.mp h with h' | h'
        · exact hoi h'
        · exact ho' h', List.nodup_cons.mpr ⟨hi', hnd'.2⟩⟩
    · simp only [if_neg ha]
      refine List.nodup_cons.mpr ⟨?_, ih hnd'.2 ho' hi'⟩
      intro h
      rcases replaceLeaf_subset rest ax o i a h with h' | h' | h'
      · exact hnd'.1 h'
      · exact ho (by simp [h'])
      · exact hi (by simp [h'])

/-- Membership facts about `isAdjacent` and `replacePair`. -/
theorem isAdjacent_mem (ls : List Nat) (x y : Nat) (h : isAdjacent ls x y = true) :
    x ∈ ls ∧ y ∈ ls := by
  induction ls with
  | nil => simp [isAdjacent] at h
  | cons a rest ih =>
    match rest, h with
    | [], h => simp [isAdjacent] at h
    | b :: rest', h =>
      simp only [isAdjacent, Bool.or_eq_true, decide_eq_true_eq] at h
      rcases h with ⟨hx, hy⟩ | h
      · exact ⟨by simp [hx], by simp [hy]⟩
      · have := ih (by simpa [isAdjacent] using h)
        exact ⟨List.mem_cons_of_mem _ this.1, List.mem_cons_of_mem _ this.2⟩

theorem replacePair_mem_of (ls : List Nat) (axo axi fz l : Nat) (hl : l ∈ ls)
    (h₁ : l ≠ axo) (h₂ : l ≠ axi) : l ∈ replacePair ls axo axi fz := by
  induction ls with
  | nil => simp at hl
  | cons a rest ih =>
    match rest, hl, ih with
    | [], hl, _ => simpa [replacePair] using hl
    | b :: rest', hl, ih =>
      simp only [replacePair]
      by_cases hab : a = axo ∧ b = axi
      · simp only [if_pos hab]
        rcases List.mem_cons.mp hl with h | h
        · exact absurd (h.trans hab.1) h₁
        rcases List.mem_cons.mp h with h' | h'
        · exact absurd (h'.trans hab.2) h₂
        · exact List.mem_cons_of_mem _ h'
      · simp only [if_neg hab]
        rcases List.mem_cons.mp hl with h | h
        · simp [h]
        · exact List.mem_cons_of_mem _ (ih h)

theorem replacePair_subset (ls : List Nat) (axo axi fz x : Nat)
    (hx : x ∈ replacePair ls axo axi fz) : x ∈ ls ∨ x = fz := by
  induction ls with
  | nil => simp [replacePair] at hx
  | cons a rest ih =>
    match rest, hx, ih with
    | [], hx, _ => simp only [replacePair] at hx; exact Or.inl hx
    | b :: rest', hx, ih =>
      simp only [replacePair] at hx
      by_cases hab : a = axo ∧ b = axi
      · simp only [if_pos hab, List.mem_cons] at hx
        rcases hx with h | h
        · exact Or.inr h
        · exact Or.inl (by simp [h])
      · simp only [if_neg hab, List.mem_cons] at hx
        rcases hx with h | h
        · exact Or.inl (by simp [h])
        · rcases ih h with h' | h'
          · exact Or.inl (List.mem_cons_of_mem _ h')
          · exact Or.inr h'

theorem replacePair_mem_new (ls : List Nat) (axo axi fz : Nat)
    (h : isAdjacent ls axo axi = true) : fz ∈ replacePair ls axo axi fz := by
  induction ls with
  | nil => simp [isAdjacent] at h
  | cons a rest ih =>
    match rest, h, ih with
    | [], h, _ => simp [isAdjacent] at h
    | b :: rest', h, ih =>
      simp only [replacePair]
      by_cases hab : a = axo ∧ b = axi
      · simp [hab]
      · simp only [if_neg hab]
        simp only [isAdjacent, Bool.or_eq_true, decide_eq_true_eq] at h
        rcases h with h | h
        · exact absurd h hab
        · exact List.mem_cons_of_mem _ (ih h)

theorem replacePair_not_mem_left (ls : List Nat) (axo axi fz : Nat) (hnd : ls.Nodup)
    (hadj : isAdjacent ls axo axi = true) (hfz : axo ≠ fz) :
    axo ∉ replacePair ls axo axi fz := by
  induction ls with
  | nil => simp [isAdjacent] at hadj
  | cons a rest ih =>
    match rest, hadj, ih with
    | [], hadj, _ => simp [isAdjacent] at hadj
    | b :: rest', hadj, ih =>
      have hnd' := List.nodup_cons.mp hnd
      simp only [replacePair]
      by_cases hab : a = axo ∧ b = axi
      · simp only [if_pos hab]
        intro hmem
        rcases List.mem_cons.mp hmem with h | h
        · exact hfz h
        · exact hnd'.1 (hab.1 ▸ List.mem_cons_of_mem _ h)
      · simp only [if_neg hab]
        simp only [isAdjacent, Bool.or_eq_true, decide_eq_true_eq] at hadj
        rcases hadj with h | h
        · exact absurd h hab
        · intro hmem
          rcases List.mem_cons.mp hmem with h' | h'
          · have : axo ∈ b :: rest' := (isAdjacent_mem _ _ _ h).1
            exact hnd'.1 (h' ▸ this)
          · exact ih hnd'.2 h h'

theorem replacePair_not_mem_right (ls : List Nat) (axo axi fz : Nat) (hnd : ls.Nodup)
    (hadj : isAdjacent ls axo axi = true) (hfz : axi ≠ fz) :
    axi ∉ replacePair ls axo axi fz := by
  induction ls with
  | nil => simp [isAdjacent] at hadj
  | cons a rest ih =>
    match rest, hadj, ih with
    | [], hadj, _ => simp [isAdjacent] at hadj
    | b :: rest', hadj, ih =>
      have hnd' := List.nodup_cons.mp hnd
      simp only [replacePair]
      by_cases hab : a = axo ∧ b = axi
      · simp only [if_pos hab]
        intro hmem
        rcases List.mem_cons.mp hmem with h | h
        · exact hfz h
        · have hbnd := List.nodup_cons.mp hnd'.2
          exact hbnd.1 (hab.2 ▸ h)
      · simp only [if_neg hab]
        simp only [isAdjacent, Bool.or_eq_true, decide_eq_true_eq] at hadj
        rcases hadj with h | h
        · exact absurd h hab
        · intro hmem
          rcases List.mem_cons.mp hmem with h' | h'
          · have : axi ∈ b :: rest' := (isAdjacent_mem _ _ _ h).2
            exact hnd'.1 (h' ▸ this)
          · exact ih hnd'.2 h h'

theorem replacePair_nodup (ls : List Nat) (axo axi fz : Nat) (hnd : ls.Nodup)
    (hfz : fz ∉ ls) : (replacePair ls axo axi fz).Nodup := by
  induction ls with
  | nil => simp [replacePair]
  | cons a rest ih =>
    match rest, hnd, hfz, ih with
    | [], hnd, _, _ => simp only [replacePair]; exact hnd
    | b :: rest', hnd, hfz, ih =>
      have hnd' := List.nodup_cons.mp hnd
      have hfz' : fz ∉ b :: rest' := fun h => hfz (List.mem_cons_of_mem _ h)
      simp only [replacePair]
      by_cases hab : a = axo ∧ b = axi
      · simp only [if_pos hab]
        refine List.nodup_cons.mpr ⟨?_, (List.nodup_cons.mp hnd'.2).2⟩
        intro h
        exact hfz (by simp [h])
      · simp only [if_neg hab]
        refine List.nodup_cons.mpr ⟨?_, ih hnd'.2 hfz'⟩
        intro h
        rcases replacePair_subset _ _ _ _ _ h with h' | h'
        · exact hnd'.1 h'
        · exact hfz (by simp [h'])

theorem isAdjacent_ne (ls : List Nat) (x y : Nat) (hnd : ls.Nodup)
    (h : isAdjacent ls x y = true) : x ≠ y := by
  induction ls with
  | nil => simp [isAdjacent] at h
  | cons a rest ih =>
    match rest, h, ih with
    | [], h, _ => simp [isAdjacent] at h
    | b :: rest', h, ih =>
      have hnd' := List.nodup_cons.mp hnd
      simp only [isAdjacent, Bool.or_eq_true, decide_eq_true_eq] at h
      rcases h with ⟨hx, hy⟩ | h
      · intro hxy
        exact hnd'.1 (by rw [hx]; rw [hxy, ← hy]; exact List.mem_cons_self _ _)
      · exact ih hnd'.2 h

theorem Rel.consumed_subset_ids (r : Rel) : ∀ a ∈ r.consumed, a ∈ r.ids :=
  fun _ ha => List.mem_append_left _ ha

/-- Structural wellformedness maintained by every transformation primitive:
leaves are distinct live axes, all mentioned ids are below the fresh-id
counter, and no current leaf was already consumed by the history. -/
structure WF (st : Stage) : Prop where
  nodup : st.leaves.Nodup
  leavesLt : ∀ l ∈ st.leaves, l < st.nextId
  relsLt : ∀ r ∈ st.rels, ∀ a ∈ r.ids, a < st.nextId
  leavesNotConsumed : ∀ r ∈ st.rels, ∀ l ∈ st.leaves, l ∉ r.consumed

/-- A freshly created stage: empty history and leaves exactly the ids below
the counter. -/
def GoodInit (st : Stage) : Prop :=
  st.rels = [] ∧ st.leaves.Nodup ∧ ∀ a, a ∈ st.leaves ↔ a < st.nextId

/-- The guard-safety invariant: whenever the leaf loop variables are within
their loop extents and every emitted boundary guard holds, the recovered
value of every axis (original axes included) is within that axis's extent. -/
def SafeInv (st : Stage) : Prop :=
  ∀ v : Nat → Nat, (∀ l ∈ st.leaves, v l < st.ext l) →
    (∀ g ∈ guards st.rels st.ext, recover st.rels v g.1 < g.2) →
    ∀ a, a < st.nextId → recover st.rels v a < st.ext a

/-- Stages reachable from a given stage by the loop transformation
primitives split (both forms), fuse and reorder. -/
inductive Reach (st0 : Stage) : Stage → Prop where
  | refl : Reach st0 st0
  | stepSplitF {st st' : Stage} {ax f o i : Nat}
      (h : Reach st0 st) (hs : splitF st ax f = .ok (st', o, i)) : Reach st0 st'
  | stepSplitN {st st' : Stage} {ax p o i : Nat}
      (h : Reach st0 st) (hs : splitN st ax p = .ok (st', o, i)) : Reach st0 st'
  | stepFuse {st st' : Stage} {axo axi fz : Nat}
      (h : Reach st0 st) (hs : fuseP st axo axi = .ok (st', fz)) : Reach st0 st'
  | stepReorder {st st' : Stage} {axs : List Nat}
      (h : Reach st0 st) (hs : reorderP st axs = .ok st') : Reach st0 st'

theorem mul_add_lt_of_lt {vo vi eo ei : Nat} (ho : vo < eo) (hi : vi < ei) :
    vo * ei + vi < eo * ei := by
  calc vo * ei + vi < vo * ei + ei := by omega
    _ = (vo + 1) * ei := by ring
    _ ≤ eo * ei := Nat.mul_le_mul_right _ ho

theorem splitF_ok {st : Stage} {ax f : Nat} {t : Stage × Nat × Nat}
    (h : splitF st ax f = .ok t) :
    ax ∈ st.leaves ∧ t = splitCore st ax (ceilDiv (st.ext ax) f) f := by
  by_cases hm : ax ∈ st.leaves
  · simp only [splitF, if_pos hm, Except.ok.injEq] at h
    exact ⟨hm, h.symm⟩
  · simp [splitF, if_neg hm] at h

theorem splitN_ok {st : Stage} {ax p : Nat} {t : Stage × Nat × Nat}
    (h : splitN st ax p = .ok t) :
    ax ∈ st.leaves ∧ t = splitCore st ax p (ceilDiv (st.ext ax) p) := by
  by_cases hm : ax ∈ st.leaves
  · simp only [splitN, if_pos hm, Except.ok.injEq] at h
    exact ⟨hm, h.symm⟩
  · simp [splitN, if_neg hm] at h

theorem splitF_ok_fst {st st' : Stage} {ax f o i : Nat}
    (h : splitF st ax f = .ok (st', o, i)) :
    ax ∈ st.leaves ∧ st' = (splitCore st ax (ceilDiv (st.ext ax) f) f).1 := by
  obtain ⟨hax, heq⟩ := splitF_ok h
  exact ⟨hax, congrArg Prod.fst heq⟩

theorem splitN_ok_fst {st st' : Stage} {ax p o i : Nat}
    (h : splitN st ax p = .ok (st', o, i)) :
    ax ∈ st.leaves ∧ st' = (splitCore st ax p (ceilDiv (st.ext ax) p)).1 := by
  obtain ⟨hax, heq⟩ := splitN_ok h
  exact ⟨hax, congrArg Prod.fst heq⟩

theorem fuseP_ok {st : Stage} {axo axi : Nat} {t : Stage × Nat}
    (h : fuseP st axo axi = .ok t) :
    isAdjacent st.leaves axo axi = true ∧
    t = ({ ext := fun a => if a = st.nextId then st.ext axo * st.ext axi else st.ext a
           red := fun a => if a = st.nextId then st.red axo || st.red axi else st.red a
           leaves := replacePair st.leaves axo axi st.nextId
           rels := st.rels ++ [.fuse axo axi st.nextId (st.ext axi)]
           nextId := st.nextId + 1
           roots := st.roots }, st.nextId) := by
  by_cases hm : isAdjacent st.leaves axo axi = true
  · simp only [fuseP, if_pos hm, Except.ok.injEq] at h
    exact ⟨hm, h.symm⟩
  · rw [fuseP] at h
    rw [if_neg hm] at h
    by_cases hb : axo ∈ st.leaves ∧ axi ∈ st.leaves
    · rw [if_pos hb] at h; exact absurd h (by simp)
    · rw [if_neg hb] at h; exact absurd h (by simp)

theorem fuseP_ok_fst {st st' : Stage} {axo axi fz : Nat}
    (h : fuseP st axo axi = .ok (st', fz)) :
    isAdjacent st.leaves axo axi = true ∧
    st' = { ext := fun a => if a = st.nextId then st.ext axo * st.ext axi else st.ext a
            red := fun a => if a = st.nextId then st.red axo || st.red axi else st.red a
            leaves := replacePair st.leaves axo axi st.nextId
            rels := st.rels ++ [.fuse axo axi st.nextId (st.ext axi)]
            nextId := st.nextId + 1
            roots := st.roots } := by
  obtain ⟨hadj, heq⟩ := fuseP_ok h
  exact ⟨hadj, congrArg Prod.fst heq⟩

theorem reorderP_ok {st : Stage} {axs : List Nat} {st' : Stage}
    (h : reorderP st axs = .ok st') :
    axs.Nodup ∧ (∀ a ∈ axs, a ∈ st.leaves) ∧ st' = { st with leaves := reorderList st.leaves axs } := by
  by_cases hnd : axs.Nodup
  · rw [reorderP, if_neg (by simpa using hnd)] at h
    by_cases hall : axs.all (fun a => a ∈ st.leaves)
    · rw [if_pos hall] at h
      refine ⟨hnd, ?_, by cases h; rfl⟩
      intro a ha
      have := List.all_eq_true.mp hall a ha
      simpa using this
    · rw [if_neg hall] at h; exact absurd h (by simp)
  · rw [reorderP, if_pos (by simpa using hnd)] at h
    exact absurd h (by simp)

theorem wf_splitCore (st : Stage) (ax oExt iExt : Nat) (hax : ax ∈ st.leaves) (hwf : WF st) :
    WF (splitCore st ax oExt iExt).1 := by
  have hax_lt : ax < st.nextId := hwf.leavesLt ax hax
  have hoNot : st.nextId ∉ st.leaves := fun h => by have := hwf.leavesLt _ h; omega
  have hiNot : st.nextId + 1 ∉ st.leaves := fun h => by have := hwf.leavesLt _ h; omega
  refine ⟨?_, ?_, ?_, ?_⟩
  · exact replaceLeaf_nodup _ _ _ _ hwf.nodup hoNot hiNot (by omega)
  · intro l hl
    rcases replaceLeaf_subset _ _ _ _ _ hl with h | h | h
    · have := hwf.leavesLt _ h; simp only [splitCore]; omega
    · simp only [splitCore] at h ⊢; omega
    · simp only [splitCore] at h ⊢; omega
  · intro r hr a ha
    simp only [splitCore, List.mem_append, List.mem_singleton] at hr
    rcases hr with hr | hr
    · have := hwf.relsLt r hr a ha; simp only [splitCore]; omega
    · subst hr
      simp only [Rel.ids, Rel.consumed, Rel.produced, List.mem_append, List.mem_cons,
        List.mem_singleton, List.not_mem_nil, or_false] at ha
      simp only [splitCore]
      rcases ha with h | h | h <;> omega
  · intro r hr l hl
    simp only [splitCore, List.mem_append, List.mem_singleton] at hr
    simp only [splitCore] at hl
    rcases hr with hr | hr
    · rcases replaceLeaf_subset _ _ _ _ _ hl with h | h | h
      · exact hwf.leavesNotConsumed r hr l h
      · intro hc
        have := hwf.relsLt r hr l (r.consumed_subset_ids l hc)
        omega
      · intro hc
        have := hwf.relsLt r hr l (r.consumed_subset_ids l hc)
        omega
    · subst hr
      simp only [Rel.consumed, List.mem_singleton]
      intro hc
      subst hc
      exact replaceLeaf_not_mem _ _ _ _ hwf.nodup (by omega) (by omega) hl

theorem safe_splitCore (st : Stage) (ax oExt iExt : Nat) (hax : ax ∈ st.leaves)
    (hwf : WF st) (hsafe : SafeInv st) : SafeInv (splitCore st ax oExt iExt).1 := by
  intro v hleaf hguard a ha
  set o := st.nextId with ho_def
  set i := st.nextId + 1 with hi_def
  have hax_lt : ax < st.nextId := hwf.leavesLt ax hax
  set newR : Rel := .split ax o i iExt with hnewR
  set v₁ := applyRel newR v with hv₁
  set st' := (splitCore st ax oExt iExt).1 with hst'
  have hleaves' : st'.leaves = replaceLeaf st.leaves ax o i := rfl
  have hrels' : st'.rels = st.rels ++ [newR] := rfl
  have hnext' : st'.nextId = st.nextId + 2 := rfl
  have hextOld : ∀ b, b < st.nextId → st'.ext b = st.ext b := by
    intro b hb
    show (if b = o then oExt else if b = i then iExt else st.ext b) = st.ext b
    rw [if_neg (by omega), if_neg (by omega)]
  have hexto : st'.ext o = oExt := by
    show (if o = o then oExt else _) = oExt
    rw [if_pos rfl]
  have hexti : st'.ext i = iExt := by
    show (if i = o then oExt else if i = i then iExt else _) = iExt
    rw [if_neg (by omega), if_pos rfl]
  have hrec : recover st'.rels v = recover st.rels v₁ := by
    rw [hrels', recover_append]
  have hguards_eq : guards st'.rels st'.ext = guards st.rels st.ext ++ guards [newR] st'.ext := by
    rw [hrels', guards_append]
    congr 1
    exact guards_ext_congr _ _ _ (fun r hr b hb => hextOld b (hwf.relsLt r hr b hb))
  have hv₁ax : v₁ ax = v o * iExt + v i := by
    show (if ax = ax then v o * iExt + v i else v ax) = _
    rw [if_pos rfl]
  have hv₁other : ∀ l, l ≠ ax → v₁ l = v l := by
    intro l hl
    show (if l = ax then _ else v l) = v l
    rw [if_neg hl]
  have hmemnew := replaceLeaf_mem_new st.leaves ax o i hax
  have hvo : v o < oExt := by
    have := hleaf o (by rw [hleaves']; exact hmemnew.1)
    rwa [hexto] at this
  have hvi : v i < iExt := by
    have := hleaf i (by rw [hleaves']; exact hmemnew.2)
    rwa [hexti] at this
  have haxrec : recover st.rels v₁ ax = v₁ ax :=
    recover_not_consumed _ _ _ (fun r hr => hwf.leavesNotConsumed r hr ax hax)
  have hv₁leaf : ∀ l ∈ st.leaves, v₁ l < st.ext l := by
    intro l hl
    by_cases hlax : l = ax
    · subst hlax
      rw [hv₁ax]
      by_cases hdiv : oExt * iExt = st.ext l
      · rw [← hdiv]; exact mul_add_lt_of_lt hvo hvi
      · have hgmem : (l, st'.ext l) ∈ guards st'.rels st'.ext := by
          rw [hguards_eq]
          refine List.mem_append_right _ ?_
          show (l, st'.ext l) ∈ guards [newR] st'.ext
          have : ¬ (st'.ext o * st'.ext i = st'.ext l) := by
            rw [hexto, hexti, hextOld l hax_lt]; exact hdiv
          simp only [hnewR, guards, if_neg this]
          exact List.mem_singleton.mpr rfl
        have := hguard _ hgmem
        rw [hrec, haxrec, hv₁ax] at this
        rwa [hextOld l hax_lt] at this
    · rw [hv₁other l hlax]
      have hl' : l ∈ st'.leaves := by
        rw [hleaves']; exact replaceLeaf_mem_of _ _ _ _ _ hl hlax
      have := hleaf l hl'
      rwa [hextOld l (hwf.leavesLt l hl)] at this
  have hv₁guard : ∀ g ∈ guards st.rels st.ext, recover st.rels v₁ g.1 < g.2 := by
    intro g hg
    have hg' : g ∈ guards st'.rels st'.ext := by
      rw [hguards_eq]; exact List.mem_append_left _ hg
    have := hguard g hg'
    rwa [hrec] at this
  have IH := hsafe v₁ hv₁leaf hv₁guard
  rw [hrec]
  rw [hnext'] at ha
  by_cases hcase : a < st.nextId
  · rw [hextOld a hcase]
    exact IH a hcase
  · have hnotcons : ∀ r ∈ st.rels, a ∉ r.consumed := by
      intro r hr hc
      have := hwf.relsLt r hr a (r.consumed_subset_ids a hc)
      omega
    rw [recover_not_consumed _ _ _ hnotcons]
    by_cases hao : a = o
    · subst hao
      rw [hv₁other _ (by omega), hexto]
      exact hvo
    · have hai : a = i := by omega
      subst hai
      rw [hv₁other _ (by omega), hexti]
      exact hvi

theorem wf_fuse {st : Stage} {axo axi fz : Nat} {st' : Stage}
    (h : fuseP st axo axi = .ok (st', fz)) (hwf : WF st) : WF st' := by
  obtain ⟨hadj, heq⟩ := fuseP_ok h
  have hmem := isAdjacent_mem _ _ _ hadj
  have haxo_lt : axo < st.nextId := hwf.leavesLt _ hmem.1
  have haxi_lt : axi < st.nextId := hwf.leavesLt _ hmem.2
  have hfzNot : st.nextId ∉ st.leaves := fun hh => by have := hwf.leavesLt _ hh; omega
  have hst' : st' = { ext := fun a => if a = st.nextId then st.ext axo * st.ext axi else st.ext a
                      red := fun a => if a = st.nextId then st.red axo || st.red axi else st.red a
                      leaves := replacePair st.leaves axo axi st.nextId
                      rels := st.rels ++ [.fuse axo axi st.nextId (st.ext axi)]
                      nextId := st.nextId + 1
                      roots := st.roots } := congrArg Prod.fst heq
  subst hst'
  refine ⟨?_, ?_, ?_, ?_⟩
  · exact replacePair_nodup _ _ _ _ hwf.nodup hfzNot
  · intro l hl
    dsimp only at hl ⊢
    rcases replacePair_subset _ _ _ _ _ hl with hh | hh
    · have := hwf.leavesLt _ hh; omega
    · omega
  · intro r hr a ha
    dsimp only at hr ⊢
    simp only [List.mem_append, List.mem_singleton] at hr
    rcases hr with hr | hr
    · have := hwf.relsLt r hr a ha; omega
    · subst hr
      simp only [Rel.ids, Rel.consumed, Rel.produced, List.mem_append, List.mem_cons,
        List.mem_singleton, List.not_mem_nil, or_false] at ha
      rcases ha with hh | hh | hh <;> omega
  · intro r hr l hl
    dsimp only at hr hl ⊢
    simp only [List.mem_append, List.mem_singleton] at hr
    rcases hr with hr | hr
    · rcases replacePair_subset _ _ _ _ _ hl with hh | hh
      · exact hwf.leavesNotConsumed r hr l hh
      · intro hc
        have := hwf.relsLt r hr l (r.consumed_subset_ids l hc)
        omega
    · subst hr
      simp only [Rel.consumed, List.mem_cons, List.mem_singleton, List.not_mem_nil, or_false]
      intro hc
      rcases hc with hc | hc
      · subst hc
        exact replacePair_not_mem_left _ _ _ _ hwf.nodup hadj (by omega) hl
      · subst hc
        exact replacePair_not_mem_right _ _ _ _ hwf.nodup hadj (by omega) hl

theorem safe_fuse {st : Stage} {axo axi fz : Nat} {st' : Stage}
    (h : fuseP st axo axi = .ok (st', fz)) (hwf : WF st) (hsafe : SafeInv st) : SafeInv st' := by
  obtain ⟨hadj, heq⟩ := fuseP_ok h
  have hmem := isAdjacent_mem _ _ _ hadj
  have hne : axo ≠ axi := isAdjacent_ne _ _ _ hwf.nodup hadj
  have haxo_lt : axo < st.nextId := hwf.leavesLt _ hmem.1
  have haxi_lt : axi < st.nextId := hwf.leavesLt _ hmem.2
  have hst' : st' = { ext := fun a => if a = st.nextId then st.ext axo * st.ext axi else st.ext a
                      red := fun a => if a = st.nextId then st.red axo || st.red axi else st.red a
                      leaves := replacePair st.leaves axo axi st.nextId
                      rels := st.rels ++ [.fuse axo axi st.nextId (st.ext axi)]
                      nextId := st.nextId + 1
                      roots := st.roots } := congrArg Prod.fst heq
  subst hst'
  intro v hleaf hguard a ha
  dsimp only at hleaf hguard ha ⊢
  have hrec : ∀ w, recover (st.rels ++ [Rel.fuse axo axi st.nextId (st.ext axi)]) w =
      recover st.rels (applyRel (Rel.fuse axo axi st.nextId (st.ext axi)) w) :=
    fun w => recover_append st.rels _ w
  have hextOld : ∀ b, b < st.nextId →
      (if b = st.nextId then st.ext axo * st.ext axi else st.ext b) = st.ext b := by
    intro b hb
    rw [if_neg (by omega)]
  have hguards_eq : guards (st.rels ++ [Rel.fuse axo axi st.nextId (st.ext axi)])
      (fun a => if a = st.nextId then st.ext axo * st.ext axi else st.ext a) =
      guards st.rels st.ext := by
    rw [guards_append]
    have h1 : guards [Rel.fuse axo axi st.nextId (st.ext axi)]
        (fun a => if a = st.nextId then st.ext axo * st.ext axi else st.ext a) = [] := rfl
    rw [h1, List.append_nil]
    exact guards_ext_congr _ _ _ (fun r hr b hb => hextOld b (hwf.relsLt r hr b hb))
  have hfzmem : st.nextId ∈ replacePair st.leaves axo axi st.nextId :=
    replacePair_mem_new _ _ _ _ hadj
  have hvfz : v st.nextId < st.ext axo * st.ext axi := by
    have := hleaf st.nextId hfzmem
    rwa [if_pos rfl] at this
  have heipos : 0 < st.ext axi := by
    by_cases h0 : st.ext axi = 0
    · rw [h0, Nat.mul_zero] at hvfz
      omega
    · omega
  set v₁ := applyRel (Rel.fuse axo axi st.nextId (st.ext axi)) v with hv₁
  have hv₁axo : v₁ axo = v st.nextId / st.ext axi := by
    show (if axo = axo then v st.nextId / st.ext axi else _) = _
    rw [if_pos rfl]
  have hv₁axi : v₁ axi = v st.nextId % st.ext axi := by
    show (if axi = axo then _ else if axi = axi then v st.nextId % st.ext axi else _) = _
    rw [if_neg (fun hh => hne hh.symm), if_pos rfl]
  have hv₁other : ∀ l, l ≠ axo → l ≠ axi → v₁ l = v l := by
    intro l h1 h2
    show (if l = axo then _ else if l = axi then _ else v l) = v l
    rw [if_neg h1, if_neg h2]
  have hv₁leaf : ∀ l ∈ st.leaves, v₁ l < st.ext l := by
    intro l hl
    by_cases h1 : l = axo
    · subst h1
      rw [hv₁axo]
      exact (Nat.div_lt_iff_lt_mul heipos).mpr hvfz
    · by_cases h2 : l = axi
      · subst h2
        rw [hv₁axi]
        exact Nat.mod_lt _ heipos
      · rw [hv₁other l h1 h2]
        have hl' : l ∈ replacePair st.leaves axo axi st.nextId :=
          replacePair_mem_of _ _ _ _ _ hl h1 h2
        have := hleaf l hl'
        rwa [hextOld l (hwf.leavesLt l hl)] at this
  have hv₁guard : ∀ g ∈ guards st.rels st.ext, recover st.rels v₁ g.1 < g.2 := by
    intro g hg
    have := hguard g (by rw [hguards_eq]; exact hg)
    rwa [hrec] at this
  have IH := hsafe v₁ hv₁leaf hv₁guard
  rw [hrec]
  by_cases hcase : a < st.nextId
  · have := IH a hcase
    rwa [hextOld a hcase]
  · have haz : a = st.nextId := by omega
    subst haz
    have hnotcons : ∀ r ∈ st.rels, st.nextId ∉ r.consumed := by
      intro r hr hc
      have := hwf.relsLt r hr st.nextId (r.consumed_subset_ids st.nextId hc)
      omega
    rw [recover_not_consumed _ _ _ hnotcons, ← hv₁,
      hv₁other st.nextId (by omega) (by omega), if_pos rfl]
    exact hvfz

theorem placeAxes_filter_neg (ls : List Nat) (mem : Nat → Bool) (pending : List Nat)
    (hp : ∀ x ∈ pending, mem x = true) :
    (placeAxes ls mem pending).filter (fun x => ! mem x) = ls.filter (fun x => ! mem x) := by
  induction ls generalizing pending with
  | nil => simp [placeAxes]
  | cons l rest ih =>
    cases pending with
    | nil =>
      by_cases hml : mem l
      · simp [placeAxes, List.filter_cons, hml, ih [] (by simp)]
      · simp [placeAxes, List.filter_cons, hml, ih [] (by simp)]
    | cons p ps =>
      have hpm : mem p = true := hp p (List.mem_cons_self _ _)
      by_cases hml : mem l
      · simp [placeAxes, if_pos hml, List.filter_cons, hpm, hml,
          ih ps (fun x hx => hp x (List.mem_cons_of_mem _ hx))]
      · simp [placeAxes, if_neg hml, List.filter_cons, hml, ih (p :: ps) hp]

theorem placeAxes_filter_pos (ls : List Nat) (mem : Nat → Bool) (pending : List Nat)
    (hp : ∀ x ∈ pending, mem x = true)
    (hlen : pending.length = (ls.filter mem).length) :
    (placeAxes ls mem pending).filter mem = pending := by
  induction ls generalizing pending with
  | nil =>
    simp only [List.filter_nil, List.length_nil] at hlen
    simp [placeAxes, List.length_eq_zero.mp hlen]
  | cons l rest ih =>
    cases pending with
    | nil =>
      by_cases hml : mem l
      · simp [List.filter_cons, hml] at hlen
      · simp only [List.filter_cons, hml, cond_false, List.length_nil] at hlen
        simp [placeAxes, List.filter_cons, hml, ih [] (by simp) (by simpa using hlen)]
    | cons p ps =>
      have hpm : mem p = true := hp p (List.mem_cons_self _ _)
      by_cases hml : mem l
      · simp only [List.filter_cons, hml, List.length_cons] at hlen
        have hlen' : ps.length = (rest.filter mem).length := by
          simpa using hlen
        simp [placeAxes, if_pos hml, List.filter_cons, hpm,
          ih ps (fun x hx => hp x (List.mem_cons_of_mem _ hx)) hlen']
      · simp only [List.filter_cons, hml] at hlen
        simp [placeAxes, if_neg hml, List.filter_cons, hml,
          ih (p :: ps) hp (by simpa using hlen)]

theorem placeAxes_perm (ls : List Nat) (mem : Nat → Bool) (pending : List Nat)
    (hp : ∀ x ∈ pending, mem x = true)
    (hperm : pending.Perm (ls.filter mem)) :
    (placeAxes ls mem pending).Perm ls := by
  have hlen : pending.length = (ls.filter mem).length := hperm.length_eq
  have h1 := placeAxes_filter_pos ls mem pending hp hlen
  have h2 := placeAxes_filter_neg ls mem pending hp
  have h3 : (placeAxes ls mem pending).Perm (pending ++ ls.filter (fun x => ! mem x)) := by
    have h4 := (List.filter_append_perm mem (placeAxes ls mem pending)).symm
    rwa [h1, h2] at h4
  exact h3.trans ((hperm.append_right _).trans (List.filter_append_perm mem ls))

theorem reorderList_perm (ls axs : List Nat) (hnd : ls.Nodup) (hand : axs.Nodup)
    (hsub : ∀ a ∈ axs, a ∈ ls) : (reorderList ls axs).Perm ls := by
  refine placeAxes_perm ls _ axs (fun x hx => by simpa using hx) ?_
  have hsub1 : axs.Subperm (ls.filter (fun l => decide (l ∈ axs))) := by
    refine List.subperm_of_subset hand ?_
    intro a ha
    simp only [List.mem_filter, decide_eq_true_eq]
    exact ⟨hsub a ha, ha⟩
  have hsub2 : (ls.filter (fun l => decide (l ∈ axs))).Subperm axs := by
    refine List.subperm_of_subset (hnd.filter _) ?_
    intro a ha
    simp only [List.mem_filter, decide_eq_true_eq] at ha
    exact ha.2
  exact hsub1.antisymm hsub2

theorem wf_reorder {st : Stage} {axs : List Nat} {st' : Stage}
    (h : reorderP st axs = .ok st') (hwf : WF st) : WF st' := by
  obtain ⟨hand, hsub, heq⟩ := reorderP_ok h
  subst heq
  have hperm := reorderList_perm st.leaves axs hwf.nodup hand hsub
  refine ⟨hperm.nodup_iff.mpr hwf.nodup, ?_, hwf.relsLt, ?_⟩
  · intro l hl
    exact hwf.leavesLt l (hperm.mem_iff.mp hl)
  · intro r hr l hl
    exact hwf.leavesNotConsumed r hr l (hperm.mem_iff.mp hl)

theorem safe_reorder {st : Stage} {axs : List Nat} {st' : Stage}
    (h : reorderP st axs = .ok st') (hwf : WF st) (hsafe : SafeInv st) : SafeInv st' := by
  obtain ⟨hand, hsub, heq⟩ := reorderP_ok h
  subst heq
  have hperm := reorderList_perm st.leaves axs hwf.nodup hand hsub
  intro v hleaf hguard a ha
  exact hsafe v (fun l hl => hleaf l (hperm.mem_iff.mpr hl)) hguard a ha

/-- Every stage reachable by the primitives from a well-formed initial
stage is well-formed and satisfies the guard-safety invariant. -/
theorem reach_wf_safe {st0 st : Stage} (h0 : GoodInit st0) (h : Reach st0 st) :
    WF st ∧ SafeInv st := by
  induction h with
  | refl =>
    obtain ⟨hrels, hnd, hiff⟩ := h0
    constructor
    · exact ⟨hnd, fun l hl => (hiff l).mp hl, by rw [hrels]; simp, by rw [hrels]; simp⟩
    · intro v hleaf hguard a ha
      rw [hrels]
      exact hleaf a ((hiff a).mpr ha)
  | stepSplitF h hs ih =>
    obtain ⟨hax, heq⟩ := splitF_ok_fst hs
    rw [heq]
    exact ⟨wf_splitCore _ _ _ _ hax ih.1, safe_splitCore _ _ _ _ hax ih.1 ih.2⟩
  | stepSplitN h hs ih =>
    obtain ⟨hax, heq⟩ := splitN_ok_fst hs
    rw [heq]
    exact ⟨wf_splitCore _ _ _ _ hax ih.1, safe_splitCore _ _ _ _ hax ih.1 ih.2⟩
  | stepFuse h hs ih => exact ⟨wf_fuse hs ih.1, safe_fuse hs ih.1 ih.2⟩
  | stepReorder h hs ih => exact ⟨wf_reorder hs ih.1, safe_reorder hs ih.1 ih.2⟩

theorem splitCore_nextId (st : Stage) (ax a b : Nat) :
    (splitCore st ax a b).1.nextId = st.nextId + 2 := rfl

theorem splitCore_roots (st : Stage) (ax a b : Nat) :
    (splitCore st ax a b).1.roots = st.roots := rfl

theorem splitCore_rels (st : Stage) (ax a b : Nat) :
    (splitCore st ax a b).1.rels = st.rels ++ [.split ax st.nextId (st.nextId + 1) b] := rfl

theorem splitCore_leaves (st : Stage) (ax a b : Nat) :
    (splitCore st ax a b).1.leaves = replaceLeaf st.leaves ax st.nextId (st.nextId + 1) := rfl

theorem splitCore_ext_low (st : Stage) (ax a b c : Nat) (hc : c < st.nextId) :
    (splitCore st ax a b).1.ext c = st.ext c := by
  show (if c = st.nextId then a else if c = st.nextId + 1 then b else st.ext c) = st.ext c
  rw [if_neg (by omega), if_neg (by omega)]

theorem splitCore_ext_outer (st : Stage) (ax a b : Nat) :
    (splitCore st ax a b).1.ext st.nextId = a := by
  show (if st.nextId = st.nextId then a else _) = a
  rw [if_pos rfl]

theorem splitCore_ext_inner (st : Stage) (ax a b : Nat) :
    (splitCore st ax a b).1.ext (st.nextId + 1) = b := by
  show (if st.nextId + 1 = st.nextId then a else if st.nextId + 1 = st.nextId + 1 then b else _) = b
  rw [if_neg (by omega), if_pos rfl]

theorem reach_nextId_le {st0 st : Stage} (h : Reach st0 st) : st0.nextId ≤ st.nextId := by
  induction h with
  | refl => exact Nat.le_refl _
  | stepSplitF h hs ih =>
    obtain ⟨_, heq⟩ := splitF_ok_fst hs
    rw [heq, splitCore_nextId]
    omega
  | stepSplitN h hs ih =>
    obtain ⟨_, heq⟩ := splitN_ok_fst hs
    rw [heq, splitCore_nextId]
    omega
  | stepFuse h hs ih =>
    obtain ⟨_, heq⟩ := fuseP_ok_fst hs
    rw [heq]
    dsimp only
    omega
  | stepReorder h hs ih =>
    obtain ⟨_, _, heq⟩ := reorderP_ok hs
    rw [heq]
    exact ih

theorem reach_ext_low {st0 st : Stage} (h : Reach st0 st) :
    ∀ a, a < st0.nextId → st.ext a = st0.ext a := by
  induction h with
  | refl => exact fun a _ => rfl
  | stepSplitF h hs ih =>
    intro a ha
    obtain ⟨_, heq⟩ := splitF_ok_fst hs
    rw [heq, splitCore_ext_low _ _ _ _ a (by have := reach_nextId_le h; omega)]
    exact ih a ha
  | stepSplitN h hs ih =>
    intro a ha
    obtain ⟨_, heq⟩ := splitN_ok_fst hs
    rw [heq, splitCore_ext_low _ _ _ _ a (by have := reach_nextId_le h; omega)]
    exact ih a ha
  | stepFuse h hs ih =>
    intro a ha
    obtain ⟨_, heq⟩ := fuseP_ok_fst hs
    rw [heq]
    show (if a = _ then _ else _) = _
    rw [if_neg (by have := reach_nextId_le h; omega)]
    exact ih a ha
  | stepReorder h hs ih =>
    intro a ha
    obtain ⟨_, _, heq⟩ := reorderP_ok hs
    rw [heq]
    exact ih a ha

theorem reach_roots {st0 st : Stage} (h : Reach st0 st) : st.roots = st0.roots := by
  induction h with
  | refl => rfl
  | stepSplitF h hs ih =>
    obtain ⟨_, heq⟩ := splitF_ok_fst hs
    rw [heq, splitCore_roots]
    exact ih
  | stepSplitN h hs ih =>
    obtain ⟨_, heq⟩ := splitN_ok_fst hs
    rw [heq, splitCore_roots]
    exact ih
  | stepFuse h hs ih =>
    obtain ⟨_, heq⟩ := fuseP_ok_fst hs
    rw [heq]
    exact ih
  | stepReorder h hs ih =>
    obtain ⟨_, _, heq⟩ := reorderP_ok hs
    rw [heq]
    exact ih

theorem goodInit_initStage (exts : List Nat) : GoodInit (initStage exts) :=
  ⟨rfl, List.nodup_range _, fun a => by simp [initStage, List.mem_range]⟩

theorem goodInit_matmulInit (N M L : Nat) : GoodInit (matmulInit N M L) := by
  refine ⟨rfl, ?_, fun a => ?_⟩
  · show ([0, 1, 2] : List Nat).Nodup
    decide
  show a ∈ [0, 1, 2] ↔ a < 3
  simp only [List.mem_cons, List.mem_singleton, List.not_mem_nil, or_false]
  omega

/-- Symbolic recovery evaluates to semantic recovery. -/
theorem evalI_recEs (rels : List Rel) (env : Env) :
    ∀ a, evalI env (recEs rels a) = recover rels env a := by
  induction rels with
  | nil => exact fun a => rfl
  | cons r rs ih =>
    intro a
    cases r with
    | split p o i ei =>
      by_cases hap : a = p
      · simp [recEs, recover, applyRel, hap, evalI, ih]
      · simp [recEs, recover, applyRel, hap, evalI, ih]
    | fuse o i fz ei =>
      by_cases hao : a = o
      · simp [recEs, recover, applyRel, hao, evalI, ih]
      · by_cases hai : a = i
        · subst hai
          simp [recEs, recover, applyRel, hao, evalI, ih]
        · simp [recEs, recover, applyRel, hao, hai, evalI, ih]

theorem evalI_substI (env : Env) (g : Nat → IExpr) :
    ∀ e, evalI env (substI g e) = evalI (fun x => evalI env (g x)) e := by
  intro e
  induction e with
  | var a => rfl
  | lit n => rfl
  | add a b iha ihb => simp [substI, evalI, iha, ihb]
  | mul a b iha ihb => simp [substI, evalI, iha, ihb]
  | fdiv a c iha => simp [substI, evalI, iha]
  | fmod a c iha => simp [substI, evalI, iha]

theorem evalS_substSE (env : Env) (σ : Store) (g : Nat → IExpr) :
    ∀ s, evalS env σ (substSE g s) = evalS (fun x => evalI env (g x)) σ s := by
  intro s
  induction s with
  | litS z => rfl
  | loadS buf ixs =>
    simp only [substSE, evalS, List.map_map]
    congr 1
    exact List.map_congr_left (fun e _ => evalI_substI env g e)
  | addS a b iha ihb => simp [substSE, evalS, iha, ihb]
  | mulS a b iha ihb => simp [substSE, evalS, iha, ihb]

theorem evIter_mem (g : Nat → List (Nat × List Nat)) (n : Nat) (e : Nat × List Nat) :
    e ∈ evIter g n ↔ ∃ k, k < n ∧ e ∈ g k := by
  induction n with
  | zero => simp [evIter]
  | succ n ih =>
    simp only [evIter, List.mem_append, ih]
    constructor
    · rintro (⟨k, hk, he⟩ | he)
      · exact ⟨k, by omega, he⟩
      · exact ⟨n, by omega, he⟩
    · rintro ⟨k, hk, he⟩
      by_cases hkn : k = n
      · subst hkn
        exact Or.inr he
      · exact Or.inl ⟨k, by omega, he⟩

/-- Every store event of a nested loop nest arises from a valuation of the
loop variables within their extents. -/
theorem events_buildFors_sound (ext : Nat → Nat) (ls : List Nat) (s : Stmt) (env : Env)
    (e : Nat × List Nat) (he : e ∈ events (buildFors ext ls s) env) :
    ∃ env', (∀ l ∈ ls, env' l < ext l) ∧ (∀ x, x ∉ ls → env' x = env x) ∧
      e ∈ events s env' := by
  induction ls generalizing env with
  | nil => exact ⟨env, by simp, fun x _ => rfl, he⟩
  | cons l rest ih =>
    have he' : e ∈ evIter (fun k => events (buildFors ext rest s) (upd env l k)) (ext l) := he
    rw [evIter_mem] at he'
    obtain ⟨k, hk, hke⟩ := he'
    obtain ⟨env', h1, h2, h3⟩ := ih (upd env l k) hke
    refine ⟨env', ?_, ?_, h3⟩
    · intro l' hl'
      rcases List.mem_cons.mp hl' with hcase | hcase
      · by_cases hlr : l' ∈ rest
        · exact h1 l' hlr
        · rw [h2 l' hlr, hcase]
          show (if l = l then k else env l) < ext l
          rw [if_pos rfl]
          exact hk
      · exact h1 l' hcase
    · intro x hx
      have hxl : x ≠ l := fun hh => hx (hh ▸ List.mem_cons_self _ _)
      have hxr : x ∉ rest := fun hh => hx (List.mem_cons_of_mem _ hh)
      rw [h2 x hxr]
      show (if x = l then k else env x) = env x
      rw [if_neg hxl]

/-- Every store event below the emitted guards satisfies them. -/
theorem events_buildGuards_sound (rels : List Rel) (gs : List (Nat × Nat)) (s : Stmt)
    (env : Env) (e : Nat × List Nat) (he : e ∈ events (buildGuards rels gs s) env) :
    (∀ g ∈ gs, evalI env (recEs rels g.1) < g.2) ∧ e ∈ events s env := by
  induction gs with
  | nil => exact ⟨by simp, he⟩
  | cons g rest ih =>
    have he' : e ∈ events (.ifLt (recEs rels g.1) g.2 (buildGuards rels rest s)) env := he
    simp only [events] at he'
    by_cases hc : evalI env (recEs rels g.1) < g.2
    · rw [if_pos hc] at he'
      obtain ⟨hall, hmem⟩ := ih he'
      refine ⟨?_, hmem⟩
      intro g' hg'
      rcases List.mem_cons.mp hg' with hcase | hcase
      · rw [hcase]
        exact hc
      · exact hall g' hcase
    · rw [if_neg hc] at he'
      simp at he'

/-- Ceiling division times the divisor reproduces the dividend exactly when
the divisor divides it. -/
theorem ceilDiv_mul_eq_iff (e f : Nat) (hf : 0 < f) : ceilDiv e f * f = e ↔ f ∣ e := by
  constructor
  · intro h
    exact ⟨ceilDiv e f, h.symm.trans (Nat.mul_comm (ceilDiv e f) f)⟩
  · rintro ⟨q, rfl⟩
    unfold ceilDiv
    have h1 : f * q + f - 1 = (f - 1) + f * q := by omega
    rw [h1, Nat.add_mul_div_left _ _ hf, Nat.div_eq_of_lt (by omega)]
    ring

theorem mul_ceilDiv_eq_iff (e p : Nat) (hp : 0 < p) : p * ceilDiv e p = e ↔ p ∣ e := by
  rw [Nat.mul_comm]
  exact ceilDiv_mul_eq_iff e p hp

theorem splitF_ok_parts {st st' : Stage} {ax f o i : Nat}
    (h : splitF st ax f = .ok (st', o, i)) :
    ax ∈ st.leaves ∧ o = st.nextId ∧ i = st.nextId + 1 ∧
    st' = (splitCore st ax (ceilDiv (st.ext ax) f) f).1 := by
  obtain ⟨hax, heq⟩ := splitF_ok h
  exact ⟨hax, congrArg (fun t => t.2.1) heq, congrArg (fun t => t.2.2) heq,
    congrArg Prod.fst heq⟩

theorem splitN_ok_parts {st st' : Stage} {ax p o i : Nat}
    (h : splitN st ax p = .ok (st', o, i)) :
    ax ∈ st.leaves ∧ o = st.nextId ∧ i = st.nextId + 1 ∧
    st' = (splitCore st ax p (ceilDiv (st.ext ax) p)).1 := by
  obtain ⟨hax, heq⟩ := splitN_ok h
  exact ⟨hax, congrArg (fun t => t.2.1) heq, congrArg (fun t => t.2.2) heq,
    congrArg Prod.fst heq⟩

theorem placeAxes_cons_neg (l : Nat) (ls : List Nat) (mem : Nat → Bool) (pend : List Nat)
    (h : mem l = false) : placeAxes (l :: ls) mem pend = l :: placeAxes ls mem pend := by
  cases pend with
  | nil => rfl
  | cons p ps => simp [placeAxes, h]

theorem placeAxes_cons_pos (l : Nat) (ls : List Nat) (mem : Nat → Bool) (p : Nat)
    (ps : List Nat) (h : mem l = true) :
    placeAxes (l :: ls) mem (p :: ps) = p :: placeAxes ls mem ps := by
  simp [placeAxes, h]

/-- Reordering with the axes back in their original relative order undoes a
reorder. -/
theorem placeAxes_inverse (ls : List Nat) (mem : Nat → Bool) (pend : List Nat)
    (hp : ∀ x ∈ pend, mem x = true) :
    placeAxes (placeAxes ls mem pend) mem (ls.filter mem) = ls := by
  induction ls generalizing pend with
  | nil =>
    cases pend <;> rfl
  | cons l rest ih =>
    by_cases hml : mem l
    · cases pend with
      | nil =>
        rw [placeAxes, List.filter_cons_of_pos hml,
          placeAxes_cons_pos l (placeAxes rest mem []) mem l (rest.filter mem) hml,
          ih [] (by simp)]
      | cons p ps =>
        have hpm : mem p = true := hp p (List.mem_cons_self _ _)
        rw [placeAxes_cons_pos l rest mem p ps hml, List.filter_cons_of_pos hml,
          placeAxes_cons_pos p (placeAxes rest mem ps) mem l (rest.filter mem) hpm,
          ih ps (fun x hx => hp x (List.mem_cons_of_mem _ hx))]
    · have hml' : mem l = false := by
        cases hm : mem l
        · rfl
        · exact absurd hm hml
      rw [placeAxes_cons_neg l rest mem pend hml', List.filter_cons_of_neg (by simp [hml']),
        placeAxes_cons_neg l (placeAxes rest mem pend) mem (rest.filter mem) hml',
        ih pend hp]

/-- `placeAxes` only consults the membership test on elements of the walked
list. -/
theorem placeAxes_congr (ls : List Nat) (mem mem' : Nat → Bool) (pend : List Nat)
    (h : ∀ x ∈ ls, mem x = mem' x) :
    placeAxes ls mem pend = placeAxes ls mem' pend := by
  induction ls generalizing pend with
  | nil => cases pend <;> rfl
  | cons l rest ih =>
    have hl : mem l = mem' l := h l (List.mem_cons_self _ _)
    have hrest : ∀ x ∈ rest, mem x = mem' x := fun x hx => h x (List.mem_cons_of_mem _ hx)
    cases pend with
    | nil => simp only [placeAxes, ih [] hrest]
    | cons p ps =>
      simp only [placeAxes, hl, ih ps hrest, ih (p :: ps) hrest]

/-- Unlisted axes keep their position under `placeAxes`. -/
theorem placeAxes_get_neg (ls : List Nat) (mem : Nat → Bool) (pend : List Nat) :
    ∀ (p x : Nat), ls[p]? = some x → mem x = false → (placeAxes ls mem pend)[p]? = some x := by
  induction ls generalizing pend with
  | nil => intro p x hp; simp at hp
  | cons l rest ih =>
    intro p x hp hx
    cases p with
    | zero =>
      simp only [List.getElem?_cons_zero, Option.some.injEq] at hp
      subst hp
      cases pend with
      | nil => simp [placeAxes]
      | cons q qs =>
        rw [placeAxes_cons_neg l rest mem (q :: qs) hx]
        simp
    | succ p' =>
      simp only [List.getElem?_cons_succ] at hp
      cases pend with
      | nil =>
        rw [placeAxes]
        simpa using ih [] p' x hp hx
      | cons q qs =>
        by_cases hml : mem l
        · rw [placeAxes_cons_pos l rest mem q qs hml]
          simpa using ih qs p' x hp hx
        · have hml' : mem l = false := by
            cases hm : mem l
            · rfl
            · exact absurd hm hml
          rw [placeAxes_cons_neg l rest mem (q :: qs) hml']
          simpa using ih (q :: qs) p' x hp hx

/-- A duplicate-free axis list drawn from a duplicate-free leaf list is a
permutation of the leaves that pass the membership test. -/
theorem axsPermFilter (ls axs : List Nat) (hnd : ls.Nodup) (hand : axs.Nodup)
    (hsub : ∀ a ∈ axs, a ∈ ls) :
    axs.Perm (ls.filter (fun l => decide (l ∈ axs))) := by
  have hsub1 : axs.Subperm (ls.filter (fun l => decide (l ∈ axs))) := by
    refine List.subperm_of_subset hand ?_
    intro a ha
    simp only [List.mem_filter, decide_eq_true_eq]
    exact ⟨hsub a ha, ha⟩
  have hsub2 : (ls.filter (fun l => decide (l ∈ axs))).Subperm axs := by
    refine List.subperm_of_subset (hnd.filter _) ?_
    intro a ha
    simp only [List.mem_filter, decide_eq_true_eq] at ha
    exact ha.2
  exact hsub1.antisymm hsub2

theorem replacePair_cons_ne (a : Nat) (ls : List Nat) (axo axi fz : Nat) (h : a ≠ axo) :
    replacePair (a :: ls) axo axi fz = a :: replacePair ls axo axi fz := by
  cases ls with
  | nil => rfl
  | cons b rest =>
    have : ¬ (a = axo ∧ b = axi) := fun hh => h hh.1
    simp [replacePair, this]

/-- Splitting a leaf into two fresh axes and immediately fusing them back
replaces the leaf, in place, by the single fused axis. -/
theorem replacePair_replaceLeaf (ls : List Nat) (ax o i fz : Nat) (hnd : ls.Nodup)
    (ho : o ∉ ls) (hi : i ∉ ls) :
    replacePair (replaceLeaf ls ax o i) o i fz =
      ls.map (fun l => if l = ax then fz else l) := by
  induction ls with
  | nil => rfl
  | cons a rest ih =>
    have hnd' := List.nodup_cons.mp hnd
    have ho' : o ∉ rest := fun h => ho (List.mem_cons_of_mem _ h)
    have hi' : i ∉ rest := fun h => hi (List.mem_cons_of_mem _ h)
    by_cases ha : a = ax
    · subst ha
      rw [replaceLeaf, if_pos rfl]
      show replacePair (o :: i :: rest) o i fz = _
      rw [replacePair, if_pos ⟨rfl, rfl⟩]
      simp only [List.map_cons, if_pos rfl]
      congr 1
      have h2 : ∀ l ∈ rest, (if l = a then fz else l) = l := by
        intro l hl
        have hne : l ≠ a := fun hh => hnd'.1 (by rw [← hh]; exact hl)
        rw [if_neg hne]
      rw [List.map_congr_left h2, List.map_id']
    · rw [replaceLeaf, if_neg ha,
        replacePair_cons_ne a _ o i fz (fun hh => ho (by rw [← hh]; exact List.mem_cons_self _ _)),
        ih hnd'.2 ho' hi']
      simp [ha]

theorem evIter_length_const (g : Nat → List (Nat × List Nat)) (n c : Nat)
    (h : ∀ k, (g k).length = c) : (evIter g n).length = n * c := by
  induction n with
  | zero => simp [evIter]
  | succ n ih =>
    simp only [evIter, List.length_append, ih, h n]
    ring

/-- C2: for every `split(axis, factor=f)` on a leaf axis of extent `e`, the
axis is replaced in place by an outer axis of extent `ceil(e/f)` and an
inner axis of extent `f`; for `split(axis, nparts=p)` the outer extent is
exactly `p` and the inner extent `ceil(e/p)`; in both cases the emitted
guard list gains a boundary predicate on the split axis exactly when the
extent is not divisible, and on the non-divisible one-dimensional stage
the lowered inner loop's store is wrapped in that runtime boundary
predicate. -/
theorem C2_split_extents_boundary_predicate :
    (∀ (st st' : Stage) (ax f o i : Nat), splitF st ax f = .ok (st', o, i) →
      st'.leaves = replaceLeaf st.leaves ax o i ∧
      st'.ext o = ceilDiv (st.ext ax) f ∧ st'.ext i = f) ∧
    (∀ (st st' : Stage) (ax p o i : Nat), splitN st ax p = .ok (st', o, i) →
      st'.leaves = replaceLeaf st.leaves ax o i ∧
      st'.ext o = p ∧ st'.ext i = ceilDiv (st.ext ax) p) ∧
    (∀ (st st' : Stage) (ax f o i : Nat), WF st → 0 < f →
      splitF st ax f = .ok (st', o, i) →
      guards st'.rels st'.ext =
        guards st.rels st.ext ++ (if f ∣ st.ext ax then [] else [(ax, st.ext ax)])) ∧
    (∀ (st st' : Stage) (ax p o i : Nat), WF st → 0 < p →
      splitN st ax p = .ok (st', o, i) →
      guards st'.rels st'.ext =
        guards st.rels st.ext ++ (if p ∣ st.ext ax then [] else [(ax, st.ext ax)])) ∧
    (∀ (e f : Nat) (op : ElemOp), 0 < f → ¬ f ∣ e →
      lowerElem (stepF (initStage [e]) 0 f) op =
        .forL 1 (ceilDiv e f) (.forL 2 f
          (.ifLt (.add (.mul (.var 1) (.lit f)) (.var 2)) e
            (.store op.out [.add (.mul (.var 1) (.lit f)) (.var 2)]
              (substSE (recEs [.split 0 1 2 f]) op.body))))) := by
  refine ⟨?_, ?_, ?_, ?_, ?_⟩
  · intro st st' ax f o i h
    obtain ⟨hax, ho, hi, heq⟩ := splitF_ok_parts h
    subst heq
    subst ho
    subst hi
    exact ⟨splitCore_leaves _ _ _ _, splitCore_ext_outer _ _ _ _, splitCore_ext_inner _ _ _ _⟩
  · intro st st' ax p o i h
    obtain ⟨hax, ho, hi, heq⟩ := splitN_ok_parts h
    subst heq
    subst ho
    subst hi
    exact ⟨splitCore_leaves _ _ _ _, splitCore_ext_outer _ _ _ _, splitCore_ext_inner _ _ _ _⟩
  · intro st st' ax f o i hwf hf h
    obtain ⟨hax, ho, hi, heq⟩ := splitF_ok_parts h
    subst heq
    subst ho
    subst hi
    have haxlt : ax < st.nextId := hwf.leavesLt ax hax
    rw [splitCore_rels, guards_append]
    congr 1
    · refine guards_ext_congr _ _ _ ?_
      intro r hr b hb
      exact splitCore_ext_low st ax _ _ b (hwf.relsLt r hr b hb)
    · simp only [guards, splitCore_ext_outer, splitCore_ext_inner,
        splitCore_ext_low st ax _ _ ax haxlt]
      by_cases hd : f ∣ st.ext ax
      · rw [if_pos ((ceilDiv_mul_eq_iff _ _ hf).mpr hd), if_pos hd]
      · rw [if_neg (fun hh => hd ((ceilDiv_mul_eq_iff _ _ hf).mp hh)), if_neg hd]
  · intro st st' ax p o i hwf hp h
    obtain ⟨hax, ho, hi, heq⟩ := splitN_ok_parts h
    subst heq
    subst ho
    subst hi
    have haxlt : ax < st.nextId := hwf.leavesLt ax hax
    rw [splitCore_rels, guards_append]
    congr 1
    · refine guards_ext_congr _ _ _ ?_
      intro r hr b hb
      exact splitCore_ext_low st ax _ _ b (hwf.relsLt r hr b hb)
    · simp only [guards, splitCore_ext_outer, splitCore_ext_inner,
        splitCore_ext_low st ax _ _ ax haxlt]
      by_cases hd : p ∣ st.ext ax
      · rw [if_pos ((mul_ceilDiv_eq_iff _ _ hp).mpr hd), if_pos hd]
      · rw [if_neg (fun hh => hd ((mul_ceilDiv_eq_iff _ _ hp).mp hh)), if_neg hd]
  · intro e f op hf hnd
    have hcond : ¬ (ceilDiv e f * f = e) := fun hh => hnd ((ceilDiv_mul_eq_iff e f hf).mp hh)
    have hg : guards (stepF (initStage [e]) 0 f).rels (stepF (initStage [e]) 0 f).ext
        = [(0, e)] := by
      show (if ceilDiv e f * f = e then ([] : List (Nat × Nat)) else [(0, e)]) = [(0, e)]
      rw [if_neg hcond]
    show buildFors (stepF (initStage [e]) 0 f).ext (stepF (initStage [e]) 0 f).leaves
      (buildGuards (stepF (initStage [e]) 0 f).rels
        (guards (stepF (initStage [e]) 0 f).rels (stepF (initStage [e]) 0 f).ext) _) = _
    rw [hg]
    rfl

/-- Witness for C2: Scenario B of the spec — splitting an axis of extent
100 with factor 32 yields outer extent 4, inner extent 32, and the lowered
inner loop's store sits under the boundary predicate `o*32 + i < 100`. -/
theorem C2_split_extents_boundary_predicate_witness :
    (stepF (initStage [100]) 0 32).ext 1 = 4 ∧
    (stepF (initStage [100]) 0 32).ext 2 = 32 ∧
    (stepF (initStage [100]) 0 32).leaves = [1, 2] ∧
    guards (stepF (initStage [100]) 0 32).rels (stepF (initStage [100]) 0 32).ext
      = [(0, 100)] ∧
    lowerElem (stepF (initStage [100]) 0 32) ⟨3, .loadS 0 [.var 0]⟩ =
      .forL 1 4 (.forL 2 32
        (.ifLt (.add (.mul (.var 1) (.lit 32)) (.var 2)) 100
          (.store 3 [.add (.mul (.var 1) (.lit 32)) (.var 2)]
            (substSE (recEs [.split 0 1 2 32]) (.loadS 0 [.var 0]))))) := by
  obtain ⟨ha, hb, hc, hd, he⟩ := C2_split_extents_boundary_predicate
  have h1 := ha (initStage [100]) (stepF (initStage [100]) 0 32) 0 32 1 2 rfl
  have h2 := hc (initStage [100]) (stepF (initStage [100]) 0 32) 0 32 1 2
    (reach_wf_safe (goodInit_initStage [100]) Reach.refl).1 (by omega) rfl
  have h3 := he 100 32 ⟨3, .loadS 0 [.var 0]⟩ (by omega) (by omega)
  refine ⟨h1.2.1.trans (by decide), h1.2.2, h1.1.trans (by decide), ?_, ?_⟩
  · rw [h2]
    decide
  · rw [h3]
    rfl

theorem events_forL_length (x n : Nat) (b : Stmt) (env : Env) (c : Nat)
    (h : ∀ k, (events b (upd env x k)).length = c) :
    (events (.forL x n b) env).length = n * c := by
  show (evIter (fun k => events b (upd env x k)) n).length = n * c
  exact evIter_length_const _ n c h

/-- C10: when the split factor exactly divides the axis extent, the
lowered loop nest contains no boundary predicate for that split — the
guard list is empty, the lowered nest is the bare two-level loop whose
store is unconditional, and the store executes on every one of the `e`
iterations. -/
theorem C10_divisible_split_unconditional_store :
    ∀ (e f : Nat) (op : ElemOp) (env : Env), 0 < f → f ∣ e →
      guards (stepF (initStage [e]) 0 f).rels (stepF (initStage [e]) 0 f).ext = [] ∧
      lowerElem (stepF (initStage [e]) 0 f) op =
        .forL 1 (ceilDiv e f) (.forL 2 f
          (.store op.out [.add (.mul (.var 1) (.lit f)) (.var 2)]
            (substSE (recEs [.split 0 1 2 f]) op.body))) ∧
      (events (lowerElem (stepF (initStage [e]) 0 f) op) env).length = e := by
  intro e f op env hf hd
  have hcond : ceilDiv e f * f = e := (ceilDiv_mul_eq_iff e f hf).mpr hd
  have hg : guards (stepF (initStage [e]) 0 f).rels (stepF (initStage [e]) 0 f).ext = [] := by
    show (if ceilDiv e f * f = e then ([] : List (Nat × Nat)) else [(0, e)]) = []
    rw [if_pos hcond]
  have hlow : lowerElem (stepF (initStage [e]) 0 f) op =
      .forL 1 (ceilDiv e f) (.forL 2 f
        (.store op.out [.add (.mul (.var 1) (.lit f)) (.var 2)]
          (substSE (recEs [.split 0 1 2 f]) op.body))) := by
    show buildFors (stepF (initStage [e]) 0 f).ext (stepF (initStage [e]) 0 f).leaves
      (buildGuards (stepF (initStage [e]) 0 f).rels
        (guards (stepF (initStage [e]) 0 f).rels (stepF (initStage [e]) 0 f).ext) _) = _
    rw [hg]
    rfl
  refine ⟨hg, hlow, ?_⟩
  rw [hlow]
  have hlen := events_forL_length 1 (ceilDiv e f)
    (.forL 2 f (.store op.out [.add (.mul (.var 1) (.lit f)) (.var 2)]
      (substSE (recEs [.split 0 1 2 f]) op.body))) env f
    (fun k => (events_forL_length 2 f
      (.store op.out [.add (.mul (.var 1) (.lit f)) (.var 2)]
        (substSE (recEs [.split 0 1 2 f]) op.body)) (upd env 1 k) 1
        (fun _ => rfl)).trans (Nat.mul_one f))
  rw [hlen]
  · exact hcond

/-- Witness for C10: the tensorize tutorial's divisible split — extent 512
with factor 16 gives outer 32, inner 16, no guard, and 512 unconditional
stores. -/
theorem C10_divisible_split_unconditional_store_witness :
    guards (stepF (initStage [512]) 0 16).rels (stepF (initStage [512]) 0 16).ext = [] ∧
    lowerElem (stepF (initStage [512]) 0 16) ⟨3, .loadS 0 [.var 0]⟩ =
      .forL 1 32 (.forL 2 16
        (.store 3 [.add (.mul (.var 1) (.lit 16)) (.var 2)]
          (substSE (recEs [.split 0 1 2 16]) (.loadS 0 [.var 0])))) ∧
    (events (lowerElem (stepF (initStage [512]) 0 16) ⟨3, .loadS 0 [.var 0]⟩)
      (fun _ => 0)).length = 512 := by
  obtain ⟨h1, h2, h3⟩ := C10_divisible_split_unconditional_store 512 16
    ⟨3, .loadS 0 [.var 0]⟩ (fun _ => 0) (by omega) (by omega)
  exact ⟨h1, h2.trans (by rfl), h3⟩

/-- C3: in every loop nest lowered from a schedule built by splits, tiles
(split + split + reorder) and fuses — whatever the divisibility of the
factors — no iteration whose recovered original indices lie outside the
original iteration domain executes its store: every store event carries
recovered root indices, and those indices are within the original
extents. -/
theorem C3_no_out_of_bounds_store :
    ∀ (exts : List Nat) (st : Stage) (op : ElemOp) (env : Env) (buf : Nat)
      (ixs : List Nat), Reach (initStage exts) st →
      (buf, ixs) ∈ events (lowerElem st op) env →
      buf = op.out ∧ ∃ v : Nat → Nat, ixs = st.roots.map (recover st.rels v) ∧
        ∀ r ∈ st.roots, recover st.rels v r < (initStage exts).ext r := by
  intro exts st op env buf ixs hreach hmem
  obtain ⟨env', hbound, _, hmem'⟩ := events_buildFors_sound st.ext st.leaves _ env _ hmem
  obtain ⟨hguard, hmem''⟩ := events_buildGuards_sound st.rels _ _ env' _ hmem'
  have hstore : (buf, ixs) = (op.out, (st.roots.map (recEs st.rels)).map (evalI env')) := by
    simpa [events] using hmem''
  have hbuf : buf = op.out := congrArg Prod.fst hstore
  have hixs : ixs = st.roots.map (recover st.rels env') := by
    have h1 : ixs = (st.roots.map (recEs st.rels)).map (evalI env') :=
      congrArg Prod.snd hstore
    rw [h1, List.map_map]
    exact List.map_congr_left (fun r _ => evalI_recEs st.rels env' r)
  refine ⟨hbuf, env', hixs, ?_⟩
  intro r hr
  have hroots : st.roots = (initStage exts).roots := reach_roots hreach
  have hrlt : r < (initStage exts).nextId := by
    rw [hroots] at hr
    exact (goodInit_initStage exts).2.2 r |>.mp hr
  have hsafe := (reach_wf_safe (goodInit_initStage exts) hreach).2
  have hguard' : ∀ g ∈ guards st.rels st.ext, recover st.rels env' g.1 < g.2 := by
    intro g hg
    have := hguard g hg
    rwa [evalI_recEs] at this
  have hlt := hsafe env' hbound hguard' r (by
    have := reach_nextId_le hreach
    omega)
  rwa [reach_ext_low hreach r hrlt] at hlt

/-- Witness for C3: the 5-element axis split by 2 — six loop iterations but
only five store events, each with an in-bounds recovered index. -/
theorem C3_no_out_of_bounds_store_witness :
    Reach (initStage [5]) (stepF (initStage [5]) 0 2) ∧
    (3, [4]) ∈ events (lowerElem (stepF (initStage [5]) 0 2) ⟨3, .litS 1⟩) (fun _ => 0) ∧
    (3 = 3 ∧ ∃ v : Nat → Nat,
      [4] = (stepF (initStage [5]) 0 2).roots.map (recover (stepF (initStage [5]) 0 2).rels v) ∧
      ∀ r ∈ (stepF (initStage [5]) 0 2).roots,
        recover (stepF (initStage [5]) 0 2).rels v r < (initStage [5]).ext r) := by
  have hreach : Reach (initStage [5]) (stepF (initStage [5]) 0 2) :=
    @Reach.stepSplitF (initStage [5]) (initStage [5]) (stepF (initStage [5]) 0 2)
      0 2 1 2 Reach.refl rfl
  have hmem : ((3 : Nat), [(4 : Nat)]) ∈
      events (lowerElem (stepF (initStage [5]) 0 2) ⟨3, .litS 1⟩) (fun _ => 0) := by
    decide
  exact ⟨hreach, hmem,
    C3_no_out_of_bounds_store [5] (stepF (initStage [5]) 0 2) ⟨3, .litS 1⟩
      (fun _ => 0) 3 [4] hreach hmem⟩

theorem fuseP_ok_parts {st st' : Stage} {axo axi fz : Nat}
    (h : fuseP st axo axi = .ok (st', fz)) :
    isAdjacent st.leaves axo axi = true ∧ fz = st.nextId ∧
    st' = { ext := fun a => if a = st.nextId then st.ext axo * st.ext axi else st.ext a
            red := fun a => if a = st.nextId then st.red axo || st.red axi else st.red a
            leaves := replacePair st.leaves axo axi st.nextId
            rels := st.rels ++ [.fuse axo axi st.nextId (st.ext axi)]
            nextId := st.nextId + 1
            roots := st.roots } := by
  obtain ⟨hadj, heq⟩ := fuseP_ok h
  exact ⟨hadj, congrArg Prod.snd heq, congrArg Prod.fst heq⟩

/-- C6: splitting a leaf axis of extent `e` by a positive factor `f` and
fusing the two produced axes back yields a single leaf axis, in place,
whose extent is `outer.extent * inner.extent = ceil(e/f) * f` — equal to
`e` exactly when `f` divides `e` — and the original index is recovered
from the fused variable via floordiv/floormod, collapsing to the fused
variable itself. -/
theorem C6_split_fuse_roundtrip :
    ∀ (st0 st st₁ st₂ : Stage) (ax f o i fz : Nat), GoodInit st0 → Reach st0 st →
      0 < f → splitF st ax f = .ok (st₁, o, i) → fuseP st₁ o i = .ok (st₂, fz) →
      st₂.leaves = st.leaves.map (fun l => if l = ax then fz else l) ∧
      st₂.ext fz = st₁.ext o * st₁.ext i ∧
      st₂.ext fz = ceilDiv (st.ext ax) f * f ∧
      (st₂.ext fz = st.ext ax ↔ f ∣ st.ext ax) ∧
      ∀ v : Nat → Nat,
        recover st₂.rels v o = v fz / f ∧
        recover st₂.rels v i = v fz % f ∧
        recover st₂.rels v ax = (v fz / f) * f + v fz % f ∧
        recover st₂.rels v ax = v fz := by
  intro st0 st st₁ st₂ ax f o i fz h0 hreach hf hsplit hfuse
  have hwf : WF st := (reach_wf_safe h0 hreach).1
  obtain ⟨hax, ho, hi, heq1⟩ := splitF_ok_parts hsplit
  obtain ⟨hadj, hfz, heq2⟩ := fuseP_ok_parts hfuse
  subst heq1
  subst ho
  subst hi
  subst heq2
  subst hfz
  have haxlt : ax < st.nextId := hwf.leavesLt ax hax
  have hoNot : st.nextId ∉ st.leaves := fun h => by have := hwf.leavesLt _ h; omega
  have hiNot : st.nextId + 1 ∉ st.leaves := fun h => by have := hwf.leavesLt _ h; omega
  have hn1 : (splitCore st ax (ceilDiv (st.ext ax) f) f).1.nextId = st.nextId + 2 := rfl
  have hexto := splitCore_ext_outer st ax (ceilDiv (st.ext ax) f) f
  have hexti := splitCore_ext_inner st ax (ceilDiv (st.ext ax) f) f
  refine ⟨?_, ?_, ?_, ?_, ?_⟩
  · show replacePair (splitCore st ax (ceilDiv (st.ext ax) f) f).1.leaves
      (st.nextId) (st.nextId + 1) _ = _
    rw [splitCore_leaves]
    exact replacePair_replaceLeaf st.leaves ax st.nextId (st.nextId + 1)
      (st.nextId + 2) hwf.nodup hoNot hiNot
  · show (if (st.nextId + 2 : Nat) = st.nextId + 2 then _ else _) = _
    rw [if_pos rfl]
  · show (if (st.nextId + 2 : Nat) = st.nextId + 2 then _ else _) = _
    rw [if_pos rfl, hexto, hexti]
  · show (if (st.nextId + 2 : Nat) = st.nextId + 2 then _ else _) = st.ext ax ↔ _
    rw [if_pos rfl, hexto, hexti]
    exact ceilDiv_mul_eq_iff (st.ext ax) f hf
  · intro v
    have hnotconso : ∀ r ∈ st.rels, st.nextId ∉ r.consumed := by
      intro r hr hc
      have := hwf.relsLt r hr _ (r.consumed_subset_ids _ hc)
      omega
    have hnotconsi : ∀ r ∈ st.rels, st.nextId + 1 ∉ r.consumed := by
      intro r hr hc
      have := hwf.relsLt r hr _ (r.consumed_subset_ids _ hc)
      omega
    have hnotconsax : ∀ r ∈ st.rels, ax ∉ r.consumed :=
      fun r hr => hwf.leavesNotConsumed r hr ax hax
    have hrels : (splitCore st ax (ceilDiv (st.ext ax) f) f).1.rels ++
        [Rel.fuse st.nextId (st.nextId + 1)
          (splitCore st ax (ceilDiv (st.ext ax) f) f).1.nextId
          ((splitCore st ax (ceilDiv (st.ext ax) f) f).1.ext (st.nextId + 1))] =
        (st.rels ++ [.split ax st.nextId (st.nextId + 1) f]) ++
        [Rel.fuse st.nextId (st.nextId + 1) (st.nextId + 2) f] := by
      rw [splitCore_rels, hexti, hn1]
    have hrec : recover ((st.rels ++ [.split ax st.nextId (st.nextId + 1) f]) ++
        [Rel.fuse st.nextId (st.nextId + 1) (st.nextId + 2) f]) v =
        recover st.rels (applyRel (.split ax st.nextId (st.nextId + 1) f)
          (applyRel (.fuse st.nextId (st.nextId + 1) (st.nextId + 2) f) v)) := by
      rw [recover_append, recover_append]
    set w := applyRel (.fuse st.nextId (st.nextId + 1) (st.nextId + 2) f) v with hw
    have hwo : w st.nextId = v (st.nextId + 2) / f := by
      show (if st.nextId = st.nextId then _ else _) = _
      rw [if_pos rfl]
    have hwi : w (st.nextId + 1) = v (st.nextId + 2) % f := by
      show (if st.nextId + 1 = st.nextId then _
        else if st.nextId + 1 = st.nextId + 1 then _ else _) = _
      rw [if_neg (by omega), if_pos rfl]
    set w₁ := applyRel (.split ax st.nextId (st.nextId + 1) f) w with hw₁
    have hw₁o : w₁ st.nextId = w st.nextId := by
      show (if st.nextId = ax then _ else _) = _
      rw [if_neg (by omega)]
    have hw₁i : w₁ (st.nextId + 1) = w (st.nextId + 1) := by
      show (if st.nextId + 1 = ax then _ else _) = _
      rw [if_neg (by omega)]
    have hw₁ax : w₁ ax = w st.nextId * f + w (st.nextId + 1) := by
      show (if ax = ax then _ else _) = _
      rw [if_pos rfl]
    refine ⟨?_, ?_, ?_, ?_⟩
    · rw [show (splitCore st ax (ceilDiv (st.ext ax) f) f).1.rels ++ _ = _ from hrels, hrec,
        recover_not_consumed _ _ _ hnotconso, hw₁o, hwo, hn1]
    · rw [show (splitCore st ax (ceilDiv (st.ext ax) f) f).1.rels ++ _ = _ from hrels, hrec,
        recover_not_consumed _ _ _ hnotconsi, hw₁i, hwi, hn1]
    · rw [show (splitCore st ax (ceilDiv (st.ext ax) f) f).1.rels ++ _ = _ from hrels, hrec,
        recover_not_consumed _ _ _ hnotconsax, hw₁ax, hwo, hwi, hn1]
    · rw [show (splitCore st ax (ceilDiv (st.ext ax) f) f).1.rels ++ _ = _ from hrels, hrec,
        recover_not_consumed _ _ _ hnotconsax, hw₁ax, hwo, hwi,
        Nat.mul_comm (v (st.nextId + 2) / f) f, hn1]
      exact Nat.div_add_mod _ _

/-- Witness for C6: splitting a 7-extent axis by 3 and re-fusing yields a
single axis of extent `ceil(7/3)*3 = 9 ≠ 7` (3 does not divide 7), and a
fused index of 5 recovers original index 5. -/
theorem C6_split_fuse_roundtrip_witness :
    0 < 3 ∧
    splitF (initStage [7]) 0 3 = .ok (stepF (initStage [7]) 0 3, 1, 2) ∧
    fuseP (stepF (initStage [7]) 0 3) 1 2 =
      .ok (stepFuse (stepF (initStage [7]) 0 3) 1 2, 3) ∧
    (stepFuse (stepF (initStage [7]) 0 3) 1 2).leaves = [3] ∧
    (stepFuse (stepF (initStage [7]) 0 3) 1 2).ext 3 = 9 ∧
    ¬ (stepFuse (stepF (initStage [7]) 0 3) 1 2).ext 3 = 7 ∧
    recover (stepFuse (stepF (initStage [7]) 0 3) 1 2).rels
      (fun a => if a = 3 then 5 else 0) 0 = 5 := by
  have h := C6_split_fuse_roundtrip (initStage [7]) (initStage [7])
    (stepF (initStage [7]) 0 3) (stepFuse (stepF (initStage [7]) 0 3) 1 2)
    0 3 1 2 3 (goodInit_initStage [7]) Reach.refl (by omega) rfl rfl
  refine ⟨by omega, rfl, rfl, ?_, ?_, ?_, ?_⟩
  · exact h.1.trans (by decide)
  · exact h.2.2.1.trans (by decide)
  · rw [h.2.2.1]
    decide
  · exact ((h.2.2.2.2 (fun a => if a = 3 then 5 else 0)).2.2.2).trans rfl

/-- C7: `reorder` acts as a bijection on the stage's leaf-axis list — the
result is a permutation of the leaves, every unlisted axis keeps its
position, the listed axes appear in exactly the given relative order, and
reordering again with the original relative order of the listed axes
restores the original leaf list. -/
theorem C7_reorder_bijection :
    ∀ (st st' : Stage) (axs : List Nat), st.leaves.Nodup →
      reorderP st axs = .ok st' →
      st'.leaves.Perm st.leaves ∧
      (∀ (p x : Nat), st.leaves[p]? = some x → x ∉ axs → st'.leaves[p]? = some x) ∧
      st'.leaves.filter (fun l => decide (l ∈ axs)) = axs ∧
      reorderList st'.leaves (st.leaves.filter (fun l => decide (l ∈ axs))) = st.leaves := by
  intro st st' axs hnd h
  obtain ⟨hand, hsub, heq⟩ := reorderP_ok h
  subst heq
  have hp : ∀ x ∈ axs, (fun l => decide (l ∈ axs)) x = true :=
    fun x hx => decide_eq_true hx
  have hperm₀ : axs.Perm (st.leaves.filter (fun l => decide (l ∈ axs))) :=
    axsPermFilter st.leaves axs hnd hand hsub
  have hpermL : (reorderList st.leaves axs).Perm st.leaves :=
    reorderList_perm st.leaves axs hnd hand hsub
  refine ⟨hpermL, ?_, ?_, ?_⟩
  · intro p x hpx hx
    refine placeAxes_get_neg st.leaves _ axs p x hpx ?_
    exact decide_eq_false hx
  · exact placeAxes_filter_pos st.leaves _ axs hp hperm₀.length_eq
  · have hX : ∀ x ∈ reorderList st.leaves axs,
        (fun l => decide (l ∈ st.leaves.filter (fun l' => decide (l' ∈ axs)))) x =
        (fun l => decide (l ∈ axs)) x := by
      intro x hx
      refine decide_eq_decide.mpr ?_
      constructor
      · intro hmem
        have := List.mem_filter.mp hmem
        simpa using this.2
      · intro hmem
        refine List.mem_filter.mpr ⟨hpermL.mem_iff.mp hx, ?_⟩
        simpa using hmem
    show placeAxes (reorderList st.leaves axs) _ _ = st.leaves
    rw [placeAxes_congr _ _ (fun l => decide (l ∈ axs)) _ hX]
    exact placeAxes_inverse st.leaves _ axs hp

/-- Witness for C7: on leaves `[0, 1, 2]`, `reorder([2, 0])` gives
`[2, 1, 0]` (axis 1 keeps position 1), and reordering with the original
relative order `[0, 2]` restores `[0, 1, 2]`. -/
theorem C7_reorder_bijection_witness :
    (initStage [4, 4, 4]).leaves.Nodup ∧
    reorderP (initStage [4, 4, 4]) [2, 0] = .ok (stepReorder (initStage [4, 4, 4]) [2, 0]) ∧
    (stepReorder (initStage [4, 4, 4]) [2, 0]).leaves = [2, 1, 0] ∧
    ((stepReorder (initStage [4, 4, 4]) [2, 0]).leaves.Perm (initStage [4, 4, 4]).leaves ∧
      (stepReorder (initStage [4, 4, 4]) [2, 0]).leaves[1]? = some 1 ∧
      reorderList (stepReorder (initStage [4, 4, 4]) [2, 0]).leaves
        ((initStage [4, 4, 4]).leaves.filter (fun l => decide (l ∈ ([2, 0] : List Nat)))) =
        (initStage [4, 4, 4]).leaves) := by
  have hnd : (initStage [4, 4, 4]).leaves.Nodup := by decide
  have h := C7_reorder_bijection (initStage [4, 4, 4])
    (stepReorder (initStage [4, 4, 4]) [2, 0]) [2, 0] hnd rfl
  refine ⟨hnd, rfl, by decide, h.1, ?_, h.2.2.2⟩
  exact h.2.1 1 1 (by decide) (by decide)

theorem updStore_same (σ : Store) (b : Nat) (ix : List Nat) (v : Int) :
    updStore σ b ix v b ix = v := by
  simp [updStore]

theorem updStore_other (σ : Store) (b : Nat) (ix : List Nat) (v : Int) (b' : Nat)
    (ix' : List Nat) (h : ¬ (b' = b ∧ ix' = ix)) : updStore σ b ix v b' ix' = σ b' ix' := by
  simp only [updStore, if_neg h]

theorem updStore_self (σ : Store) (b : Nat) (ix : List Nat) :
    updStore σ b ix (σ b ix) = σ := by
  funext b' ix'
  by_cases h : b' = b ∧ ix' = ix
  · obtain ⟨h1, h2⟩ := h
    subst h1
    subst h2
    simp [updStore]
  · simp only [updStore, if_neg h]

theorem updStore_updStore (σ : Store) (b : Nat) (ix : List Nat) (v w : Int) :
    updStore (updStore σ b ix v) b ix w = updStore σ b ix w := by
  funext b' ix'
  by_cases h : b' = b ∧ ix' = ix
  · obtain ⟨h1, h2⟩ := h
    subst h1
    subst h2
    simp [updStore]
  · simp only [updStore, if_neg h]

theorem setRow_ne2 (σ : Store) (co m : Nat) (g : Nat → Int) (b : Nat) (ix : List Nat)
    (h : b ≠ 2) : setRow σ co m g b ix = σ b ix := by
  simp only [setRow, if_neg h]

theorem setRow_at (σ : Store) (co m : Nat) (g : Nat → Int) (t : Nat) :
    setRow σ co m g 2 [t] = if co ≤ t ∧ t < co + m then g (t - co) else σ 2 [t] := by
  simp [setRow]

theorem accumRow_ne2 (σ : Store) (co m : Nat) (g : Nat → Int) (b : Nat) (ix : List Nat)
    (h : b ≠ 2) : accumRow σ co m g b ix = σ b ix := by
  simp only [accumRow, if_neg h]

theorem accumRow_at (σ : Store) (co m : Nat) (g : Nat → Int) (t : Nat) :
    accumRow σ co m g 2 [t] =
      if co ≤ t ∧ t < co + m then σ 2 [t] + g (t - co) else σ 2 [t] := by
  simp [accumRow]

theorem store_ext_cases (σ σ' : Store)
    (h2 : ∀ t : Nat, σ 2 [t] = σ' 2 [t])
    (hb : ∀ (b : Nat) (ix : List Nat), b ≠ 2 → σ b ix = σ' b ix)
    (hx : ∀ ix : List Nat, (∀ t : Nat, ix ≠ [t]) → σ 2 ix = σ' 2 ix) : σ = σ' := by
  funext b ix
  by_cases hb2 : b = 2
  · subst hb2
    match ix with
    | [t] => exact h2 t
    | [] => exact hx [] (by simp)
    | t :: u :: rest => exact hx (t :: u :: rest) (by simp)
  · exact hb b ix hb2

theorem setRow_zero (σ : Store) (co : Nat) (g : Nat → Int) : setRow σ co 0 g = σ := by
  funext b ix
  by_cases hb : b = 2
  · subst hb
    match ix with
    | [t] =>
      rw [setRow_at, if_neg (by omega)]
    | [] => simp [setRow]
    | t :: u :: rest => simp [setRow]
  · exact setRow_ne2 _ _ _ _ _ _ hb

theorem setRow_congr (σ : Store) (co m : Nat) (g g' : Nat → Int)
    (h : ∀ u, u < m → g u = g' u) : setRow σ co m g = setRow σ co m g' := by
  funext b ix
  by_cases hb : b = 2
  · subst hb
    match ix with
    | [t] =>
      rw [setRow_at, setRow_at]
      by_cases hr : co ≤ t ∧ t < co + m
      · rw [if_pos hr, if_pos hr, h (t - co) (by omega)]
      · rw [if_neg hr, if_neg hr]
    | [] => simp [setRow]
    | t :: u :: rest => simp [setRow]
  · rw [setRow_ne2 _ _ _ _ _ _ hb, setRow_ne2 _ _ _ _ _ _ hb]

theorem setRow_append (σ : Store) (b m₁ m₂ : Nat) (g : Nat → Int) :
    setRow (setRow σ b m₁ g) (b + m₁) m₂ (fun u => g (m₁ + u)) = setRow σ b (m₁ + m₂) g := by
  funext bf ix
  by_cases hb : bf = 2
  · subst hb
    match ix with
    | [t] =>
      rw [setRow_at (setRow σ b m₁ g) (b + m₁) m₂ _ t, setRow_at σ b (m₁ + m₂) g t]
      by_cases hr2 : b + m₁ ≤ t ∧ t < b + m₁ + m₂
      · rw [if_pos hr2, if_pos (show b ≤ t ∧ t < b + (m₁ + m₂) by omega)]
        congr 1
        omega
      · rw [if_neg hr2, setRow_at]
        by_cases hr1 : b ≤ t ∧ t < b + m₁
        · rw [if_pos hr1, if_pos (show b ≤ t ∧ t < b + (m₁ + m₂) by omega)]
        · rw [if_neg hr1, if_neg (show ¬ (b ≤ t ∧ t < b + (m₁ + m₂)) by omega)]
    | [] => simp [setRow]
    | t :: u :: rest => simp [setRow]
  · rw [setRow_ne2 _ _ _ _ _ _ hb, setRow_ne2 _ _ _ _ _ _ hb, setRow_ne2 _ _ _ _ _ _ hb]

theorem updStore_eq_setRow (σ : Store) (c : Nat) (v : Int) :
    updStore σ 2 [c] v = setRow σ c 1 (fun _ => v) := by
  funext b ix
  by_cases hb : b = 2
  · subst hb
    match ix with
    | [t] =>
      rw [setRow_at]
      by_cases ht : t = c
      · subst ht
        rw [if_pos (by omega)]
        simp [updStore]
      · rw [if_neg (by omega)]
        rw [updStore_other _ _ _ _ _ _ (by simp [ht])]
    | [] =>
      rw [updStore_other _ _ _ _ _ _ (by simp)]
      simp [setRow]
    | t :: u :: rest =>
      rw [updStore_other _ _ _ _ _ _ (by simp)]
      simp [setRow]
  · rw [updStore_other _ _ _ _ _ _ (by simp [hb]), setRow_ne2 _ _ _ _ _ _ hb]

theorem accumRow_eq_setRow (σ : Store) (co m : Nat) (g : Nat → Int) :
    accumRow σ co m g = setRow σ co m (fun u => σ 2 [co + u] + g u) := by
  funext b ix
  by_cases hb : b = 2
  · subst hb
    match ix with
    | [t] =>
      rw [setRow_at, accumRow_at]
      by_cases hr : co ≤ t ∧ t < co + m
      · rw [if_pos hr, if_pos hr]
        have : co + (t - co) = t := by omega
        rw [this]
      · rw [if_neg hr, if_neg hr]
    | [] => simp [setRow, accumRow]
    | t :: u :: rest => simp [setRow, accumRow]
  · rw [setRow_ne2 _ _ _ _ _ _ hb, accumRow_ne2 _ _ _ _ _ _ hb]

theorem setRow_badIx (σ : Store) (co m : Nat) (g : Nat → Int) (ix : List Nat)
    (h : ∀ t : Nat, ix ≠ [t]) : setRow σ co m g 2 ix = σ 2 ix := by
  match ix with
  | [t] => exact absurd rfl (h t)
  | [] => simp [setRow]
  | t :: u :: rest => simp [setRow]

theorem accumRow_zero (σ : Store) (co : Nat) (g : Nat → Int) : accumRow σ co 0 g = σ := by
  funext b ix
  by_cases hb : b = 2
  · subst hb
    match ix with
    | [t] => rw [accumRow_at, if_neg (by omega)]
    | [] => simp [accumRow]
    | t :: u :: rest => simp [accumRow]
  · exact accumRow_ne2 _ _ _ _ _ _ hb

theorem accumRow_snoc (σ : Store) (co m : Nat) (g : Nat → Int) :
    updStore (accumRow σ co m g) 2 [co + m] (σ 2 [co + m] + g m) =
      accumRow σ co (m + 1) g := by
  funext b ix
  by_cases hb : b = 2
  · subst hb
    match ix with
    | [t] =>
      by_cases ht : t = co + m
      · subst ht
        rw [updStore_same, accumRow_at, if_pos (by omega)]
        have : co + m - co = m := by omega
        rw [this]
      · rw [updStore_other _ _ _ _ _ _ (by simp [ht]), accumRow_at, accumRow_at]
        by_cases hr : co ≤ t ∧ t < co + m
        · rw [if_pos hr, if_pos (by omega)]
        · rw [if_neg hr, if_neg (by omega)]
    | [] =>
      rw [updStore_other _ _ _ _ _ _ (by simp)]
      simp [accumRow]
    | t :: u :: rest =>
      rw [updStore_other _ _ _ _ _ _ (by simp)]
      simp [accumRow]
  · rw [updStore_other _ _ _ _ _ _ (by simp [hb]), accumRow_ne2 _ _ _ _ _ _ hb,
      accumRow_ne2 _ _ _ _ _ _ hb]

theorem iterUp_zero (g : Nat → Store → Store) (σ : Store) : iterUp g 0 σ = σ := rfl

theorem iterUp_succ (g : Nat → Store → Store) (n : Nat) (σ : Store) :
    iterUp g (n + 1) σ = g n (iterUp g n σ) := rfl

theorem dotAB_zero (σ : Store) (a b : Nat) : dotAB σ a b 0 = 0 := rfl

theorem dotAB_succ (σ : Store) (a b l : Nat) :
    dotAB σ a b (l + 1) = dotAB σ a b l + σ 0 [a + l] * σ 1 [b + l] := by
  unfold dotAB
  rw [List.range_succ, List.map_append, List.sum_append]
  simp

theorem dotAB_indep (σ σ' : Store) (a b l : Nat)
    (h0 : ∀ ix : List Nat, σ' 0 ix = σ 0 ix) (h1 : ∀ ix : List Nat, σ' 1 ix = σ 1 ix) :
    dotAB σ' a b l = dotAB σ a b l := by
  unfold dotAB
  congr 1
  exact List.map_congr_left (fun t _ => by rw [h0, h1])

theorem dotAB_add (σ : Store) (a b u v : Nat) :
    dotAB σ a b (u + v) = dotAB σ a b u + dotAB σ (a + u) (b + u) v := by
  induction v with
  | zero => rw [Nat.add_zero, dotAB_zero, Int.add_zero]
  | succ v ih =>
    have h1 : u + (v + 1) = (u + v) + 1 := by omega
    rw [h1, dotAB_succ, ih, dotAB_succ]
    have e1 : a + (u + v) = a + u + v := by omega
    have e2 : b + (u + v) = b + u + v := by omega
    rw [e1, e2]
    ring

theorem accumLoop (σ : Store) (c a b l : Nat) :
    iterUp (fun t σ' => updStore σ' 2 [c] (σ' 2 [c] + σ' 0 [a + t] * σ' 1 [b + t])) l σ =
    updStore σ 2 [c] (σ 2 [c] + dotAB σ a b l) := by
  induction l with
  | zero =>
    rw [iterUp_zero, dotAB_zero, Int.add_zero, updStore_self]
  | succ l ih =>
    rw [iterUp_succ, ih]
    rw [updStore_same, updStore_other _ _ _ _ _ _ (by simp),
      updStore_other _ _ _ _ _ _ (by simp), updStore_updStore, dotAB_succ]
    ring_nf

theorem gemvResetRun_eq (co m : Nat) (σ : Store) :
    gemvResetRun 2 co m σ = setRow σ co m (fun _ => 0) := by
  unfold gemvResetRun
  induction m with
  | zero => rw [iterUp_zero, setRow_zero]
  | succ m ih =>
    rw [iterUp_succ, ih, updStore_eq_setRow]
    exact setRow_append σ co m 1 (fun _ => (0 : Int))

theorem gemvUpdateRun_eq (co ao bo m l s : Nat) (σ : Store) :
    gemvUpdateRun 2 co 0 ao 1 bo m l s σ =
      accumRow σ co m (fun ii => dotAB σ ao (bo + ii * s) l) := by
  unfold gemvUpdateRun
  induction m with
  | zero => rw [iterUp_zero, accumRow_zero]
  | succ m ih =>
    rw [iterUp_succ, ih, accumLoop (accumRow σ co m _) (co + m) ao (bo + m * s) l]
    have h2 : accumRow σ co m (fun ii => dotAB σ ao (bo + ii * s) l) 2 [co + m] =
        σ 2 [co + m] := by
      rw [accumRow_at, if_neg (by omega)]
    have hdot : dotAB (accumRow σ co m (fun ii => dotAB σ ao (bo + ii * s) l))
        ao (bo + m * s) l = dotAB σ ao (bo + m * s) l :=
      dotAB_indep _ _ _ _ _ (fun ix => accumRow_ne2 _ _ _ _ _ _ (by omega))
        (fun ix => accumRow_ne2 _ _ _ _ _ _ (by omega))
    rw [h2, hdot]
    exact accumRow_snoc σ co m (fun ii => dotAB σ ao (bo + ii * s) l)

/-- Iterating block-writers over adjacent regions of buffer 2 fills one
long region. -/
theorem iterUp_blocks (F : Nat → Store → Store) (σ : Store) (b c : Nat) (g : Nat → Int)
    (hF : ∀ (k : Nat) (σ' : Store),
        (∀ (buf : Nat) (ix : List Nat), buf ≠ 2 → σ' buf ix = σ buf ix) →
        (∀ t : Nat, b + k * c ≤ t → σ' 2 [t] = σ 2 [t]) →
      F k σ' = setRow σ' (b + k * c) c (fun u => g (k * c + u))) :
    ∀ n, iterUp F n σ = setRow σ b (n * c) g := by
  intro n
  induction n with
  | zero => rw [iterUp_zero, Nat.zero_mul, setRow_zero]
  | succ n ih =>
    rw [iterUp_succ, ih, hF n (setRow σ b (n * c) g)
      (fun buf ix hb => setRow_ne2 _ _ _ _ _ _ hb)
      (fun t ht => by rw [setRow_at, if_neg (by omega)]),
      setRow_append σ b (n * c) c g, Nat.succ_mul]

theorem ceilDiv_eq_div_of_dvd (e f : Nat) (hf : 0 < f) (hd : f ∣ e) :
    ceilDiv e f = e / f := by
  have h1 : ceilDiv e f * f = e := (ceilDiv_mul_eq_iff e f hf).mpr hd
  have h2 : e / f * f = e := Nat.div_mul_cancel hd
  exact Nat.eq_of_mul_eq_mul_right hf (h1.trans h2.symm)

theorem decode_div (i u M : Nat) (h : u < M) : (i * M + u) / M = i := by
  rw [Nat.add_comm, Nat.add_mul_div_right _ _ (by omega : 0 < M),
    Nat.div_eq_of_lt h, Nat.zero_add]

theorem decode_mod (i u M : Nat) (h : u < M) : (i * M + u) % M = u := by
  rw [Nat.add_comm, Nat.add_mul_mod_self_right, Nat.mod_eq_of_lt h]

theorem setRow_setRow (σ : Store) (b m : Nat) (g g' : Nat → Int) :
    setRow (setRow σ b m g) b m g' = setRow σ b m g' := by
  funext bf ix
  by_cases hb : bf = 2
  · subst hb
    match ix with
    | [t] =>
      by_cases hr : b ≤ t ∧ t < b + m
      · rw [setRow_at, if_pos hr, setRow_at, if_pos hr]
      · rw [setRow_at, if_neg hr, setRow_at, if_neg hr, setRow_at, if_neg hr]
    | [] => simp [setRow]
    | t :: u :: rest => simp [setRow]
  · rw [setRow_ne2 _ _ _ _ _ _ hb, setRow_ne2 _ _ _ _ _ _ hb, setRow_ne2 _ _ _ _ _ _ hb]

theorem upd_same (env : Env) (x k : Nat) : upd env x k x = k := by
  simp [upd]

theorem upd_other (env : Env) (x k y : Nat) (h : y ≠ x) : upd env x k y = env y := by
  simp [upd, h]

/-- Folding partial GEMV updates over the split reduction axis accumulates
the full dot product, starting from the reset region. -/
theorem zoFold (σ₀ : Store) (co a0 b0 f L : Nat) :
    ∀ q, iterUp (fun zo σ' => gemvUpdateRun 2 co 0 (a0 + zo * f) 1 (b0 + zo * f) f f L σ')
      q (setRow σ₀ co f (fun _ => 0)) =
      setRow σ₀ co f (fun ii => dotAB σ₀ a0 (b0 + ii * L) (q * f)) := by
  intro q
  induction q with
  | zero =>
    rw [iterUp_zero, Nat.zero_mul]
    exact setRow_congr _ _ _ _ _ (fun u _ => (dotAB_zero σ₀ a0 (b0 + u * L)).symm)
  | succ q ih =>
    rw [iterUp_succ, ih, gemvUpdateRun_eq, accumRow_eq_setRow, setRow_setRow]
    refine setRow_congr _ _ _ _ _ ?_
    intro u hu
    rw [setRow_at, if_pos (by omega), Nat.add_sub_cancel_left]
    rw [dotAB_indep _ _ _ _ _ (fun ix => setRow_ne2 _ _ _ _ _ _ (by omega))
      (fun ix => setRow_ne2 _ _ _ _ _ _ (by omega))]
    have e1 : b0 + q * f + u * L = b0 + u * L + q * f := by omega
    have e2 : (q + 1) * f = q * f + f := by ring
    rw [e1, e2, dotAB_add]

/-- One reset-plus-update block of the partially tensorized lowering
computes the full dot products for its `f`-wide slice of `C`. -/
theorem runTP_block (M L f : Nat) (_hf : 0 < f) (hdL : f ∣ L) (env : Env) (σ : Store) :
    run gemvSem
      (.seq (.call "gemv_reset" [.lit 2, ccOff M f, .lit f])
        (.forL 5 (L / f)
          (.call "gemv_update"
            [.lit 2, ccOff M f, .lit 0,
             .add (.mul (.var 0) (.lit L)) (.mul (.var 5) (.lit f)), .lit 1,
             .add (.mul (.var 3) (.lit (f * L))) (.mul (.var 5) (.lit f)),
             .lit f, .lit f, .lit L]))) env σ =
    setRow σ (env 0 * M + env 3 * f) f
      (fun ii => dotAB σ (env 0 * L) (env 3 * (f * L) + ii * L) L) := by
  have h1 : run gemvSem
      (.seq (.call "gemv_reset" [.lit 2, ccOff M f, .lit f])
        (.forL 5 (L / f)
          (.call "gemv_update"
            [.lit 2, ccOff M f, .lit 0,
             .add (.mul (.var 0) (.lit L)) (.mul (.var 5) (.lit f)), .lit 1,
             .add (.mul (.var 3) (.lit (f * L))) (.mul (.var 5) (.lit f)),
             .lit f, .lit f, .lit L]))) env σ =
      iterUp (fun zo σ' => gemvUpdateRun 2 (env 0 * M + env 3 * f) 0
          (env 0 * L + zo * f) 1 (env 3 * (f * L) + zo * f) f f L σ')
        (L / f) (gemvResetRun 2 (env 0 * M + env 3 * f) f σ) := rfl
  rw [h1, gemvResetRun_eq, zoFold, Nat.div_mul_cancel hdL]

/-- The `j.outer` loop of the partially tensorized lowering fills the `M`
cells of one output row. -/
theorem runTP_joFold (M L f : Nat) (hf : 0 < f) (hdM : f ∣ M) (hdL : f ∣ L)
    (env : Env) (σ : Store) :
    run gemvSem
      (.forL 3 (M / f)
        (.seq (.call "gemv_reset" [.lit 2, ccOff M f, .lit f])
          (.forL 5 (L / f)
            (.call "gemv_update"
              [.lit 2, ccOff M f, .lit 0,
               .add (.mul (.var 0) (.lit L)) (.mul (.var 5) (.lit f)), .lit 1,
               .add (.mul (.var 3) (.lit (f * L))) (.mul (.var 5) (.lit f)),
               .lit f, .lit f, .lit L])))) env σ =
    setRow σ (env 0 * M) M (fun u => dotAB σ (env 0 * L) (u * L) L) := by
  have hblocks := iterUp_blocks
    (fun jo σ' => run gemvSem
      (.seq (.call "gemv_reset" [.lit 2, ccOff M f, .lit f])
        (.forL 5 (L / f)
          (.call "gemv_update"
            [.lit 2, ccOff M f, .lit 0,
             .add (.mul (.var 0) (.lit L)) (.mul (.var 5) (.lit f)), .lit 1,
             .add (.mul (.var 3) (.lit (f * L))) (.mul (.var 5) (.lit f)),
             .lit f, .lit f, .lit L]))) (upd env 3 jo) σ')
    σ (env 0 * M) f (fun u => dotAB σ (env 0 * L) (u * L) L) ?_ (M / f)
  · have h1 : run gemvSem
        (.forL 3 (M / f)
          (.seq (.call "gemv_reset" [.lit 2, ccOff M f, .lit f])
            (.forL 5 (L / f)
              (.call "gemv_update"
                [.lit 2, ccOff M f, .lit 0,
                 .add (.mul (.var 0) (.lit L)) (.mul (.var 5) (.lit f)), .lit 1,
                 .add (.mul (.var 3) (.lit (f * L))) (.mul (.var 5) (.lit f)),
                 .lit f, .lit f, .lit L])))) env σ =
        iterUp (fun jo σ' => run gemvSem
          (.seq (.call "gemv_reset" [.lit 2, ccOff M f, .lit f])
            (.forL 5 (L / f)
              (.call "gemv_update"
                [.lit 2, ccOff M f, .lit 0,
                 .add (.mul (.var 0) (.lit L)) (.mul (.var 5) (.lit f)), .lit 1,
                 .add (.mul (.var 3) (.lit (f * L))) (.mul (.var 5) (.lit f)),
                 .lit f, .lit f, .lit L]))) (upd env 3 jo) σ')
          (M / f) σ := rfl
    rw [h1, hblocks, Nat.div_mul_cancel hdM]
  · intro jo σ' hag1 hag2
    show run gemvSem
      (.seq (.call "gemv_reset" [.lit 2, ccOff M f, .lit f])
        (.forL 5 (L / f)
          (.call "gemv_update"
            [.lit 2, ccOff M f, .lit 0,
             .add (.mul (.var 0) (.lit L)) (.mul (.var 5) (.lit f)), .lit 1,
             .add (.mul (.var 3) (.lit (f * L))) (.mul (.var 5) (.lit f)),
             .lit f, .lit f, .lit L]))) (upd env 3 jo) σ' =
      setRow σ' (env 0 * M + jo * f) f (fun u => dotAB σ (env 0 * L) ((jo * f + u) * L) L)
    rw [runTP_block M L f hf hdL (upd env 3 jo) σ']
    have e0 : upd env 3 jo 0 = env 0 := upd_other env 3 jo 0 (by omega)
    have e3 : upd env 3 jo 3 = jo := upd_same env 3 jo
    rw [e0, e3]
    refine setRow_congr _ _ _ _ _ ?_
    intro u hu
    rw [dotAB_indep _ _ _ _ _ (fun ix => hag1 0 ix (by omega)) (fun ix => hag1 1 ix (by omega))]
    have e4 : jo * (f * L) + u * L = (jo * f + u) * L := by ring
    rw [e4]

/-- The partially tensorized lowering (reset plus update calls) computes
the reference matmul into `C`, whatever `C` initially held. -/
theorem runTensorPartial (N M L f : Nat) (hf : 0 < f) (hdM : f ∣ M) (hdL : f ∣ L)
    (env : Env) (σ : Store) :
    run gemvSem (lowerTensorPartial N M L f) env σ =
      setRow σ 0 (N * M) (fun t => matmulSpec σ L (t / M) (t % M)) := by
  have hblocks := iterUp_blocks
    (fun i σ' => run gemvSem
      (.forL 3 (M / f)
        (.seq (.call "gemv_reset" [.lit 2, ccOff M f, .lit f])
          (.forL 5 (L / f)
            (.call "gemv_update"
              [.lit 2, ccOff M f, .lit 0,
               .add (.mul (.var 0) (.lit L)) (.mul (.var 5) (.lit f)), .lit 1,
               .add (.mul (.var 3) (.lit (f * L))) (.mul (.var 5) (.lit f)),
               .lit f, .lit f, .lit L])))) (upd env 0 i) σ')
    σ 0 M (fun t => matmulSpec σ L (t / M) (t % M)) ?_ N
  · have h1 : run gemvSem (lowerTensorPartial N M L f) env σ =
        iterUp (fun i σ' => run gemvSem
          (.forL 3 (M / f)
            (.seq (.call "gemv_reset" [.lit 2, ccOff M f, .lit f])
              (.forL 5 (L / f)
                (.call "gemv_update"
                  [.lit 2, ccOff M f, .lit 0,
                   .add (.mul (.var 0) (.lit L)) (.mul (.var 5) (.lit f)), .lit 1,
                   .add (.mul (.var 3) (.lit (f * L))) (.mul (.var 5) (.lit f)),
                   .lit f, .lit f, .lit L])))) (upd env 0 i) σ') N σ := rfl
    rw [h1, hblocks]
  · intro i σ' hag1 hag2
    show run gemvSem
      (.forL 3 (M / f)
        (.seq (.call "gemv_reset" [.lit 2, ccOff M f, .lit f])
          (.forL 5 (L / f)
            (.call "gemv_update"
              [.lit 2, ccOff M f, .lit 0,
               .add (.mul (.var 0) (.lit L)) (.mul (.var 5) (.lit f)), .lit 1,
               .add (.mul (.var 3) (.lit (f * L))) (.mul (.var 5) (.lit f)),
               .lit f, .lit f, .lit L])))) (upd env 0 i) σ' =
      setRow σ' (0 + i * M) M
        (fun u => matmulSpec σ L ((i * M + u) / M) ((i * M + u) % M))
    rw [runTP_joFold M L f hf hdM hdL (upd env 0 i) σ']
    have e0 : upd env 0 i 0 = i := upd_same env 0 i
    rw [e0]
    have eb : (0 : Nat) + i * M = i * M := Nat.zero_add _
    rw [eb]
    refine setRow_congr _ _ _ _ _ ?_
    intro u hu
    rw [dotAB_indep _ _ _ _ _ (fun ix => hag1 0 ix (by omega)) (fun ix => hag1 1 ix (by omega))]
    unfold matmulSpec
    rw [decode_div i u M hu, decode_mod i u M hu]

/-- The `j.outer` loop of the fully tensorized lowering fills one output
row with full dot products, given that its accumulator region starts out
zero. -/
theorem runTF_joFold (M L f : Nat) (hdM : f ∣ M) (env : Env) (σ : Store)
    (hz : ∀ t : Nat, env 0 * M ≤ t → σ 2 [t] = 0) :
    run gemvSem
      (.forL 3 (M / f)
        (.call "gemv_update"
          [.lit 2, ccOff M f, .lit 0, .mul (.var 0) (.lit L), .lit 1,
           .mul (.var 3) (.lit (f * L)), .lit f, .lit L, .lit L])) env σ =
    setRow σ (env 0 * M) M (fun u => dotAB σ (env 0 * L) (u * L) L) := by
  have hblocks := iterUp_blocks
    (fun jo σ' => run gemvSem
      (.call "gemv_update"
        [.lit 2, ccOff M f, .lit 0, .mul (.var 0) (.lit L), .lit 1,
         .mul (.var 3) (.lit (f * L)), .lit f, .lit L, .lit L]) (upd env 3 jo) σ')
    σ (env 0 * M) f (fun u => dotAB σ (env 0 * L) (u * L) L) ?_ (M / f)
  · have h1 : run gemvSem
        (.forL 3 (M / f)
          (.call "gemv_update"
            [.lit 2, ccOff M f, .lit 0, .mul (.var 0) (.lit L), .lit 1,
             .mul (.var 3) (.lit (f * L)), .lit f, .lit L, .lit L])) env σ =
        iterUp (fun jo σ' => run gemvSem
          (.call "gemv_update"
            [.lit 2, ccOff M f, .lit 0, .mul (.var 0) (.lit L), .lit 1,
             .mul (.var 3) (.lit (f * L)), .lit f, .lit L, .lit L]) (upd env 3 jo) σ')
          (M / f) σ := rfl
    rw [h1, hblocks, Nat.div_mul_cancel hdM]
  · intro jo σ' hag1 hag2
    show run gemvSem
      (.call "gemv_update"
        [.lit 2, ccOff M f, .lit 0, .mul (.var 0) (.lit L), .lit 1,
         .mul (.var 3) (.lit (f * L)), .lit f, .lit L, .lit L]) (upd env 3 jo) σ' =
      setRow σ' (env 0 * M + jo * f) f (fun u => dotAB σ (env 0 * L) ((jo * f + u) * L) L)
    have h2 : run gemvSem
        (.call "gemv_update"
          [.lit 2, ccOff M f, .lit 0, .mul (.var 0) (.lit L), .lit 1,
           .mul (.var 3) (.lit (f * L)), .lit f, .lit L, .lit L]) (upd env 3 jo) σ' =
        gemvUpdateRun 2 (upd env 3 jo 0 * M + upd env 3 jo 3 * f) 0
          (upd env 3 jo 0 * L) 1 (upd env 3 jo 3 * (f * L)) f L L σ' := rfl
    have e0 : upd env 3 jo 0 = env 0 := upd_other env 3 jo 0 (by omega)
    have e3 : upd env 3 jo 3 = jo := upd_same env 3 jo
    rw [h2, e0, e3, gemvUpdateRun_eq, accumRow_eq_setRow]
    refine setRow_congr _ _ _ _ _ ?_
    intro u hu
    have hzero : σ' 2 [env 0 * M + jo * f + u] = 0 := by
      rw [hag2 _ (by omega)]
      exact hz _ (by omega)
    rw [hzero,
      dotAB_indep _ _ _ _ _ (fun ix => hag1 0 ix (by omega)) (fun ix => hag1 1 ix (by omega))]
    have e4 : jo * (f * L) + u * L = (jo * f + u) * L := by ring
    rw [e4, zero_add]

/-- The fully tensorized lowering (one opaque body call per
`(i, j.outer)` pair) computes the reference matmul into `C`, given a
zero-initialized accumulator buffer. -/
theorem runTensorFull (N M L f : Nat) (hdM : f ∣ M) (env : Env) (σ : Store)
    (hσ : ∀ t : Nat, σ 2 [t] = 0) :
    run gemvSem (lowerTensorFull N M L f) env σ =
      setRow σ 0 (N * M) (fun t => matmulSpec σ L (t / M) (t % M)) := by
  have hblocks := iterUp_blocks
    (fun i σ' => run gemvSem
      (.forL 3 (M / f)
        (.call "gemv_update"
          [.lit 2, ccOff M f, .lit 0, .mul (.var 0) (.lit L), .lit 1,
           .mul (.var 3) (.lit (f * L)), .lit f, .lit L, .lit L])) (upd env 0 i) σ')
    σ 0 M (fun t => matmulSpec σ L (t / M) (t % M)) ?_ N
  · have h1 : run gemvSem (lowerTensorFull N M L f) env σ =
        iterUp (fun i σ' => run gemvSem
          (.forL 3 (M / f)
            (.call "gemv_update"
              [.lit 2, ccOff M f, .lit 0, .mul (.var 0) (.lit L), .lit 1,
               .mul (.var 3) (.lit (f * L)), .lit f, .lit L, .lit L])) (upd env 0 i) σ')
          N σ := rfl
    rw [h1, hblocks]
  · intro i σ' hag1 hag2
    show run gemvSem
      (.forL 3 (M / f)
        (.call "gemv_update"
          [.lit 2, ccOff M f, .lit 0, .mul (.var 0) (.lit L), .lit 1,
           .mul (.var 3) (.lit (f * L)), .lit f, .lit L, .lit L])) (upd env 0 i) σ' =
      setRow σ' (0 + i * M) M
        (fun u => matmulSpec σ L ((i * M + u) / M) ((i * M + u) % M))
    have hz : ∀ t : Nat, upd env 0 i 0 * M ≤ t → σ' 2 [t] = 0 := by
      intro t ht
      rw [upd_same] at ht
      rw [hag2 t (by omega)]
      exact hσ t
    rw [runTF_joFold M L f hdM (upd env 0 i) σ' hz]
    have e0 : upd env 0 i 0 = i := upd_same env 0 i
    rw [e0]
    have eb : (0 : Nat) + i * M = i * M := Nat.zero_add _
    rw [eb]
    refine setRow_congr _ _ _ _ _ ?_
    intro u hu
    rw [dotAB_indep _ _ _ _ _ (fun ix => hag1 0 ix (by omega)) (fun ix => hag1 1 ix (by omega))]
    unfold matmulSpec
    rw [decode_div i u M hu, decode_mod i u M hu]

/-- C1: tensorize on a leaf axis removes the loop nest rooted at that
axis. When the tensorized region covers the full reduction domain the
lowering is literally one opaque `gemv_update` body call per remaining
outer iteration `(i, j.outer)` — `N·(M/f)` update calls, no resets. When
the region covers only part of a split reduction axis, the lowering emits
exactly one `gemv_reset` call at each outer-reduction trip boundary (one
per `(i, j.outer)` pair, `N·(M/f)` total) and one `gemv_update` call per
outer-reduction iteration (`N·(M/f)·(L/f)` total). Both forms thread the
accumulator buffer `C` through the calls: each computes the reference
matmul (the full form from a zeroed accumulator, the partial form from
any initial store, since it resets). -/
theorem C1_tensorize_body_calls (N M L f : Nat) (hf : 0 < f) (hdM : f ∣ M) (hdL : f ∣ L)
    (env : Env) (σ : Store) (hσ : ∀ t : Nat, σ 2 [t] = 0) :
    lowerTensorFull N M L f =
      .forL 0 N (.forL 3 (M / f)
        (.call "gemv_update"
          [.lit 2, ccOff M f, .lit 0, .mul (.var 0) (.lit L), .lit 1,
           .mul (.var 3) (.lit (f * L)), .lit f, .lit L, .lit L])) ∧
    callCount (lowerTensorFull N M L f) "gemv_update" = N * (M / f) ∧
    callCount (lowerTensorFull N M L f) "gemv_reset" = 0 ∧
    callCount (lowerTensorPartial N M L f) "gemv_reset" = N * (M / f) ∧
    callCount (lowerTensorPartial N M L f) "gemv_update" = N * (M / f) * (L / f) ∧
    run gemvSem (lowerTensorFull N M L f) env σ =
      setRow σ 0 (N * M) (fun t => matmulSpec σ L (t / M) (t % M)) ∧
    run gemvSem (lowerTensorPartial N M L f) env σ =
      setRow σ 0 (N * M) (fun t => matmulSpec σ L (t / M) (t % M)) := by
  refine ⟨rfl, ?_, ?_, ?_, ?_,
    runTensorFull N M L f hdM env σ hσ,
    runTensorPartial N M L f hf hdM hdL env σ⟩
  · have h : callCount (lowerTensorFull N M L f) "gemv_update" = N * (M / f * 1) := rfl
    rw [h, Nat.mul_one]
  · have h : callCount (lowerTensorFull N M L f) "gemv_reset" = N * (M / f * 0) := rfl
    rw [h, Nat.mul_zero, Nat.mul_zero]
  · have h : callCount (lowerTensorPartial N M L f) "gemv_reset" =
        N * (M / f * (1 + L / f * 0)) := rfl
    rw [h, Nat.mul_zero, Nat.add_zero, Nat.mul_one]
  · have h : callCount (lowerTensorPartial N M L f) "gemv_update" =
        N * (M / f * (0 + L / f * 1)) := rfl
    rw [h, Nat.zero_add, Nat.mul_one, Nat.mul_assoc]

/-- One init-store plus reduction loop of the naive matmul lowering
collapses to a single cell update holding the full dot product. -/
theorem runMM0_cell (M L : Nat) (env : Env) (σ : Store) :
    run gemvSem
      (.seq (.store 2 [.add (.mul (.var 0) (.lit M)) (.var 1)] (.litS 0))
        (.forL 2 L (.store 2 [.add (.mul (.var 0) (.lit M)) (.var 1)]
          (.addS (.loadS 2 [.add (.mul (.var 0) (.lit M)) (.var 1)])
            (.mulS (.loadS 0 [.add (.mul (.var 0) (.lit L)) (.var 2)])
              (.loadS 1 [.add (.mul (.var 1) (.lit L)) (.var 2)])))))) env σ =
    updStore σ 2 [env 0 * M + env 1] (dotAB σ (env 0 * L) (env 1 * L) L) := by
  have h : run gemvSem
      (.seq (.store 2 [.add (.mul (.var 0) (.lit M)) (.var 1)] (.litS 0))
        (.forL 2 L (.store 2 [.add (.mul (.var 0) (.lit M)) (.var 1)]
          (.addS (.loadS 2 [.add (.mul (.var 0) (.lit M)) (.var 1)])
            (.mulS (.loadS 0 [.add (.mul (.var 0) (.lit L)) (.var 2)])
              (.loadS 1 [.add (.mul (.var 1) (.lit L)) (.var 2)])))))) env σ =
      iterUp (fun t σ' => updStore σ' 2 [env 0 * M + env 1]
          (σ' 2 [env 0 * M + env 1] + σ' 0 [env 0 * L + t] * σ' 1 [env 1 * L + t])) L
        (updStore σ 2 [env 0 * M + env 1] 0) := rfl
  rw [h, accumLoop, updStore_same]
  have hdot : dotAB (updStore σ 2 [env 0 * M + env 1] 0) (env 0 * L) (env 1 * L) L =
      dotAB σ (env 0 * L) (env 1 * L) L :=
    dotAB_indep σ _ _ _ _
      (fun ix => updStore_other σ 2 _ 0 0 ix (fun hx => by omega))
      (fun ix => updStore_other σ 2 _ 0 1 ix (fun hx => by omega))
  rw [hdot, updStore_updStore, zero_add]

/-- The inner `j` loop of the naive matmul lowering fills one output row
with dot products. -/
theorem runMM0_row (M L : Nat) (env : Env) (σ : Store) :
    run gemvSem
      (.forL 1 M
        (.seq (.store 2 [.add (.mul (.var 0) (.lit M)) (.var 1)] (.litS 0))
          (.forL 2 L (.store 2 [.add (.mul (.var 0) (.lit M)) (.var 1)]
            (.addS (.loadS 2 [.add (.mul (.var 0) (.lit M)) (.var 1)])
              (.mulS (.loadS 0 [.add (.mul (.var 0) (.lit L)) (.var 2)])
                (.loadS 1 [.add (.mul (.var 1) (.lit L)) (.var 2)]))))))) env σ =
    setRow σ (env 0 * M) M (fun u => dotAB σ (env 0 * L) (u * L) L) := by
  have hblocks := iterUp_blocks
    (fun j σ' => run gemvSem
      (.seq (.store 2 [.add (.mul (.var 0) (.lit M)) (.var 1)] (.litS 0))
        (.forL 2 L (.store 2 [.add (.mul (.var 0) (.lit M)) (.var 1)]
          (.addS (.loadS 2 [.add (.mul (.var 0) (.lit M)) (.var 1)])
            (.mulS (.loadS 0 [.add (.mul (.var 0) (.lit L)) (.var 2)])
              (.loadS 1 [.add (.mul (.var 1) (.lit L)) (.var 2)])))))) (upd env 1 j) σ')
    σ (env 0 * M) 1 (fun u => dotAB σ (env 0 * L) (u * L) L) ?_ M
  · have h1 : run gemvSem
        (.forL 1 M
          (.seq (.store 2 [.add (.mul (.var 0) (.lit M)) (.var 1)] (.litS 0))
            (.forL 2 L (.store 2 [.add (.mul (.var 0) (.lit M)) (.var 1)]
              (.addS (.loadS 2 [.add (.mul (.var 0) (.lit M)) (.var 1)])
                (.mulS (.loadS 0 [.add (.mul (.var 0) (.lit L)) (.var 2)])
                  (.loadS 1 [.add (.mul (.var 1) (.lit L)) (.var 2)]))))))) env σ =
        iterUp (fun j σ' => run gemvSem
          (.seq (.store 2 [.add (.mul (.var 0) (.lit M)) (.var 1)] (.litS 0))
            (.forL 2 L (.store 2 [.add (.mul (.var 0) (.lit M)) (.var 1)]
              (.addS (.loadS 2 [.add (.mul (.var 0) (.lit M)) (.var 1)])
                (.mulS (.loadS 0 [.add (.mul (.var 0) (.lit L)) (.var 2)])
                  (.loadS 1 [.add (.mul (.var 1) (.lit L)) (.var 2)])))))) (upd env 1 j) σ')
          M σ := rfl
    rw [h1, hblocks, Nat.mul_one]
  · intro j σ' hag1 hag2
    show run gemvSem
      (.seq (.store 2 [.add (.mul (.var 0) (.lit M)) (.var 1)] (.litS 0))
        (.forL 2 L (.store 2 [.add (.mul (.var 0) (.lit M)) (.var 1)]
          (.addS (.loadS 2 [.add (.mul (.var 0) (.lit M)) (.var 1)])
            (.mulS (.loadS 0 [.add (.mul (.var 0) (.lit L)) (.var 2)])
              (.loadS 1 [.add (.mul (.var 1) (.lit L)) (.var 2)])))))) (upd env 1 j) σ' =
      setRow σ' (env 0 * M + j * 1) 1
        (fun u => dotAB σ (env 0 * L) ((j * 1 + u) * L) L)
    rw [runMM0_cell M L (upd env 1 j) σ', upd_other env 1 j 0 (by omega), upd_same env 1 j,
      updStore_eq_setRow]
    have e1 : env 0 * M + j = env 0 * M + j * 1 := by omega
    rw [e1]
    refine setRow_congr _ _ _ _ _ ?_
    intro u hu
    have hu0 : u = 0 := by omega
    subst hu0
    rw [dotAB_indep σ σ' _ _ _ (fun ix => hag1 0 ix (by omega)) (fun ix => hag1 1 ix (by omega))]
    have e2 : j * 1 + 0 = j := by omega
    rw [e2]

/-- The naive matmul lowering (init store per output element, then the
reduction loop) computes the reference matmul whatever `C` initially
held. -/
theorem runMatmul0 (N M L : Nat) (env : Env) (σ : Store) :
    run gemvSem (lowerMatmul (matmulInit N M L)) env σ =
      setRow σ 0 (N * M) (fun t => matmulSpec σ L (t / M) (t % M)) := by
  have hblocks := iterUp_blocks
    (fun i σ' => run gemvSem
      (.forL 1 M
        (.seq (.store 2 [.add (.mul (.var 0) (.lit M)) (.var 1)] (.litS 0))
          (.forL 2 L (.store 2 [.add (.mul (.var 0) (.lit M)) (.var 1)]
            (.addS (.loadS 2 [.add (.mul (.var 0) (.lit M)) (.var 1)])
              (.mulS (.loadS 0 [.add (.mul (.var 0) (.lit L)) (.var 2)])
                (.loadS 1 [.add (.mul (.var 1) (.lit L)) (.var 2)]))))))) (upd env 0 i) σ')
    σ 0 M (fun t => matmulSpec σ L (t / M) (t % M)) ?_ N
  · have h1 : run gemvSem (lowerMatmul (matmulInit N M L)) env σ =
        iterUp (fun i σ' => run gemvSem
          (.forL 1 M
            (.seq (.store 2 [.add (.mul (.var 0) (.lit M)) (.var 1)] (.litS 0))
              (.forL 2 L (.store 2 [.add (.mul (.var 0) (.lit M)) (.var 1)]
                (.addS (.loadS 2 [.add (.mul (.var 0) (.lit M)) (.var 1)])
                  (.mulS (.loadS 0 [.add (.mul (.var 0) (.lit L)) (.var 2)])
                    (.loadS 1 [.add (.mul (.var 1) (.lit L)) (.var 2)])))))))
            (upd env 0 i) σ') N σ := rfl
    rw [h1, hblocks]
  · intro i σ' hag1 hag2
    show run gemvSem
      (.forL 1 M
        (.seq (.store 2 [.add (.mul (.var 0) (.lit M)) (.var 1)] (.litS 0))
          (.forL 2 L (.store 2 [.add (.mul (.var 0) (.lit M)) (.var 1)]
            (.addS (.loadS 2 [.add (.mul (.var 0) (.lit M)) (.var 1)])
              (.mulS (.loadS 0 [.add (.mul (.var 0) (.lit L)) (.var 2)])
                (.loadS 1 [.add (.mul (.var 1) (.lit L)) (.var 2)]))))))) (upd env 0 i) σ' =
      setRow σ' (0 + i * M) M
        (fun u => matmulSpec σ L ((i * M + u) / M) ((i * M + u) % M))
    rw [runMM0_row M L (upd env 0 i) σ', upd_same env 0 i]
    have eb : (0 : Nat) + i * M = i * M := Nat.zero_add _
    rw [eb]
    refine setRow_congr _ _ _ _ _ ?_
    intro u hu
    rw [dotAB_indep σ σ' _ _ _ (fun ix => hag1 0 ix (by omega)) (fun ix => hag1 1 ix (by omega))]
    unfold matmulSpec
    rw [decode_div i u M hu, decode_mod i u M hu]

/-- With a divisible split factor the split matmul schedule lowers with no
guards: three data-parallel loops, the init store, then the reduction
loop. -/
theorem lowerMM1_clean (N M L f : Nat) (hf : 0 < f) (hdM : f ∣ M) :
    lowerMatmul (s1Stage N M L f) =
      .forL 0 N (.forL 3 (ceilDiv M f) (.forL 4 f
        (.seq
          (.store 2 [.add (.mul (.var 0) (.lit M))
            (.add (.mul (.var 3) (.lit f)) (.var 4))] (.litS 0))
          (.forL 2 L (.store 2 [.add (.mul (.var 0) (.lit M))
              (.add (.mul (.var 3) (.lit f)) (.var 4))]
            (.addS (.loadS 2 [.add (.mul (.var 0) (.lit M))
                (.add (.mul (.var 3) (.lit f)) (.var 4))])
              (.mulS (.loadS 0 [.add (.mul (.var 0) (.lit L)) (.var 2)])
                (.loadS 1 [.add (.mul (.add (.mul (.var 3) (.lit f)) (.var 4)) (.lit L))
                  (.var 2)])))))))) := by
  have hg : guards (s1Stage N M L f).rels (s1Stage N M L f).ext = [] := by
    have h2 : guards (s1Stage N M L f).rels (s1Stage N M L f).ext =
        (if ceilDiv M f * f = M then ([] : List (Nat × Nat)) else [(1, M)]) := rfl
    rw [h2, if_pos ((ceilDiv_mul_eq_iff M f hf).mpr hdM)]
  have h1 : lowerMatmul (s1Stage N M L f) =
      .forL 0 N (.forL 3 (ceilDiv M f) (.forL 4 f
        (.seq
          (buildGuards (s1Stage N M L f).rels
            ((guards (s1Stage N M L f).rels (s1Stage N M L f).ext).filter
              (fun g => ! (s1Stage N M L f).red g.1))
            (.store 2 [.add (.mul (.var 0) (.lit M))
              (.add (.mul (.var 3) (.lit f)) (.var 4))] (.litS 0)))
          (.forL 2 L (buildGuards (s1Stage N M L f).rels
            (guards (s1Stage N M L f).rels (s1Stage N M L f).ext)
            (.store 2 [.add (.mul (.var 0) (.lit M))
                (.add (.mul (.var 3) (.lit f)) (.var 4))]
              (.addS (.loadS 2 [.add (.mul (.var 0) (.lit M))
                  (.add (.mul (.var 3) (.lit f)) (.var 4))])
                (.mulS (.loadS 0 [.add (.mul (.var 0) (.lit L)) (.var 2)])
                  (.loadS 1 [.add (.mul (.add (.mul (.var 3) (.lit f)) (.var 4)) (.lit L))
                    (.var 2)]))))))))) := rfl
  rw [h1, hg]
  rfl

/-- One init-store plus reduction loop of the split matmul lowering
collapses to a single cell update holding the full dot product. -/
theorem runMM1_cell (M L f : Nat) (env : Env) (σ : Store) :
    run gemvSem
      (.seq
        (.store 2 [.add (.mul (.var 0) (.lit M))
          (.add (.mul (.var 3) (.lit f)) (.var 4))] (.litS 0))
        (.forL 2 L (.store 2 [.add (.mul (.var 0) (.lit M))
            (.add (.mul (.var 3) (.lit f)) (.var 4))]
          (.addS (.loadS 2 [.add (.mul (.var 0) (.lit M))
              (.add (.mul (.var 3) (.lit f)) (.var 4))])
            (.mulS (.loadS 0 [.add (.mul (.var 0) (.lit L)) (.var 2)])
              (.loadS 1 [.add (.mul (.add (.mul (.var 3) (.lit f)) (.var 4)) (.lit L))
                (.var 2)])))))) env σ =
    updStore σ 2 [env 0 * M + (env 3 * f + env 4)]
      (dotAB σ (env 0 * L) ((env 3 * f + env 4) * L) L) := by
  have h : run gemvSem
      (.seq
        (.store 2 [.add (.mul (.var 0) (.lit M))
          (.add (.mul (.var 3) (.lit f)) (.var 4))] (.litS 0))
        (.forL 2 L (.store 2 [.add (.mul (.var 0) (.lit M))
            (.add (.mul (.var 3) (.lit f)) (.var 4))]
          (.addS (.loadS 2 [.add (.mul (.var 0) (.lit M))
              (.add (.mul (.var 3) (.lit f)) (.var 4))])
            (.mulS (.loadS 0 [.add (.mul (.var 0) (.lit L)) (.var 2)])
              (.loadS 1 [.add (.mul (.add (.mul (.var 3) (.lit f)) (.var 4)) (.lit L))
                (.var 2)])))))) env σ =
      iterUp (fun t σ' => updStore σ' 2 [env 0 * M + (env 3 * f + env 4)]
          (σ' 2 [env 0 * M + (env 3 * f + env 4)] +
            σ' 0 [env 0 * L + t] * σ' 1 [(env 3 * f + env 4) * L + t])) L
        (updStore σ 2 [env 0 * M + (env 3 * f + env 4)] 0) := rfl
  rw [h, accumLoop, updStore_same]
  have hdot : dotAB (updStore σ 2 [env 0 * M + (env 3 * f + env 4)] 0)
      (env 0 * L) ((env 3 * f + env 4) * L) L =
      dotAB σ (env 0 * L) ((env 3 * f + env 4) * L) L :=
    dotAB_indep σ _ _ _ _
      (fun ix => updStore_other σ 2 _ 0 0 ix (fun hx => by omega))
      (fun ix => updStore_other σ 2 _ 0 1 ix (fun hx => by omega))
  rw [hdot, updStore_updStore, zero_add]

/-- The `y.inner` loop of the split matmul lowering fills one `f`-wide
slice of an output row. -/
theorem runMM1_yi (M L f : Nat) (env : Env) (σ : Store) :
    run gemvSem
      (.forL 4 f (.seq
        (.store 2 [.add (.mul (.var 0) (.lit M))
          (.add (.mul (.var 3) (.lit f)) (.var 4))] (.litS 0))
        (.forL 2 L (.store 2 [.add (.mul (.var 0) (.lit M))
            (.add (.mul (.var 3) (.lit f)) (.var 4))]
          (.addS (.loadS 2 [.add (.mul (.var 0) (.lit M))
              (.add (.mul (.var 3) (.lit f)) (.var 4))])
            (.mulS (.loadS 0 [.add (.mul (.var 0) (.lit L)) (.var 2)])
              (.loadS 1 [.add (.mul (.add (.mul (.var 3) (.lit f)) (.var 4)) (.lit L))
                (.var 2)]))))))) env σ =
    setRow σ (env 0 * M + env 3 * f) f
      (fun u => dotAB σ (env 0 * L) ((env 3 * f + u) * L) L) := by
  have hblocks := iterUp_blocks
    (fun yi σ' => run gemvSem
      (.seq
        (.store 2 [.add (.mul (.var 0) (.lit M))
          (.add (.mul (.var 3) (.lit f)) (.var 4))] (.litS 0))
        (.forL 2 L (.store 2 [.add (.mul (.var 0) (.lit M))
            (.add (.mul (.var 3) (.lit f)) (.var 4))]
          (.addS (.loadS 2 [.add (.mul (.var 0) (.lit M))
              (.add (.mul (.var 3) (.lit f)) (.var 4))])
            (.mulS (.loadS 0 [.add (.mul (.var 0) (.lit L)) (.var 2)])
              (.loadS 1 [.add (.mul (.add (.mul (.var 3) (.lit f)) (.var 4)) (.lit L))
                (.var 2)])))))) (upd env 4 yi) σ')
    σ (env 0 * M + env 3 * f) 1
    (fun u => dotAB σ (env 0 * L) ((env 3 * f + u) * L) L) ?_ f
  · have h1 : run gemvSem
        (.forL 4 f (.seq
          (.store 2 [.add (.mul (.var 0) (.lit M))
            (.add (.mul (.var 3) (.lit f)) (.var 4))] (.litS 0))
          (.forL 2 L (.store 2 [.add (.mul (.var 0) (.lit M))
              (.add (.mul (.var 3) (.lit f)) (.var 4))]
            (.addS (.loadS 2 [.add (.mul (.var 0) (.lit M))
                (.add (.mul (.var 3) (.lit f)) (.var 4))])
              (.mulS (.loadS 0 [.add (.mul (.var 0) (.lit L)) (.var 2)])
                (.loadS 1 [.add (.mul (.add (.mul (.var 3) (.lit f)) (.var 4)) (.lit L))
                  (.var 2)]))))))) env σ =
        iterUp (fun yi σ' => run gemvSem
          (.seq
            (.store 2 [.add (.mul (.var 0) (.lit M))
              (.add (.mul (.var 3) (.lit f)) (.var 4))] (.litS 0))
            (.forL 2 L (.store 2 [.add (.mul (.var 0) (.lit M))
                (.add (.mul (.var 3) (.lit f)) (.var 4))]
              (.addS (.loadS 2 [.add (.mul (.var 0) (.lit M))
                  (.add (.mul (.var 3) (.lit f)) (.var 4))])
                (.mulS (.loadS 0 [.add (.mul (.var 0) (.lit L)) (.var 2)])
                  (.loadS 1 [.add (.mul (.add (.mul (.var 3) (.lit f)) (.var 4)) (.lit L))
                    (.var 2)])))))) (upd env 4 yi) σ') f σ := rfl
    rw [h1, hblocks, Nat.mul_one]
  · intro yi σ' hag1 hag2
    show run gemvSem
      (.seq
        (.store 2 [.add (.mul (.var 0) (.lit M))
          (.add (.mul (.var 3) (.lit f)) (.var 4))] (.litS 0))
        (.forL 2 L (.store 2 [.add (.mul (.var 0) (.lit M))
            (.add (.mul (.var 3) (.lit f)) (.var 4))]
          (.addS (.loadS 2 [.add (.mul (.var 0) (.lit M))
              (.add (.mul (.var 3) (.lit f)) (.var 4))])
            (.mulS (.loadS 0 [.add (.mul (.var 0) (.lit L)) (.var 2)])
              (.loadS 1 [.add (.mul (.add (.mul (.var 3) (.lit f)) (.var 4)) (.lit L))
                (.var 2)])))))) (upd env 4 yi) σ' =
      setRow σ' (env 0 * M + env 3 * f + yi * 1) 1
        (fun u => dotAB σ (env 0 * L) ((env 3 * f + (yi * 1 + u)) * L) L)
    rw [runMM1_cell M L f (upd env 4 yi) σ', upd_other env 4 yi 0 (by omega),
      upd_other env 4 yi 3 (by omega), upd_same env 4 yi, updStore_eq_setRow]
    have e1 : env 0 * M + (env 3 * f + yi) = env 0 * M + env 3 * f + yi * 1 := by omega
    rw [e1]
    refine setRow_congr _ _ _ _ _ ?_
    intro u hu
    have hu0 : u = 0 := by omega
    subst hu0
    rw [dotAB_indep σ σ' _ _ _ (fun ix => hag1 0 ix (by omega)) (fun ix => hag1 1 ix (by omega))]
    have e2 : env 3 * f + yi = env 3 * f + (yi * 1 + 0) := by omega
    rw [e2]

/-- The `y.outer` loop of the split matmul lowering fills one output
row. -/
theorem runMM1_yo (M L f : Nat) (hf : 0 < f) (hdM : f ∣ M) (env : Env) (σ : Store) :
    run gemvSem
      (.forL 3 (ceilDiv M f) (.forL 4 f (.seq
        (.store 2 [.add (.mul (.var 0) (.lit M))
          (.add (.mul (.var 3) (.lit f)) (.var 4))] (.litS 0))
        (.forL 2 L (.store 2 [.add (.mul (.var 0) (.lit M))
            (.add (.mul (.var 3) (.lit f)) (.var 4))]
          (.addS (.loadS 2 [.add (.mul (.var 0) (.lit M))
              (.add (.mul (.var 3) (.lit f)) (.var 4))])
            (.mulS (.loadS 0 [.add (.mul (.var 0) (.lit L)) (.var 2)])
              (.loadS 1 [.add (.mul (.add (.mul (.var 3) (.lit f)) (.var 4)) (.lit L))
                (.var 2)])))))))) env σ =
    setRow σ (env 0 * M) M (fun u => dotAB σ (env 0 * L) (u * L) L) := by
  have hblocks := iterUp_blocks
    (fun yo σ' => run gemvSem
      (.forL 4 f (.seq
        (.store 2 [.add (.mul (.var 0) (.lit M))
          (.add (.mul (.var 3) (.lit f)) (.var 4))] (.litS 0))
        (.forL 2 L (.store 2 [.add (.mul (.var 0) (.lit M))
            (.add (.mul (.var 3) (.lit f)) (.var 4))]
          (.addS (.loadS 2 [.add (.mul (.var 0) (.lit M))
              (.add (.mul (.var 3) (.lit f)) (.var 4))])
            (.mulS (.loadS 0 [.add (.mul (.var 0) (.lit L)) (.var 2)])
              (.loadS 1 [.add (.mul (.add (.mul (.var 3) (.lit f)) (.var 4)) (.lit L))
                (.var 2)]))))))) (upd env 3 yo) σ')
    σ (env 0 * M) f (fun u => dotAB σ (env 0 * L) (u * L) L) ?_ (ceilDiv M f)
  · have h1 : run gemvSem
        (.forL 3 (ceilDiv M f) (.forL 4 f (.seq
          (.store 2 [.add (.mul (.var 0) (.lit M))
            (.add (.mul (.var 3) (.lit f)) (.var 4))] (.litS 0))
          (.forL 2 L (.store 2 [.add (.mul (.var 0) (.lit M))
              (.add (.mul (.var 3) (.lit f)) (.var 4))]
            (.addS (.loadS 2 [.add (.mul (.var 0) (.lit M))
                (.add (.mul (.var 3) (.lit f)) (.var 4))])
              (.mulS (.loadS 0 [.add (.mul (.var 0) (.lit L)) (.var 2)])
                (.loadS 1 [.add (.mul (.add (.mul (.var 3) (.lit f)) (.var 4)) (.lit L))
                  (.var 2)])))))))) env σ =
        iterUp (fun yo σ' => run gemvSem
          (.forL 4 f (.seq
            (.store 2 [.add (.mul (.var 0) (.lit M))
              (.add (.mul (.var 3) (.lit f)) (.var 4))] (.litS 0))
            (.forL 2 L (.store 2 [.add (.mul (.var 0) (.lit M))
                (.add (.mul (.var 3) (.lit f)) (.var 4))]
              (.addS (.loadS 2 [.add (.mul (.var 0) (.lit M))
                  (.add (.mul (.var 3) (.lit f)) (.var 4))])
                (.mulS (.loadS 0 [.add (.mul (.var 0) (.lit L)) (.var 2)])
                  (.loadS 1 [.add (.mul (.add (.mul (.var 3) (.lit f)) (.var 4)) (.lit L))
                    (.var 2)]))))))) (upd env 3 yo) σ')
          (ceilDiv M f) σ := rfl
    rw [h1, hblocks, (ceilDiv_mul_eq_iff M f hf).mpr hdM]
  · intro yo σ' hag1 hag2
    show run gemvSem
      (.forL 4 f (.seq
        (.store 2 [.add (.mul (.var 0) (.lit M))
          (.add (.mul (.var 3) (.lit f)) (.var 4))] (.litS 0))
        (.forL 2 L (.store 2 [.add (.mul (.var 0) (.lit M))
            (.add (.mul (.var 3) (.lit f)) (.var 4))]
          (.addS (.loadS 2 [.add (.mul (.var 0) (.lit M))
              (.add (.mul (.var 3) (.lit f)) (.var 4))])
            (.mulS (.loadS 0 [.add (.mul (.var 0) (.lit L)) (.var 2)])
              (.loadS 1 [.add (.mul (.add (.mul (.var 3) (.lit f)) (.var 4)) (.lit L))
                (.var 2)]))))))) (upd env 3 yo) σ' =
      setRow σ' (env 0 * M + yo * f) f
        (fun u => dotAB σ (env 0 * L) ((yo * f + u) * L) L)
    rw [runMM1_yi M L f (upd env 3 yo) σ', upd_other env 3 yo 0 (by omega),
      upd_same env 3 yo]
    refine setRow_congr _ _ _ _ _ ?_
    intro u hu
    rw [dotAB_indep σ σ' _ _ _ (fun ix => hag1 0 ix (by omega)) (fun ix => hag1 1 ix (by omega))]

/-- The split matmul lowering computes the reference matmul whatever `C`
initially held. -/
theorem runMatmul1 (N M L f : Nat) (hf : 0 < f) (hdM : f ∣ M) (env : Env) (σ : Store) :
    run gemvSem (lowerMatmul (s1Stage N M L f)) env σ =
      setRow σ 0 (N * M) (fun t => matmulSpec σ L (t / M) (t % M)) := by
  rw [lowerMM1_clean N M L f hf hdM]
  have hblocks := iterUp_blocks
    (fun i σ' => run gemvSem
      (.forL 3 (ceilDiv M f) (.forL 4 f (.seq
        (.store 2 [.add (.mul (.var 0) (.lit M))
          (.add (.mul (.var 3) (.lit f)) (.var 4))] (.litS 0))
        (.forL 2 L (.store 2 [.add (.mul (.var 0) (.lit M))
            (.add (.mul (.var 3) (.lit f)) (.var 4))]
          (.addS (.loadS 2 [.add (.mul (.var 0) (.lit M))
              (.add (.mul (.var 3) (.lit f)) (.var 4))])
            (.mulS (.loadS 0 [.add (.mul (.var 0) (.lit L)) (.var 2)])
              (.loadS 1 [.add (.mul (.add (.mul (.var 3) (.lit f)) (.var 4)) (.lit L))
                (.var 2)])))))))) (upd env 0 i) σ')
    σ 0 M (fun t => matmulSpec σ L (t / M) (t % M)) ?_ N
  · exact hblocks
  · intro i σ' hag1 hag2
    show run gemvSem
      (.forL 3 (ceilDiv M f) (.forL 4 f (.seq
        (.store 2 [.add (.mul (.var 0) (.lit M))
          (.add (.mul (.var 3) (.lit f)) (.var 4))] (.litS 0))
        (.forL 2 L (.store 2 [.add (.mul (.var 0) (.lit M))
            (.add (.mul (.var 3) (.lit f)) (.var 4))]
          (.addS (.loadS 2 [.add (.mul (.var 0) (.lit M))
              (.add (.mul (.var 3) (.lit f)) (.var 4))])
            (.mulS (.loadS 0 [.add (.mul (.var 0) (.lit L)) (.var 2)])
              (.loadS 1 [.add (.mul (.add (.mul (.var 3) (.lit f)) (.var 4)) (.lit L))
                (.var 2)])))))))) (upd env 0 i) σ' =
      setRow σ' (0 + i * M) M
        (fun u => matmulSpec σ L ((i * M + u) / M) ((i * M + u) % M))
    rw [runMM1_yo M L f hf hdM (upd env 0 i) σ', upd_same env 0 i]
    have eb : (0 : Nat) + i * M = i * M := Nat.zero_add _
    rw [eb]
    refine setRow_congr _ _ _ _ _ ?_
    intro u hu
    rw [dotAB_indep σ σ' _ _ _ (fun ix => hag1 0 ix (by omega)) (fun ix => hag1 1 ix (by omega))]
    unfold matmulSpec
    rw [decode_div i u M hu, decode_mod i u M hu]

/-- C8: for the (non-tensorized) reduction stage the lowered nest emits
the initialization write of the reduction identity under the enclosing
data-parallel loops and before the reduction loop, exactly once per
output element per full reduction: both the naive and the split matmul
schedules lower to nests whose init store sits under the data-parallel
loops and precedes the `k` loop, perform exactly `N·M` init stores (one
per output element), and — because every accumulation into an element is
preceded by its initialization — compute the reference matmul whatever
the output buffer initially held. -/
theorem C8_reduction_init_per_element (N M L f : Nat) (hf : 0 < f) (hdM : f ∣ M)
    (env : Env) (σ : Store) :
    lowerMatmul (matmulInit N M L) = mm0Nest N M L ∧
    initCount (lowerMatmul (matmulInit N M L)) = N * M ∧
    run gemvSem (lowerMatmul (matmulInit N M L)) env σ =
      setRow σ 0 (N * M) (fun t => matmulSpec σ L (t / M) (t % M)) ∧
    lowerMatmul (s1Stage N M L f) = mm1Nest N M L f ∧
    initCount (lowerMatmul (s1Stage N M L f)) = N * M ∧
    run gemvSem (lowerMatmul (s1Stage N M L f)) env σ =
      setRow σ 0 (N * M) (fun t => matmulSpec σ L (t / M) (t % M)) := by
  refine ⟨rfl, ?_, runMatmul0 N M L env σ, lowerMM1_clean N M L f hf hdM, ?_,
    runMatmul1 N M L f hf hdM env σ⟩
  · have h : initCount (lowerMatmul (matmulInit N M L)) = N * (M * (1 + L * 0)) := rfl
    rw [h, Nat.mul_zero, Nat.add_zero, Nat.mul_one]
  · rw [lowerMM1_clean N M L f hf hdM]
    show N * (ceilDiv M f * (f * (1 + L * 0))) = N * M
    rw [Nat.mul_zero, Nat.add_zero, Nat.mul_one, (ceilDiv_mul_eq_iff M f hf).mpr hdM]

theorem C1_tensorize_body_calls_witness :
    lowerTensorFull 1 2 2 2 =
      .forL 0 1 (.forL 3 (2 / 2)
        (.call "gemv_update"
          [.lit 2, ccOff 2 2, .lit 0, .mul (.var 0) (.lit 2), .lit 1,
           .mul (.var 3) (.lit (2 * 2)), .lit 2, .lit 2, .lit 2])) ∧
    callCount (lowerTensorFull 1 2 2 2) "gemv_update" = 1 * (2 / 2) ∧
    callCount (lowerTensorFull 1 2 2 2) "gemv_reset" = 0 ∧
    callCount (lowerTensorPartial 1 2 2 2) "gemv_reset" = 1 * (2 / 2) ∧
    callCount (lowerTensorPartial 1 2 2 2) "gemv_update" = 1 * (2 / 2) * (2 / 2) ∧
    run gemvSem (lowerTensorFull 1 2 2 2) (fun _ => 0) (fun _ _ => 0) =
      setRow (fun _ _ => 0) 0 (1 * 2)
        (fun t => matmulSpec (fun _ _ => 0) 2 (t / 2) (t % 2)) ∧
    run gemvSem (lowerTensorPartial 1 2 2 2) (fun _ => 0) (fun _ _ => 0) =
      setRow (fun _ _ => 0) 0 (1 * 2)
        (fun t => matmulSpec (fun _ _ => 0) 2 (t / 2) (t % 2)) :=
  C1_tensorize_body_calls 1 2 2 2 (by decide) (by decide) (by decide)
    (fun _ => 0) (fun _ _ => 0) (fun t => rfl)

theorem C8_reduction_init_per_element_witness :
    lowerMatmul (matmulInit 1 2 1) = mm0Nest 1 2 1 ∧
    initCount (lowerMatmul (matmulInit 1 2 1)) = 1 * 2 ∧
    run gemvSem (lowerMatmul (matmulInit 1 2 1)) (fun _ => 0) (fun _ _ => 0) =
      setRow (fun _ _ => 0) 0 (1 * 2)
        (fun t => matmulSpec (fun _ _ => 0) 1 (t / 2) (t % 2)) ∧
    lowerMatmul (s1Stage 1 2 1 2) = mm1Nest 1 2 1 2 ∧
    initCount (lowerMatmul (s1Stage 1 2 1 2)) = 1 * 2 ∧
    run gemvSem (lowerMatmul (s1Stage 1 2 1 2)) (fun _ => 0) (fun _ _ => 0) =
      setRow (fun _ _ => 0) 0 (1 * 2)
        (fun t => matmulSpec (fun _ _ => 0) 1 (t / 2) (t % 2)) :=
  C8_reduction_init_per_element 1 2 1 2 (by decide) (by decide)
    (fun _ => 0) (fun _ _ => 0)

theorem evalI_usesOnly (v : Nat) (env env' : Env) (hv : env v = env' v) :
    ∀ e : IExpr, usesOnlyVar v e = true → evalI env e = evalI env' e := by
  intro e
  induction e with
  | var a =>
    intro h
    have ha : a = v := by simpa [usesOnlyVar] using h
    subst ha
    exact hv
  | lit n => intro _; rfl
  | add a b iha ihb =>
    intro h
    simp only [usesOnlyVar, Bool.and_eq_true] at h
    show evalI env a + evalI env b = evalI env' a + evalI env' b
    rw [iha h.1, ihb h.2]
  | mul a b iha ihb =>
    intro h
    simp only [usesOnlyVar, Bool.and_eq_true] at h
    show evalI env a * evalI env b = evalI env' a * evalI env' b
    rw [iha h.1, ihb h.2]
  | fdiv a c iha =>
    intro h
    show evalI env a / c = evalI env' a / c
    rw [iha (by simpa [usesOnlyVar] using h)]
  | fmod a c iha =>
    intro h
    show evalI env a % c = evalI env' a % c
    rw [iha (by simpa [usesOnlyVar] using h)]

theorem evalS_readsShape (buf v : Nat) (env env' : Env) (σ σ' : Store)
    (hv : env v = env' v) (hb : ∀ ix : List Nat, σ buf ix = σ' buf ix) :
    ∀ s : SExpr, readsShape buf v s = true → evalS env σ s = evalS env' σ' s := by
  intro s
  induction s with
  | litS z => intro _; rfl
  | loadS b ixs =>
    intro h
    simp only [readsShape, Bool.and_eq_true] at h
    obtain ⟨h1, h2⟩ := h
    have hbeq : b = buf := by simpa using h1
    subst hbeq
    match ixs, h2 with
    | [e], h2 =>
      show σ b [evalI env e] = σ' b [evalI env' e]
      rw [evalI_usesOnly v env env' hv e h2]
      exact hb _
    | [], h2 => exact Bool.noConfusion h2
    | e :: e2 :: rest, h2 => exact Bool.noConfusion h2
  | addS a b iha ihb =>
    intro h
    simp only [readsShape, Bool.and_eq_true] at h
    show evalS env σ a + evalS env σ b = evalS env' σ' a + evalS env' σ' b
    rw [iha h.1, ihb h.2]
  | mulS a b iha ihb =>
    intro h
    simp only [readsShape, Bool.and_eq_true] at h
    show evalS env σ a * evalS env σ b = evalS env' σ' a * evalS env' σ' b
    rw [iha h.1, ihb h.2]

theorem hasLoadFrom_substSE (g : Nat → IExpr) (n : Nat) :
    ∀ s : SExpr, hasLoadFrom (substSE g s) n = hasLoadFrom s n := by
  intro s
  induction s with
  | litS z => rfl
  | loadS b ixs => rfl
  | addS a b iha ihb =>
    show (hasLoadFrom (substSE g a) n || hasLoadFrom (substSE g b) n) =
      (hasLoadFrom a n || hasLoadFrom b n)
    rw [iha, ihb]
  | mulS a b iha ihb =>
    show (hasLoadFrom (substSE g a) n || hasLoadFrom (substSE g b) n) =
      (hasLoadFrom a n || hasLoadFrom b n)
    rw [iha, ihb]

theorem readsShape_no_load (buf v n : Nat) (hn : buf ≠ n) :
    ∀ s : SExpr, readsShape buf v s = true → hasLoadFrom s n = false := by
  intro s
  induction s with
  | litS z => intro _; rfl
  | loadS b ixs =>
    intro h
    simp only [readsShape, Bool.and_eq_true] at h
    have hbeq : b = buf := by simpa using h.1
    show (b = n : Bool) = false
    rw [hbeq]
    simp only [decide_eq_false_iff_not]
    exact hn
  | addS a b iha ihb =>
    intro h
    simp only [readsShape, Bool.and_eq_true] at h
    show (hasLoadFrom a n || hasLoadFrom b n) = false
    rw [iha h.1, ihb h.2]
    rfl
  | mulS a b iha ihb =>
    intro h
    simp only [readsShape, Bool.and_eq_true] at h
    show (hasLoadFrom a n || hasLoadFrom b n) = false
    rw [iha h.1, ihb h.2]
    rfl

theorem usesOnlyVar_substI (v : Nat) (e : IExpr) (he : usesOnlyVar v e = true) :
    ∀ e0 : IExpr, usesOnlyVar v (substI (fun _ => e) e0) = true := by
  intro e0
  induction e0 with
  | var a => exact he
  | lit n => rfl
  | add a b iha ihb =>
    show (usesOnlyVar v (substI (fun _ => e) a) && usesOnlyVar v (substI (fun _ => e) b)) = true
    rw [iha, ihb]
    rfl
  | mul a b iha ihb =>
    show (usesOnlyVar v (substI (fun _ => e) a) && usesOnlyVar v (substI (fun _ => e) b)) = true
    rw [iha, ihb]
    rfl
  | fdiv a c iha => exact iha
  | fmod a c iha => exact iha

theorem readsShape_substConst (v : Nat) (e : IExpr) (he : usesOnlyVar v e = true)
    (buf w : Nat) :
    ∀ s : SExpr, readsShape buf w s = true →
      readsShape buf v (substSE (fun _ => e) s) = true := by
  intro s
  induction s with
  | litS z => intro _; rfl
  | loadS b ixs =>
    intro h
    simp only [readsShape, Bool.and_eq_true] at h
    obtain ⟨h1, h2⟩ := h
    match ixs, h2 with
    | [e0], h2 =>
      show ((b = buf : Bool) && usesOnlyVar v (substI (fun _ => e) e0)) = true
      rw [usesOnlyVar_substI v e he e0, h1]
      rfl
    | [], h2 => exact Bool.noConfusion h2
    | e0 :: e1 :: rest, h2 => exact Bool.noConfusion h2
  | addS a b iha ihb =>
    intro h
    simp only [readsShape, Bool.and_eq_true] at h
    show (readsShape buf v (substSE (fun _ => e) a) &&
      readsShape buf v (substSE (fun _ => e) b)) = true
    rw [iha h.1, ihb h.2]
    rfl
  | mulS a b iha ihb =>
    intro h
    simp only [readsShape, Bool.and_eq_true] at h
    show (readsShape buf v (substSE (fun _ => e) a) &&
      readsShape buf v (substSE (fun _ => e) b)) = true
    rw [iha h.1, ihb h.2]
    rfl

theorem inline_readsShape (fB : SExpr) (hfB : readsShape 0 0 fB = true) :
    ∀ gC : SExpr, readsShape 1 1 gC = true →
      readsShape 0 1 (inlineLoads fB gC) = true := by
  intro gC
  induction gC with
  | litS z => intro _; rfl
  | loadS b ixs =>
    intro h
    simp only [readsShape, Bool.and_eq_true] at h
    obtain ⟨h1, h2⟩ := h
    have hbeq : b = 1 := by simpa using h1
    subst hbeq
    match ixs, h2 with
    | [e], h2 =>
      show readsShape 0 1 (substSE (fun _ => e) fB) = true
      exact readsShape_substConst 1 e h2 0 0 fB hfB
    | [], h2 => exact Bool.noConfusion h2
    | e :: e2 :: rest, h2 => exact Bool.noConfusion h2
  | addS a b iha ihb =>
    intro h
    simp only [readsShape, Bool.and_eq_true] at h
    show (readsShape 0 1 (inlineLoads fB a) && readsShape 0 1 (inlineLoads fB b)) = true
    rw [iha h.1, ihb h.2]
    rfl
  | mulS a b iha ihb =>
    intro h
    simp only [readsShape, Bool.and_eq_true] at h
    show (readsShape 0 1 (inlineLoads fB a) && readsShape 0 1 (inlineLoads fB b)) = true
    rw [iha h.1, ihb h.2]
    rfl

/-- The producer loop of the root pipeline: it touches only buffer `1`
and fills `B[t] = fB(t)` for every `t < n`, each body evaluated over the
original store. -/
theorem prodLoop (fB : SExpr) (hfB : readsShape 0 0 fB = true) (env : Env) (σ : Store) :
    ∀ n,
      (∀ (b : Nat) (ix : List Nat), b ≠ 1 →
        iterUp (fun k σ' => updStore σ' 1 [k] (evalS (upd env 0 k) σ' fB)) n σ b ix =
          σ b ix) ∧
      (∀ t, t < n →
        iterUp (fun k σ' => updStore σ' 1 [k] (evalS (upd env 0 k) σ' fB)) n σ 1 [t] =
          evalS (upd env 0 t) σ fB) ∧
      (∀ ix : List Nat, (∀ t, t < n → ix ≠ [t]) →
        iterUp (fun k σ' => updStore σ' 1 [k] (evalS (upd env 0 k) σ' fB)) n σ 1 ix =
          σ 1 ix) := by
  intro n
  induction n with
  | zero =>
    exact ⟨fun b ix _ => rfl, fun t ht => absurd ht (by omega), fun ix _ => rfl⟩
  | succ n ih =>
    obtain ⟨ih1, ih2, ih3⟩ := ih
    refine ⟨?_, ?_, ?_⟩
    · intro b ix hb
      rw [iterUp_succ, updStore_other _ _ _ _ b ix (fun hx => hb hx.1), ih1 b ix hb]
    · intro t ht
      rw [iterUp_succ]
      by_cases htn : t = n
      · subst htn
        rw [updStore_same]
        exact evalS_readsShape 0 0 (upd env 0 t) (upd env 0 t) _ σ rfl
          (fun ix => ih1 0 ix (by omega)) fB hfB
      · rw [updStore_other _ _ _ _ 1 [t] (fun hx => htn (by simpa using hx.2))]
        exact ih2 t (by omega)
    · intro ix hix
      rw [iterUp_succ, updStore_other _ _ _ _ 1 ix (fun hx => hix n (by omega) hx.2),
        ih3 ix (fun t ht => hix t (by omega))]

/-- An elementwise consumer loop whose body reads only one non-output
buffer is a region fill of buffer `2`, each body evaluated over the loop
entry store. -/
theorem consLoop (bf : Nat) (hbf : bf ≠ 2) (m : Nat) (E : SExpr)
    (hE : readsShape bf 1 E = true) (env : Env) (σ : Store) :
    iterUp (fun k σ' => updStore σ' 2 [k] (evalS (upd env 1 k) σ' E)) m σ =
      setRow σ 0 m (fun k => evalS (upd env 1 k) σ E) := by
  have hblocks := iterUp_blocks
    (fun k σ' => updStore σ' 2 [k] (evalS (upd env 1 k) σ' E))
    σ 0 1 (fun k => evalS (upd env 1 k) σ E) ?_ m
  · exact hblocks.trans (by rw [Nat.mul_one])
  · intro k σ' hag1 hag2
    show updStore σ' 2 [k] (evalS (upd env 1 k) σ' E) =
      setRow σ' (0 + k * 1) 1 (fun u => evalS (upd env 1 (k * 1 + u)) σ E)
    rw [updStore_eq_setRow]
    have e1 : (0 : Nat) + k * 1 = k := by omega
    rw [e1]
    refine setRow_congr _ _ _ _ _ ?_
    intro u hu
    have hu0 : u = 0 := by omega
    subst hu0
    have e2 : k * 1 + 0 = k := by omega
    rw [e2]
    exact evalS_readsShape bf 1 (upd env 1 k) (upd env 1 k) σ' σ rfl
      (fun ix => hag1 bf ix hbf) E hE

/-- Replacing reads of the producer tensor by the index-specialized
producer body preserves value: evaluating the consumer body over the
store holding the producer's results equals evaluating the inlined body
over the original store. -/
theorem evalS_inline (fB : SExpr) (hfB : readsShape 0 0 fB = true) (env' : Env)
    (σ σ₁ : Store) :
    ∀ gC : SExpr, readsShape 1 1 gC = true →
      (∀ e ∈ bReadIdx gC,
        σ₁ 1 [evalI env' e] = evalS (upd env' 0 (evalI env' e)) σ fB) →
      evalS env' σ₁ gC = evalS env' σ (inlineLoads fB gC) := by
  intro gC
  induction gC with
  | litS z => intro _ _; rfl
  | loadS b ixs =>
    intro h hB
    simp only [readsShape, Bool.and_eq_true] at h
    obtain ⟨h1, h2⟩ := h
    have hbeq : b = 1 := by simpa using h1
    subst hbeq
    match ixs, h2, hB with
    | [e], h2, hB =>
      have hBe := hB e (by simp [bReadIdx])
      show σ₁ 1 [evalI env' e] = evalS env' σ (substSE (fun _ => e) fB)
      rw [hBe, evalS_substSE]
      exact evalS_readsShape 0 0 (upd env' 0 (evalI env' e)) (fun _ => evalI env' e)
        σ σ (upd_same env' 0 (evalI env' e)) (fun _ => rfl) fB hfB
    | [], h2, _ => exact Bool.noConfusion h2
    | e :: e2 :: rest, h2, _ => exact Bool.noConfusion h2
  | addS a b iha ihb =>
    intro h hB
    simp only [readsShape, Bool.and_eq_true] at h
    have hBa : ∀ e ∈ bReadIdx a,
        σ₁ 1 [evalI env' e] = evalS (upd env' 0 (evalI env' e)) σ fB :=
      fun e he => hB e (by simp only [bReadIdx, List.mem_append]; exact Or.inl he)
    have hBb : ∀ e ∈ bReadIdx b,
        σ₁ 1 [evalI env' e] = evalS (upd env' 0 (evalI env' e)) σ fB :=
      fun e he => hB e (by simp only [bReadIdx, List.mem_append]; exact Or.inr he)
    show evalS env' σ₁ a + evalS env' σ₁ b =
      evalS env' σ (inlineLoads fB a) + evalS env' σ (inlineLoads fB b)
    rw [iha h.1 hBa, ihb h.2 hBb]
  | mulS a b iha ihb =>
    intro h hB
    simp only [readsShape, Bool.and_eq_true] at h
    have hBa : ∀ e ∈ bReadIdx a,
        σ₁ 1 [evalI env' e] = evalS (upd env' 0 (evalI env' e)) σ fB :=
      fun e he => hB e (by simp only [bReadIdx, List.mem_append]; exact Or.inl he)
    have hBb : ∀ e ∈ bReadIdx b,
        σ₁ 1 [evalI env' e] = evalS (upd env' 0 (evalI env' e)) σ fB :=
      fun e he => hB e (by simp only [bReadIdx, List.mem_append]; exact Or.inr he)
    show evalS env' σ₁ a * evalS env' σ₁ b =
      evalS env' σ (inlineLoads fB a) * evalS env' σ (inlineLoads fB b)
    rw [iha h.1 hBa, ihb h.2 hBb]

/-- C4: compute_inline on the producer of the two-stage elementwise
pipeline lowers to a module with no store to the producer's buffer and no
remaining read of the producer's tensor — every read is replaced by the
index-substituted producer body — and, whenever the consumer reads the
producer only inside the produced region, the inlined and non-inlined
lowered forms compute bit-identical values for every cell of the output
buffer. -/
theorem C4_compute_inline_equiv (m : Nat) (fB gC : SExpr)
    (hfB : readsShape 0 0 fB = true) (hgC : readsShape 1 1 gC = true)
    (env : Env) (σ : Store)
    (hbnd : ∀ k, k < m → ∀ e ∈ bReadIdx gC, evalI (upd env 1 k) e < m) :
    hasStoreTo (lowerPipeInline m fB gC) 1 = false ∧
    lowerPipeInline m fB gC = .forL 1 m (.store 2 [.var 1] (inlineLoads fB gC)) ∧
    hasLoadFrom (inlineLoads fB gC) 1 = false ∧
    ∀ ix : List Nat,
      run gemvSem (lowerPipeInline m fB gC) env σ 2 ix =
        run gemvSem (lowerPipeRoot m fB gC) env σ 2 ix := by
  refine ⟨rfl, rfl,
    readsShape_no_load 0 1 1 (by omega) _ (inline_readsShape fB hfB gC hgC), ?_⟩
  have hP := prodLoop fB hfB env σ m
  obtain ⟨hP1, hP2, hP3⟩ := hP
  have hIeq : run gemvSem (lowerPipeInline m fB gC) env σ =
      setRow σ 0 m (fun k => evalS (upd env 1 k) σ (inlineLoads fB gC)) := by
    have h1 : run gemvSem (lowerPipeInline m fB gC) env σ =
        iterUp (fun k σ' =>
          updStore σ' 2 [k] (evalS (upd env 1 k) σ' (inlineLoads fB gC))) m σ := rfl
    rw [h1]
    exact consLoop 0 (by omega) m (inlineLoads fB gC)
      (inline_readsShape fB hfB gC hgC) env σ
  have hReq : run gemvSem (lowerPipeRoot m fB gC) env σ =
      setRow (iterUp (fun k σ' => updStore σ' 1 [k] (evalS (upd env 0 k) σ' fB)) m σ)
        0 m (fun k => evalS (upd env 1 k)
          (iterUp (fun k σ' => updStore σ' 1 [k] (evalS (upd env 0 k) σ' fB)) m σ) gC) := by
    have h2 : run gemvSem (lowerPipeRoot m fB gC) env σ =
        iterUp (fun k σ' => updStore σ' 2 [k] (evalS (upd env 1 k) σ' gC)) m
          (iterUp (fun k σ' => updStore σ' 1 [k] (evalS (upd env 0 k) σ' fB)) m σ) := rfl
    rw [h2]
    exact consLoop 1 (by omega) m gC hgC env _
  have hkey : ∀ k, k < m →
      evalS (upd env 1 k)
        (iterUp (fun k σ' => updStore σ' 1 [k] (evalS (upd env 0 k) σ' fB)) m σ) gC =
      evalS (upd env 1 k) σ (inlineLoads fB gC) := by
    intro k hk
    refine evalS_inline fB hfB (upd env 1 k) σ _ gC hgC ?_
    intro e he
    have hc := hbnd k hk e he
    rw [hP2 (evalI (upd env 1 k) e) hc]
    exact evalS_readsShape 0 0 (upd env 0 (evalI (upd env 1 k) e))
      (upd (upd env 1 k) 0 (evalI (upd env 1 k) e)) σ σ
      (by rw [upd_same, upd_same]) (fun _ => rfl) fB hfB
  intro ix
  rw [hIeq, hReq]
  match ix with
  | [t] =>
    rw [setRow_at, setRow_at]
    by_cases hr : 0 ≤ t ∧ t < 0 + m
    · rw [if_pos hr, if_pos hr]
      exact (hkey (t - 0) (by omega)).symm
    · rw [if_neg hr, if_neg hr]
      exact (hP1 2 [t] (by omega)).symm
  | [] =>
    rw [setRow_badIx _ _ _ _ [] (fun t h => by simp at h),
      setRow_badIx _ _ _ _ [] (fun t h => by simp at h)]
    exact (hP1 2 [] (by omega)).symm
  | a :: b :: rest =>
    rw [setRow_badIx _ _ _ _ (a :: b :: rest) (fun t h => by simp at h),
      setRow_badIx _ _ _ _ (a :: b :: rest) (fun t h => by simp at h)]
    exact (hP1 2 (a :: b :: rest) (by omega)).symm

theorem C4_compute_inline_equiv_witness :
    hasStoreTo (lowerPipeInline 2 (.addS (.loadS 0 [.var 0]) (.litS 1))
      (.mulS (.loadS 1 [.var 1]) (.litS 2))) 1 = false ∧
    lowerPipeInline 2 (.addS (.loadS 0 [.var 0]) (.litS 1))
        (.mulS (.loadS 1 [.var 1]) (.litS 2)) =
      .forL 1 2 (.store 2 [.var 1]
        (inlineLoads (.addS (.loadS 0 [.var 0]) (.litS 1))
          (.mulS (.loadS 1 [.var 1]) (.litS 2)))) ∧
    hasLoadFrom (inlineLoads (.addS (.loadS 0 [.var 0]) (.litS 1))
      (.mulS (.loadS 1 [.var 1]) (.litS 2))) 1 = false ∧
    ∀ ix : List Nat,
      run gemvSem (lowerPipeInline 2 (.addS (.loadS 0 [.var 0]) (.litS 1))
          (.mulS (.loadS 1 [.var 1]) (.litS 2))) (fun _ => 0) (fun _ _ => 0) 2 ix =
        run gemvSem (lowerPipeRoot 2 (.addS (.loadS 0 [.var 0]) (.litS 1))
          (.mulS (.loadS 1 [.var 1]) (.litS 2))) (fun _ => 0) (fun _ _ => 0) 2 ix :=
  C4_compute_inline_equiv 2 (.addS (.loadS 0 [.var 0]) (.litS 1))
    (.mulS (.loadS 1 [.var 1]) (.litS 2)) (by decide) (by decide)
    (fun _ => 0) (fun _ _ => 0) (by decide)

theorem evalS_identAccess (env' : Env) (σa σb : Store)
    (h : ∀ b : Nat, σa b [env' 1] = σb b [env' 1]) :
    ∀ s : SExpr, identAccess s = true → evalS env' σa s = evalS env' σb s := by
  intro s
  induction s with
  | litS z => intro _; rfl
  | loadS b ixs =>
    intro hI
    have hix : ixs = [IExpr.var 1] := by simpa [identAccess] using hI
    subst hix
    show σa b [env' 1] = σb b [env' 1]
    exact h b
  | addS a b iha ihb =>
    intro hI
    simp only [identAccess, Bool.and_eq_true] at hI
    show evalS env' σa a + evalS env' σa b = evalS env' σb a + evalS env' σb b
    rw [iha hI.1, ihb hI.2]
  | mulS a b iha ihb =>
    intro hI
    simp only [identAccess, Bool.and_eq_true] at hI
    show evalS env' σa a * evalS env' σa b = evalS env' σb a * evalS env' σb b
    rw [iha hI.1, ihb hI.2]

/-- The fused compute_at loop: after `n` iterations only buffers `1` and
`2` have changed; `B[t]` holds the producer value and `C[t]` the consumer
value computed from it for every `t < n`, and nothing outside `[0, n)` of
either buffer moved. -/
theorem atLoop (fB gC : SExpr) (hfB : readsShape 0 0 fB = true)
    (hgC : identAccess gC = true) (env : Env) (σ : Store) :
    ∀ n,
      (∀ (b : Nat) (ix : List Nat), b ≠ 1 → b ≠ 2 →
        iterUp (fun k σ' => updStore
          (updStore σ' 1 [k] (evalS (upd env 1 k) σ' (substSE (fun _ => .var 1) fB)))
          2 [k] (evalS (upd env 1 k)
            (updStore σ' 1 [k] (evalS (upd env 1 k) σ' (substSE (fun _ => .var 1) fB)))
            gC)) n σ b ix = σ b ix) ∧
      (∀ t, t < n →
        iterUp (fun k σ' => updStore
          (updStore σ' 1 [k] (evalS (upd env 1 k) σ' (substSE (fun _ => .var 1) fB)))
          2 [k] (evalS (upd env 1 k)
            (updStore σ' 1 [k] (evalS (upd env 1 k) σ' (substSE (fun _ => .var 1) fB)))
            gC)) n σ 1 [t] = evalS (upd env 0 t) σ fB) ∧
      (∀ ix : List Nat, (∀ t, t < n → ix ≠ [t]) →
        iterUp (fun k σ' => updStore
          (updStore σ' 1 [k] (evalS (upd env 1 k) σ' (substSE (fun _ => .var 1) fB)))
          2 [k] (evalS (upd env 1 k)
            (updStore σ' 1 [k] (evalS (upd env 1 k) σ' (substSE (fun _ => .var 1) fB)))
            gC)) n σ 1 ix = σ 1 ix) ∧
      (∀ t, t < n →
        iterUp (fun k σ' => updStore
          (updStore σ' 1 [k] (evalS (upd env 1 k) σ' (substSE (fun _ => .var 1) fB)))
          2 [k] (evalS (upd env 1 k)
            (updStore σ' 1 [k] (evalS (upd env 1 k) σ' (substSE (fun _ => .var 1) fB)))
            gC)) n σ 2 [t] =
          evalS (upd env 1 t) (updStore σ 1 [t] (evalS (upd env 0 t) σ fB)) gC) ∧
      (∀ ix : List Nat, (∀ t, t < n → ix ≠ [t]) →
        iterUp (fun k σ' => updStore
          (updStore σ' 1 [k] (evalS (upd env 1 k) σ' (substSE (fun _ => .var 1) fB)))
          2 [k] (evalS (upd env 1 k)
            (updStore σ' 1 [k] (evalS (upd env 1 k) σ' (substSE (fun _ => .var 1) fB)))
            gC)) n σ 2 ix = σ 2 ix) := by
  intro n
  induction n with
  | zero =>
    exact ⟨fun b ix _ _ => rfl, fun t ht => absurd ht (by omega), fun ix _ => rfl,
      fun t ht => absurd ht (by omega), fun ix _ => rfl⟩
  | succ n ih =>
    obtain ⟨ih1, ih2, ih3, ih4, ih5⟩ := ih
    have hw : evalS (upd env 1 n)
        (iterUp (fun k σ' => updStore
          (updStore σ' 1 [k] (evalS (upd env 1 k) σ' (substSE (fun _ => .var 1) fB)))
          2 [k] (evalS (upd env 1 k)
            (updStore σ' 1 [k] (evalS (upd env 1 k) σ' (substSE (fun _ => .var 1) fB)))
            gC)) n σ) (substSE (fun _ => .var 1) fB) = evalS (upd env 0 n) σ fB := by
      rw [evalS_substSE]
      exact evalS_readsShape 0 0 (fun _ => evalI (upd env 1 n) (IExpr.var 1))
        (upd env 0 n) _ σ rfl (fun ix => ih1 0 ix (by omega) (by omega)) fB hfB
    have hvC : evalS (upd env 1 n)
        (updStore (iterUp (fun k σ' => updStore
          (updStore σ' 1 [k] (evalS (upd env 1 k) σ' (substSE (fun _ => .var 1) fB)))
          2 [k] (evalS (upd env 1 k)
            (updStore σ' 1 [k] (evalS (upd env 1 k) σ' (substSE (fun _ => .var 1) fB)))
            gC)) n σ) 1 [n]
          (evalS (upd env 1 n)
            (iterUp (fun k σ' => updStore
              (updStore σ' 1 [k] (evalS (upd env 1 k) σ' (substSE (fun _ => .var 1) fB)))
              2 [k] (evalS (upd env 1 k)
                (updStore σ' 1 [k]
                  (evalS (upd env 1 k) σ' (substSE (fun _ => .var 1) fB)))
                gC)) n σ) (substSE (fun _ => .var 1) fB))) gC =
        evalS (upd env 1 n) (updStore σ 1 [n] (evalS (upd env 0 n) σ fB)) gC := by
      refine evalS_identAccess (upd env 1 n) _ _ ?_ gC hgC
      intro b
      rw [upd_same env 1 n]
      by_cases hb1 : b = 1
      · subst hb1
        rw [updStore_same, updStore_same]
        exact hw
      · rw [updStore_other _ _ _ _ b _ (fun hx => hb1 hx.1),
          updStore_other _ _ _ _ b _ (fun hx => hb1 hx.1)]
        by_cases hb2 : b = 2
        · subst hb2
          exact ih5 [n] (fun t ht hh => absurd (by simpa using hh) (by omega))
        · exact ih1 b _ hb1 hb2
    refine ⟨?_, ?_, ?_, ?_, ?_⟩
    · intro b ix hb1 hb2
      simp only [iterUp_succ]
      rw [updStore_other _ _ _ _ b ix (fun hx => hb2 hx.1),
        updStore_other _ _ _ _ b ix (fun hx => hb1 hx.1), ih1 b ix hb1 hb2]
    · intro t ht
      simp only [iterUp_succ]
      rw [updStore_other _ _ _ _ 1 [t] (fun hx => absurd hx.1 (by omega))]
      by_cases htn : t = n
      · subst htn
        rw [updStore_same]
        exact hw
      · rw [updStore_other _ _ _ _ 1 [t] (fun hx => htn (by simpa using hx.2))]
        exact ih2 t (by omega)
    · intro ix hix
      simp only [iterUp_succ]
      rw [updStore_other _ _ _ _ 1 ix (fun hx => absurd hx.1 (by omega)),
        updStore_other _ _ _ _ 1 ix (fun hx => hix n (by omega) hx.2),
        ih3 ix (fun t ht => hix t (by omega))]
    · intro t ht
      simp only [iterUp_succ]
      by_cases htn : t = n
      · subst htn
        rw [updStore_same]
        exact hvC
      · rw [updStore_other _ _ _ _ 2 [t] (fun hx => htn (by simpa using hx.2)),
          updStore_other _ _ _ _ 2 [t] (fun hx => absurd hx.1 (by omega))]
        exact ih4 t (by omega)
    · intro ix hix
      simp only [iterUp_succ]
      rw [updStore_other _ _ _ _ 2 ix (fun hx => hix n (by omega) hx.2),
        updStore_other _ _ _ _ 2 ix (fun hx => absurd hx.1 (by omega)),
        ih5 ix (fun t ht => hix t (by omega))]

/-- An elementwise consumer loop whose body accesses every buffer at
exactly the loop variable is a region fill of buffer `2`, each body
evaluated over the loop entry store. -/
theorem consLoopIdent (m : Nat) (E : SExpr) (hE : identAccess E = true)
    (env : Env) (σ : Store) :
    iterUp (fun k σ' => updStore σ' 2 [k] (evalS (upd env 1 k) σ' E)) m σ =
      setRow σ 0 m (fun k => evalS (upd env 1 k) σ E) := by
  have hblocks := iterUp_blocks
    (fun k σ' => updStore σ' 2 [k] (evalS (upd env 1 k) σ' E))
    σ 0 1 (fun k => evalS (upd env 1 k) σ E) ?_ m
  · exact hblocks.trans (by rw [Nat.mul_one])
  · intro k σ' hag1 hag2
    show updStore σ' 2 [k] (evalS (upd env 1 k) σ' E) =
      setRow σ' (0 + k * 1) 1 (fun u => evalS (upd env 1 (k * 1 + u)) σ E)
    rw [updStore_eq_setRow]
    have e1 : (0 : Nat) + k * 1 = k := by omega
    rw [e1]
    refine setRow_congr _ _ _ _ _ ?_
    intro u hu
    have hu0 : u = 0 := by omega
    subst hu0
    have e2 : k * 1 + 0 = k := by omega
    rw [e2]
    refine evalS_identAccess (upd env 1 k) σ' σ ?_ E hE
    intro b
    by_cases hb2 : b = 2
    · subst hb2
      exact hag2 (upd env 1 k 1) (by rw [upd_same]; omega)
    · exact hag1 b _ hb2

/-- C5: compute_at(consumer, axis) nests the producer's loop body inside
the consumer's loop at that axis: the lowered form is one shared loop
computing the producer element then the consumer element each iteration;
the producer's bounds are narrowed to exactly the single element the
consumer reads at that iteration (one producer store event per consumer
iteration, at the consumed index, against the root form's full separate
producer loop); and the fused form computes the same final store as the
root form on every buffer and cell. -/
theorem C5_compute_at_nesting (m : Nat) (fB gC : SExpr)
    (hfB : readsShape 0 0 fB = true) (hgC : identAccess gC = true)
    (env : Env) (σ : Store) :
    lowerPipeAt m fB gC =
      .forL 1 m (.seq (.store 1 [.var 1] (substSE (fun _ => .var 1) fB))
        (.store 2 [.var 1] gC)) ∧
    events (lowerPipeAt m fB gC) env = evIter (fun k => [(1, [k]), (2, [k])]) m ∧
    events (lowerPipeRoot m fB gC) env =
      evIter (fun k => [(1, [k])]) m ++ evIter (fun k => [(2, [k])]) m ∧
    ∀ (b : Nat) (ix : List Nat),
      run gemvSem (lowerPipeAt m fB gC) env σ b ix =
        run gemvSem (lowerPipeRoot m fB gC) env σ b ix := by
  refine ⟨rfl, rfl, rfl, ?_⟩
  obtain ⟨hA1, hA2, hA3, hA4, hA5⟩ := atLoop fB gC hfB hgC env σ m
  obtain ⟨hP1, hP2, hP3⟩ := prodLoop fB hfB env σ m
  have hrunA : run gemvSem (lowerPipeAt m fB gC) env σ =
      iterUp (fun k σ' => updStore
        (updStore σ' 1 [k] (evalS (upd env 1 k) σ' (substSE (fun _ => .var 1) fB)))
        2 [k] (evalS (upd env 1 k)
          (updStore σ' 1 [k] (evalS (upd env 1 k) σ' (substSE (fun _ => .var 1) fB)))
          gC)) m σ := rfl
  have hrunR : run gemvSem (lowerPipeRoot m fB gC) env σ =
      setRow (iterUp (fun k σ' => updStore σ' 1 [k] (evalS (upd env 0 k) σ' fB)) m σ)
        0 m (fun k => evalS (upd env 1 k)
          (iterUp (fun k σ' => updStore σ' 1 [k] (evalS (upd env 0 k) σ' fB)) m σ) gC) := by
    have h2 : run gemvSem (lowerPipeRoot m fB gC) env σ =
        iterUp (fun k σ' => updStore σ' 2 [k] (evalS (upd env 1 k) σ' gC)) m
          (iterUp (fun k σ' => updStore σ' 1 [k] (evalS (upd env 0 k) σ' fB)) m σ) := rfl
    rw [h2]
    exact consLoopIdent m gC hgC env _
  intro b ix
  rw [hrunA, hrunR]
  by_cases hb2 : b = 2
  · subst hb2
    match ix with
    | [t] =>
      by_cases ht : t < m
      · rw [hA4 t ht, setRow_at, if_pos (by omega)]
        refine evalS_identAccess (upd env 1 t) _ _ ?_ gC hgC
        intro bb
        rw [upd_same env 1 t]
        by_cases hbb1 : bb = 1
        · subst hbb1
          rw [updStore_same]
          exact (hP2 t (by omega)).symm
        · rw [updStore_other _ _ _ _ bb _ (fun hx => hbb1 hx.1)]
          exact (hP1 bb _ hbb1).symm
      · rw [hA5 [t] (fun u hu hh => absurd (by simpa using hh) (by omega)),
          setRow_at, if_neg (by omega)]
        exact (hP1 2 [t] (by omega)).symm
    | [] =>
      rw [hA5 [] (fun u hu hh => List.noConfusion hh),
        setRow_badIx _ _ _ _ [] (fun u hh => List.noConfusion hh)]
      exact (hP1 2 [] (by omega)).symm
    | a :: c :: rest =>
      rw [hA5 (a :: c :: rest) (fun u hu hh => by simp at hh),
        setRow_badIx _ _ _ _ (a :: c :: rest) (fun u hh => by simp at hh)]
      exact (hP1 2 (a :: c :: rest) (by omega)).symm
  · rw [setRow_ne2 _ _ _ _ _ _ hb2]
    by_cases hb1 : b = 1
    · subst hb1
      match ix with
      | [t] =>
        by_cases ht : t < m
        · rw [hA2 t ht]
          exact (hP2 t ht).symm
        · rw [hA3 [t] (fun u hu hh => absurd (by simpa using hh) (by omega))]
          exact (hP3 [t] (fun u hu hh => absurd (by simpa using hh) (by omega))).symm
      | [] =>
        rw [hA3 [] (fun u hu hh => List.noConfusion hh)]
        exact (hP3 [] (fun u hu hh => List.noConfusion hh)).symm
      | a :: c :: rest =>
        rw [hA3 (a :: c :: rest) (fun u hu hh => by simp at hh)]
        exact (hP3 (a :: c :: rest) (fun u hu hh => by simp at hh)).symm
    · rw [hA1 b ix hb1 hb2]
      exact (hP1 b ix hb1).symm

theorem C5_compute_at_nesting_witness :
    lowerPipeAt 2 (.addS (.loadS 0 [.var 0]) (.litS 1))
        (.addS (.loadS 1 [.var 1]) (.loadS 0 [.var 1])) =
      .forL 1 2 (.seq (.store 1 [.var 1]
          (substSE (fun _ => .var 1) (.addS (.loadS 0 [.var 0]) (.litS 1))))
        (.store 2 [.var 1] (.addS (.loadS 1 [.var 1]) (.loadS 0 [.var 1])))) ∧
    events (lowerPipeAt 2 (.addS (.loadS 0 [.var 0]) (.litS 1))
        (.addS (.loadS 1 [.var 1]) (.loadS 0 [.var 1]))) (fun _ => 0) =
      evIter (fun k => [(1, [k]), (2, [k])]) 2 ∧
    events (lowerPipeRoot 2 (.addS (.loadS 0 [.var 0]) (.litS 1))
        (.addS (.loadS 1 [.var 1]) (.loadS 0 [.var 1]))) (fun _ => 0) =
      evIter (fun k => [(1, [k])]) 2 ++ evIter (fun k => [(2, [k])]) 2 ∧
    ∀ (b : Nat) (ix : List Nat),
      run gemvSem (lowerPipeAt 2 (.addS (.loadS 0 [.var 0]) (.litS 1))
          (.addS (.loadS 1 [.var 1]) (.loadS 0 [.var 1]))) (fun _ => 0) (fun _ _ => 0)
          b ix =
        run gemvSem (lowerPipeRoot 2 (.addS (.loadS 0 [.var 0]) (.litS 1))
          (.addS (.loadS 1 [.var 1]) (.loadS 0 [.var 1]))) (fun _ => 0) (fun _ _ => 0)
          b ix :=
  C5_compute_at_nesting 2 (.addS (.loadS 0 [.var 0]) (.litS 1))
    (.addS (.loadS 1 [.var 1]) (.loadS 0 [.var 1])) (by decide) (by decide)
    (fun _ => 0) (fun _ _ => 0)

/-- C9: every primitive invocation that raises one of the documented
errors aborts with the schedule handed back to the caller exactly equal
to its state before the call — no partial mutation survives — and each
member of the error taxonomy is in fact raised in its documented
situation: `InvalidAxisReference` for a bad stage index or non-leaf axis,
`NonAdjacentAxes` for fusing non-adjacent leaves, `DuplicateAxis` for a
repeated reorder axis, `DuplicateBinding` for re-binding a thread tag,
`NotADependency` for compute_at onto a non-consumer, and
`PatternMismatch` for tensorize against a different shape or body
skeleton. -/
theorem C9_error_atomicity (s : Sched) :
    (∀ (p : Prim) (err : SErr), applyPrim s p = .error err → applyTotal s p = s) ∧
    (∀ n ax f, s.stages[n]? = none →
      applyPrim s (.psplitF n ax f) = .error .invalidAxisReference) ∧
    (∀ n ax f e, s.stages[n]? = some e → ax ∉ e.core.leaves →
      applyPrim s (.psplitF n ax f) = .error .invalidAxisReference) ∧
    (∀ n axo axi e, s.stages[n]? = some e →
      isAdjacent e.core.leaves axo axi = false →
      axo ∈ e.core.leaves → axi ∈ e.core.leaves →
      applyPrim s (.pfuse n axo axi) = .error .nonAdjacentAxes) ∧
    (∀ n axs e, s.stages[n]? = some e → ¬ axs.Nodup →
      applyPrim s (.preorder n axs) = .error .duplicateAxis) ∧
    (∀ n ax tag e, s.stages[n]? = some e → ax ∈ e.core.leaves →
      e.binds.any (fun b => b.2 = tag) = true →
      applyPrim s (.pbind n ax tag) = .error .duplicateBinding) ∧
    (∀ n target ax e t, s.stages[n]? = some e → s.stages[target]? = some t →
      ax ∈ t.core.leaves → transDep s target n = false →
      applyPrim s (.pcomputeAt n target ax) = .error .notADependency) ∧
    (∀ n ax shape sk e, s.stages[n]? = some e → ax ∈ e.core.leaves →
      ¬ ((e.core.leaves.drop (e.core.leaves.findIdx (fun l => l = ax))).map e.core.ext
          = shape ∧ e.skel = sk) →
      applyPrim s (.ptensorize n ax shape sk) = .error .patternMismatch) := by
  refine ⟨?_, ?_, ?_, ?_, ?_, ?_, ?_, ?_⟩
  · intro p err h
    unfold applyTotal
    rw [h]
  · intro n ax f hnone
    simp only [applyPrim, hnone]
  · intro n ax f e hsome hax
    have hsp : splitF e.core ax f = Except.error SErr.invalidAxisReference := by
      unfold splitF
      rw [if_neg hax]
    simp only [applyPrim, hsome, hsp]
  · intro n axo axi e hsome hadj hmo hmi
    have hfu : fuseP e.core axo axi = Except.error SErr.nonAdjacentAxes := by
      unfold fuseP
      rw [if_neg (by simp [hadj]), if_pos ⟨hmo, hmi⟩]
    simp only [applyPrim, hsome, hfu]
  · intro n axs e hsome hdup
    have hre : reorderP e.core axs = Except.error SErr.duplicateAxis := by
      unfold reorderP
      rw [if_pos hdup]
    simp only [applyPrim, hsome, hre]
  · intro n ax tag e hsome hmem hband
    simp only [applyPrim, hsome]
    rw [if_pos hmem, if_pos hband]
  · intro n target ax e t hsomeN hsomeT hmem hdep
    simp only [applyPrim, hsomeN, hsomeT]
    rw [if_pos hmem, if_neg (by simp [hdep])]
  · intro n ax shape sk e hsome hmem hmis
    simp only [applyPrim, hsome]
    rw [if_pos hmem, if_neg hmis]

theorem C9_error_atomicity_witness :
    applyTotal ⟨[⟨initStage [4], [], CLoc.root, none, [], Skel.loadK⟩]⟩
      (.psplitF 0 5 2) =
    ⟨[⟨initStage [4], [], CLoc.root, none, [], Skel.loadK⟩]⟩ :=
  (C9_error_atomicity ⟨[⟨initStage [4], [], CLoc.root, none, [], Skel.loadK⟩]⟩).1
    (.psplitF 0 5 2) .invalidAxisReference rfl

end TVM
